import Mathlib

/-!
# pulp-trainlib: im2col transform, block transpose, pointwise convolution, softmax

A shallow embedding of `pulp_im2col_fp32` and `pulp_blocktransp_fp32`
(`lib/sources/pulp_im2col_fp32.c`) with the fork/join dispatch that runs them on
every core of the cluster, of the pointwise convolution passes
(`lib/sources/pulp_conv_pw_fp16.c`) and of the softmax kernels and partition rule
of `lib/sources/pulp_act_fp16.c`.

Conventions of the embedding

* C scalars are integers (`Int`).  Every C assignment `int x = e` becomes
  `x := i32 e`, every `uint32_t x = e` becomes `x := u32 e` and every
  `uint8_t x = e` becomes `x := u8 e`, where `e` is evaluated over the integers.
  Addition, subtraction and multiplication commute with reduction modulo `2^32`,
  so wrapping once per statement is the same as wrapping at every operator.
  Division, remainder and comparison are applied to wrapped operands, in the
  signedness C selects for the operand types.
* A C array reached through a pointer is a total map `Int → α` from the signed
  element offset relative to the pointer to the stored value.
* `float` values are only copied, or set to the literal `0`; the element type is
  an arbitrary type `α` with a zero.  Where `fp16` values are added and multiplied
  they are elements of a commutative ring, in which the arithmetic is exact.
* Diagnostics printed with `printf` are recorded in a log.
* Undefined behaviour that does not depend on the memory contents (division by a
  zero stride, use of the uninitialised `start`/`stop`, a variable length array
  declared with a length that is not positive) is the result `none`.
-/

set_option linter.unusedVariables false

namespace PulpTrainLib

/-! ## Machine integers -/

/-- Reduction to an unsigned 8 bit value (`uint8_t`). -/
def u8 (x : Int) : Int := x % 256

/-- Reduction to an unsigned 32 bit value (`uint32_t`). -/
def u32 (x : Int) : Int := x % 4294967296

/-- Reduction to a signed 32 bit two's complement value (`int`). -/
def i32 (x : Int) : Int := (x + 2147483648) % 4294967296 - 2147483648

/-! ## Loops -/

/-- Runs `body 0`, `body 1`, ..., `body (n-1)` in this order on the state. -/
def forN {σ : Type} (n : Nat) (body : Nat → σ → σ) (s : σ) : σ :=
  match n with
  | 0 => s
  | k + 1 => body k (forN k body s)

/-- The C loop `for (int i = lo; i < hi; i++) body`. -/
def forLoop {σ : Type} (lo hi : Int) (body : Int → σ → σ) (s : σ) : σ :=
  forN (hi - lo).toNat (fun k => body (lo + (k : Int))) s

/-- The loop `forN` for a body that may fail; the loop stops at the first failure. -/
def forNM {σ : Type} (n : Nat) (body : Nat → σ → Option σ) (s : σ) : Option σ :=
  match n with
  | 0 => some s
  | k + 1 => (forNM k body s).bind (body k)

/-- The C loop `for (int i = lo; i < hi; i++) body` for a body that may fail. -/
def forLoopM {σ : Type} (lo hi : Int) (body : Int → σ → Option σ) (s : σ) : Option σ :=
  forNM (hi - lo).toNat (fun k => body (lo + (k : Int))) s

/-! ## Data model -/

/-- The tensor `struct blob`: data and gradient buffers with their extents. -/
structure blob (α : Type) where
  data : Int → α
  diff : Int → α
  W : Int
  H : Int
  C : Int

/-- The argument block `struct im2col_args` (the unused field `DW` is left out). -/
structure im2col_args (α : Type) where
  input : blob α
  c : blob α
  output : blob α
  pBuffer : Int → α
  Lpad : Int
  Rpad : Int
  Upad : Int
  Dpad : Int
  mod : Int
  stride_h : Int
  stride_w : Int
  USE_DMA : Int
  HWC : Int

/-- The diagnostics `pulp_im2col_fp32` prints. -/
inductive Diag where
  | invalid_H_stride
  | invalid_W_stride
  | invalid_USE_DMA
  | invalid_HWC
  | hwc_in_grad_not_implemented
  deriving DecidableEq, Repr

/-- What one call leaves behind: the im2col buffer and the printed diagnostics. -/
structure im2col_result (α : Type) where
  i2c_buf : Int → α
  log : List Diag

/-- The static partition of `[0, N)` computed by core `core_id` out of `NUM_CORES`:
`blockSize = (N+NUM_CORES-1) / NUM_CORES; start = pi_core_id()*blockSize;
stop = start+blockSize > N ? N : start+blockSize;` with `N` a `uint32_t`. -/
def block_range (NUM_CORES core_id N : Int) : Int × Int :=
  let blockSize := i32 (u32 (N + NUM_CORES - 1) / u32 NUM_CORES)
  let start := i32 (core_id * blockSize)
  let stop := if u32 (start + blockSize) > N then i32 N else i32 (start + blockSize)
  (start, stop)

/-- Modelled from the spec: the DMA primitive `transfer2D(direction, externalAddr,
localAddr, rowLength, rowStride, totalSize)` followed by its `wait`, in the
external-to-local direction and in units of one element: rows of `length`
elements are read `stride` elements apart and stored contiguously,
`loc[i*length+j] = ext[i*stride+j]`, until `size` elements are transferred. -/
def pi_cl_dma_memcpy_2d {α : Type} (ext : Int → α) (ext_off : Int) (loc : Int → α) (loc_off : Int)
    (stride length size : Int) : Int → α :=
  forLoop 0 (size / length) (fun i loc =>
    forLoop 0 length (fun j loc =>
      Function.update loc (loc_off + i * length + j) (ext (ext_off + i * stride + j))) loc) loc

/-! ## The code paths of `pulp_im2col_fp32` -/

section paths
variable {α : Type} [Zero α]

/-- Lines 131-165: CHW layout, direct path, forward and weight gradient mode. -/
def im2col_chw_direct_fw (input_data : Int → α)
    (Win Hin Cin Wk Hk Wo Ho Htot Wtot Lpad Rpad Upad Dpad Hstr Wstr start stop : Int)
    (i2c_buf : Int → α) : Int → α :=
  let padding := i32 (Lpad + Rpad + Upad + Dpad)
  forLoop 0 Htot (fun ho i2c_buf =>
    forLoop 0 Wtot (fun wo i2c_buf =>
      forLoop start stop (fun ci i2c_buf =>
        -- IM2COL buffer coordinates
        let kernel_idx := i32 (ci * Hk * Wk)
        let segment_idx := i32 (wo * Hk * Wk * Cin + ho * Hk * Wk * Cin * Wtot)
        -- Input tensor coordinates
        let receptive_field_idx := i32 ((wo * Wstr - Lpad) + (ho * Hstr - Upad) * Win + ci * Hin * Win)
        forLoop 0 Hk (fun hk i2c_buf =>
          forLoop 0 Wk (fun wk i2c_buf =>
            let i2c_inner_idx := i32 (wk + hk * Wk)
            let in_inner_idx := i32 (wk + hk * Win)
            -- Padding condition
            let w_pad_cond := i32 (wk + wo * Wstr)
            let h_pad_cond := i32 (hk + ho * Hstr)
            if padding > 0 ∧ (h_pad_cond < Upad ∨ w_pad_cond < Lpad
                ∨ u32 h_pad_cond > u32 (Ho + Hk - Dpad) ∨ u32 w_pad_cond > u32 (Wo + Wk - Rpad)) then
              Function.update i2c_buf (i32 (kernel_idx + segment_idx + i2c_inner_idx)) 0
            else
              Function.update i2c_buf (i32 (kernel_idx + segment_idx + i2c_inner_idx))
                (input_data (i32 (receptive_field_idx + in_inner_idx)))
          ) i2c_buf) i2c_buf) i2c_buf) i2c_buf) i2c_buf

/-- Lines 173-209: CHW layout, direct path, input gradient mode. -/
def im2col_chw_direct_in_grad (output_diff : Int → α)
    (Win Hin Wk Hk Co Hox Wox start stop : Int) (i2c_buf : Int → α) : Int → α :=
  forLoop 0 Hin (fun hi i2c_buf =>
    forLoop 0 Win (fun wi i2c_buf =>
      forLoop start stop (fun co i2c_buf =>
        -- IM2COL buffer coordinates
        let kernel_idx := i32 (co * Hk * Wk)
        let segment_idx := i32 (wi * Hk * Wk * Co + hi * Hk * Wk * Co * Win)
        -- Output grad tensor coordinates
        let ho_rf := i32 (hi - (Hk - 1))
        let wo_rf := i32 (wi - (Wk - 1))
        let receptive_field_idx := i32 (wo_rf + ho_rf * Wox + co * Hox * Wox)
        forLoop 0 Hk (fun hk i2c_buf =>
          forLoop 0 Wk (fun wk i2c_buf =>
            let i2c_inner_idx := i32 (wk + hk * Wk)
            let out_inner_idx := i32 (wk + hk * Wox)
            -- Padding condition
            let w_pad_cond := i32 (wk + wo_rf)
            let h_pad_cond := i32 (hk + ho_rf)
            if h_pad_cond < 0 ∨ w_pad_cond < 0 ∨ h_pad_cond ≥ Hox ∨ w_pad_cond ≥ Wox then
              Function.update i2c_buf (i32 (kernel_idx + segment_idx + i2c_inner_idx)) 0
            else
              Function.update i2c_buf (i32 (kernel_idx + segment_idx + i2c_inner_idx))
                (output_diff (i32 (receptive_field_idx + out_inner_idx)))
          ) i2c_buf) i2c_buf) i2c_buf) i2c_buf) i2c_buf

/-- Lines 234-261: CHW layout, DMA path, forward mode, all pads zero.  The rows
`[Hstart, Hstop)` are the static partition of `[0, Htot)` computed at lines 226-228. -/
def im2col_chw_dma_fw_nopad (input_data : Int → α)
    (Win Hin Cin Wk Hk Wtot Hstr Wstr Hstart Hstop : Int) (i2c_buf : Int → α) : Int → α :=
  forLoop Hstart Hstop (fun ho i2c_buf =>
    forLoop 0 Wtot (fun wo i2c_buf =>
      forLoop 0 Cin (fun ci i2c_buf =>
        -- IM2COl buffer coordinates
        let segment_idx := i32 (wo * Hk * Wk * Cin + ho * Hk * Wk * Cin * Wtot)
        let kernel_idx := i32 (ci * Hk * Wk)
        -- Input tensor coordinates
        let receptive_field_idx := i32 ((wo * Wstr) + (ho * Hstr) * Win + ci * Hin * Win)
        -- stride = 4*Win, length = 4*Wk, size = 4*Hk*Wk bytes
        pi_cl_dma_memcpy_2d input_data receptive_field_idx i2c_buf (i32 (segment_idx + kernel_idx))
          (u32 Win) (u32 Wk) (u32 (Hk * Wk))
      ) i2c_buf) i2c_buf) i2c_buf

/-- Lines 264-324: CHW layout, DMA path, forward mode, some pad nonzero.  The local
array `load_buffer` is uninitialised in C; every cell that is read from it has
been written by the transfer before, so its initial content is immaterial and is
taken to be zero.  The declarations `float load_buffer[transfer_size]` and
`float pad_buffer[Wk*Hk]` of lines 290-291 are undefined when the length is not
positive, and a `row_size` or `col_size` that is not positive also puts a wrapped
or zero length into the transfer descriptor (lines 296-297): the run is then
`none`. -/
def im2col_chw_dma_fw_pad (input_data : Int → α)
    (Win Hin Cin Wk Hk Htot Wtot Lpad Rpad Upad Dpad Hstr Wstr start stop : Int)
    (i2c_buf : Int → α) : Option (Int → α) :=
  forLoopM 0 Htot (fun ho i2c_buf =>
    forLoopM 0 Wtot (fun wo i2c_buf =>
      -- Initialize padding conditions and variables
      let pad_l := i32 (Lpad - wo * Wstr)
      let pad_r := i32 (wo * Wstr + Wk - Wtot - Rpad)
      let pad_u := i32 (Upad - ho * Hstr)
      let pad_d := i32 (ho * Hstr + Hk - Htot - Dpad)
      let row_size := i32 Wk
      let col_size := i32 Hk
      let in_shift_idx := 0
      let offs_l := 0
      let offs_u := 0
      -- if (pad_l > 0) {row_size -= pad_l; in_shift_idx += pad_l; offs_l = pad_l;}
      let row_size := if pad_l > 0 then i32 (row_size - pad_l) else row_size
      let in_shift_idx := if pad_l > 0 then i32 (in_shift_idx + pad_l) else in_shift_idx
      let offs_l := if pad_l > 0 then pad_l else offs_l
      -- if (pad_r > 0) {row_size -= pad_r;}
      let row_size := if pad_r > 0 then i32 (row_size - pad_r) else row_size
      -- if (pad_u > 0) {col_size -= pad_u; in_shift_idx += pad_u * Win; offs_u = pad_u;}
      let col_size := if pad_u > 0 then i32 (col_size - pad_u) else col_size
      let in_shift_idx := if pad_u > 0 then i32 (in_shift_idx + pad_u * Win) else in_shift_idx
      let offs_u := if pad_u > 0 then pad_u else offs_u
      -- if (pad_d > 0) {col_size -= pad_d;}
      let col_size := if pad_d > 0 then i32 (col_size - pad_d) else col_size
      let transfer_size := i32 (row_size * col_size)
      forLoopM start stop (fun ci i2c_buf =>
        -- IM2COL buffer coordinates
        let kernel_idx := i32 (ci * Hk * Wk)
        let segment_idx := i32 (wo * Hk * Wk * Cin + ho * Hk * Wk * Cin * Wtot)
        -- Input tensor coordinates
        let receptive_field_idx := i32 ((wo * Wstr - Lpad) + (ho * Hstr - Upad) * Win + ci * Hin * Win)
        -- float load_buffer[transfer_size]; float pad_buffer[Wk*Hk];
        if row_size ≤ 0 ∨ col_size ≤ 0 ∨ transfer_size ≤ 0 ∨ u32 (Wk * Hk) = 0 then none else
        -- stride = 4*Win, length = 4*row_size, size = 4*transfer_size bytes
        let load_buffer : Int → α :=
          pi_cl_dma_memcpy_2d input_data (i32 (receptive_field_idx + in_shift_idx)) (fun _ => 0) 0
            (u32 Win) row_size transfer_size
        -- Initialize pad_buffer
        let pad_buffer : Int → α :=
          forLoop 0 (u32 (Wk * Hk)) (fun i pad_buffer => Function.update pad_buffer i 0) (fun _ => 0)
        -- Fill the pad_buffer
        let pad_buffer : Int → α :=
          forLoop 0 col_size (fun i pad_buffer =>
            forLoop 0 row_size (fun j pad_buffer =>
              let pad_buffer_idx := i32 (offs_l + j + (offs_u + i) * Wk)
              Function.update pad_buffer pad_buffer_idx (load_buffer (i32 (j + i * row_size)))
            ) pad_buffer) pad_buffer
        -- Fill im2col
        some (forLoop 0 (u32 (Wk * Hk)) (fun i i2c_buf =>
          Function.update i2c_buf (i32 (segment_idx + kernel_idx + i)) (pad_buffer i)) i2c_buf)
      ) i2c_buf) i2c_buf) i2c_buf

/-- Lines 333-397: CHW layout, DMA path, input gradient mode.  As in the forward
path the initial content of `load_buffer` is immaterial, and the run is `none`
when `float load_buffer[transfer_size]` or `float pad_buffer[Hk*Wk]` (lines
361-362) is declared with a length that is not positive or `row_size` or
`col_size` is not positive (lines 367-368). -/
def im2col_chw_dma_in_grad (output_diff : Int → α)
    (Win Hin Wk Hk Co Hox Wox start stop : Int) (i2c_buf : Int → α) : Option (Int → α) :=
  forLoopM 0 Hin (fun hi i2c_buf =>
    forLoopM 0 Win (fun wi i2c_buf =>
      forLoopM start stop (fun co i2c_buf =>
        -- IM2COL buffer coordinates
        let kernel_idx := i32 (co * Hk * Wk)
        let segment_idx := i32 (wi * Hk * Wk * Co + hi * Hk * Wk * Co * Win)
        -- Output grad tensor coordinates
        let ho_rf := i32 (hi - (Hk - 1))
        let wo_rf := i32 (wi - (Wk - 1))
        let receptive_field_idx := i32 (wo_rf + ho_rf * Wox + co * Hox * Wox)
        -- Padding conditions
        let pad_l := i32 (-wo_rf)
        let pad_r := i32 (wo_rf + (Wk - 1))
        let pad_u := i32 (-ho_rf)
        let pad_d := i32 (ho_rf + (Hk - 1))
        let load_shift := 0
        let offs_l := 0
        let offs_u := 0
        -- Transfer size
        let row_size := i32 Wk
        let col_size := i32 Hk
        -- if (pad_l>0) {row_size -= pad_l; load_shift += pad_l; offs_l = pad_l;}
        let row_size := if pad_l > 0 then i32 (row_size - pad_l) else row_size
        let load_shift := if pad_l > 0 then i32 (load_shift + pad_l) else load_shift
        let offs_l := if pad_l > 0 then pad_l else offs_l
        -- if (pad_r>=Wox) {row_size -= pad_r-1;}
        let row_size := if pad_r ≥ Wox then i32 (row_size - (pad_r - 1)) else row_size
        -- if (pad_u>0) {col_size -= pad_u; load_shift += pad_u*Wox; offs_u = pad_u;}
        let col_size := if pad_u > 0 then i32 (col_size - pad_u) else col_size
        let load_shift := if pad_u > 0 then i32 (load_shift + pad_u * Wox) else load_shift
        let offs_u := if pad_u > 0 then pad_u else offs_u
        -- if (pad_d>=Hox) {col_size -= pad_d-1;}
        let col_size := if pad_d ≥ Hox then i32 (col_size - (pad_d - 1)) else col_size
        let transfer_size := i32 (col_size * row_size)
        -- float load_buffer[transfer_size]; float pad_buffer[Hk*Wk];
        if row_size ≤ 0 ∨ col_size ≤ 0 ∨ transfer_size ≤ 0 ∨ u32 (Hk * Wk) = 0 then none else
        -- stride = 4*Wox, length = 4*row_size, size = 4*transfer_size bytes
        let load_buffer : Int → α :=
          pi_cl_dma_memcpy_2d output_diff (i32 (receptive_field_idx + load_shift)) (fun _ => 0) 0
            Wox row_size transfer_size
        -- Prepare pad_buffer
        let pad_buffer : Int → α :=
          forLoop 0 (u32 (Hk * Wk)) (fun idx pad_buffer => Function.update pad_buffer idx 0) (fun _ => 0)
        -- Fill pad_buffer
        let pad_buffer : Int → α :=
          forLoop 0 col_size (fun kh pad_buffer =>
            forLoop 0 row_size (fun kw pad_buffer =>
              let pad_buf_idx := i32 ((kw + offs_l) + (kh + offs_u) * Wk)
              Function.update pad_buffer pad_buf_idx (load_buffer (i32 (kw + kh * row_size)))
            ) pad_buffer) pad_buffer
        -- Fill im2col_buffer
        some (forLoop 0 (u32 (Hk * Wk)) (fun idx i2c_buf =>
          Function.update i2c_buf (i32 (kernel_idx + segment_idx + idx)) (pad_buffer idx)) i2c_buf)
      ) i2c_buf) i2c_buf) i2c_buf

/-- Lines 429-448, and verbatim again at lines 453-472, 540-559 and 564-583: HWC
layout, forward mode.  The source has the same loop nest in the branch taken when
all pads are zero and in the branch taken otherwise, on both memory paths. -/
def im2col_hwc_fw (input_data : Int → α)
    (Win Cin Wk Hk Wtot Lpad Upad Hstr Wstr start stop : Int) (i2c_buf : Int → α) : Int → α :=
  forLoop start stop (fun ho i2c_buf =>
    forLoop 0 Wtot (fun wo i2c_buf =>
      -- Im2Col indices
      let segment_idx := i32 (wo * Hk * Wk * Cin + ho * Hk * Wk * Cin * Wtot)
      -- Input activation indices
      let input_idx := i32 ((wo * Wstr - Lpad) * Cin + (ho * Hstr - Upad) * Cin * Win)
      forLoop 0 Hk (fun hk i2c_buf =>
        forLoop 0 Wk (fun wk i2c_buf =>
          forLoop 0 Cin (fun ci i2c_buf =>
            let i2c_inner_idx := i32 (ci + wk * Cin + hk * Cin * Wk)
            let act_idx := i32 (ci + wk * Cin + hk * Cin * Win)
            -- Fill im2col buffer
            Function.update i2c_buf (i32 (segment_idx + i2c_inner_idx))
              (input_data (i32 (input_idx + act_idx)))
          ) i2c_buf) i2c_buf) i2c_buf) i2c_buf) i2c_buf

/-- Lines 487-520 (with `hlo = 0`, `hhi = Hin`) and lines 598-608 (with
`hlo = start`, `hhi = stop`): HWC layout, input gradient mode.  The body of the
innermost loop is commented out or empty in the source. -/
def im2col_hwc_in_grad (Win Wk Hk Co hlo hhi : Int) (i2c_buf : Int → α) : Int → α :=
  forLoop hlo hhi (fun _hi i2c_buf =>
    forLoop 0 Win (fun _wi i2c_buf =>
      forLoop 0 Hk (fun _hk i2c_buf =>
        forLoop 0 Wk (fun _wk i2c_buf =>
          forLoop 0 Co (fun _co i2c_buf => i2c_buf) i2c_buf) i2c_buf) i2c_buf) i2c_buf) i2c_buf

/-! ## `pulp_im2col_fp32` -/

/-- The function `pulp_im2col_fp32` as executed by core `core_id` of a build with
`NUM_CORES` cores (`NUM_CORES` is the compile time constant, `core_id` the value of
`pi_core_id()`).  The result is `none` when the call divides by a zero stride at
lines 69-70, reads `start`/`stop` that no branch of lines 75-94 has assigned, or
declares a staging buffer of the DMA path with a length that is not positive. -/
def pulp_im2col_fp32 (NUM_CORES core_id : Int) (args : im2col_args α) : Option (im2col_result α) :=
  -- unpack args
  let input := args.input
  let coeff := args.c
  let output := args.output
  let i2c_buf := args.pBuffer
  let Lpad := u8 args.Lpad
  let Rpad := u8 args.Rpad
  let Upad := u8 args.Upad
  let Dpad := u8 args.Dpad
  let mod := u8 args.mod
  let Hstr := u8 args.stride_h
  let Wstr := u8 args.stride_w
  let USE_DMA := u8 args.USE_DMA
  let HWC := u8 args.HWC
  -- activations dimensions, w/o padding
  let Win := u32 input.W
  let Hin := u32 input.H
  let Cin := u32 input.C
  -- kernel dimensions
  let Wk := u32 coeff.W
  let Hk := u32 coeff.H
  let Co := u32 output.C
  -- Set up internal variables
  let Ho := u32 (Hin - Hk + 1)
  let Wo := u32 (Win - Wk + 1)
  -- Set up im2col variables for padding and stride (unsigned division by the stride)
  if Hstr = 0 ∨ Wstr = 0 then none else
  let Htot := u32 (Hin - Hk + Upad + Dpad + Hstr) / Hstr
  let Wtot := u32 (Win - Wk + Lpad + Rpad + Wstr) / Wstr
  -- Definitions for parallelism: `#if NUM_CORES > 1 ... #else ... #endif`
  let range : Option (Int × Int) :=
    if NUM_CORES > 1 then
      if HWC = 0 ∧ mod = 0 then some (block_range NUM_CORES core_id Cin)
      else if HWC = 0 ∧ mod = 1 then some (block_range NUM_CORES core_id Co)
      else if HWC = 1 ∧ mod = 0 then some (block_range NUM_CORES core_id Htot)
      else if HWC = 1 ∧ mod = 1 then some (block_range NUM_CORES core_id Hin)
      else none
    else
      if HWC = 0 ∧ mod = 0 then some (0, i32 Cin)
      else if HWC = 0 ∧ mod = 1 then some (0, i32 Co)
      else if HWC = 1 ∧ mod = 0 then some (0, i32 Htot)
      else if HWC = 1 ∧ mod = 1 then some (0, i32 Hin)
      else none
  -- USE CHW FORMAT
  if HWC = 0 then
    -- LOCAL L1 IM2COL
    if USE_DMA = 0 then
      -- FORWARD & WEIGHT GRAD
      if mod = 0 then
        if u32 (Hin - Hk + Upad + Dpad + Hstr) % Hstr > 0 then
          some ⟨i2c_buf, [Diag.invalid_H_stride]⟩
        else
          let Htot := u32 (Hin - Hk + Upad + Dpad + Hstr) / Hstr
          if u32 (Win - Wk + Lpad + Rpad + Wstr) % Wstr > 0 then
            some ⟨i2c_buf, [Diag.invalid_W_stride]⟩
          else
            let Wtot := u32 (Win - Wk + Lpad + Rpad + Wstr) / Wstr
            range.map (fun r =>
              ⟨im2col_chw_direct_fw input.data Win Hin Cin Wk Hk Wo Ho Htot Wtot
                  Lpad Rpad Upad Dpad Hstr Wstr r.1 r.2 i2c_buf, []⟩)
      else -- IN GRAD
        let Hox := i32 output.H
        let Wox := i32 output.W
        range.map (fun r =>
          ⟨im2col_chw_direct_in_grad output.diff Win Hin Wk Hk Co Hox Wox r.1 r.2 i2c_buf, []⟩)
    -- IM2COL FROM L2 DATA TO L1 IM2COL_BUFFER
    else if USE_DMA = 1 then
      -- FORWARD & WEIGHT GRAD
      if mod = 0 then
        if u32 (Hin - Hk + Upad + Dpad + Hstr) % Hstr > 0 then
          some ⟨i2c_buf, [Diag.invalid_H_stride]⟩
        else
          let Htot := u32 (Hin - Hk + Upad + Dpad + Hstr) / Hstr
          if u32 (Win - Wk + Lpad + Rpad + Wstr) % Wstr > 0 then
            some ⟨i2c_buf, [Diag.invalid_W_stride]⟩
          else
            let Wtot := u32 (Win - Wk + Lpad + Rpad + Wstr) / Wstr
            -- Internal parallelization scheme on sizes
            let Hrange := block_range NUM_CORES core_id Htot
            let padding := i32 (Lpad + Rpad + Upad + Dpad)
            if padding = 0 then
              some ⟨im2col_chw_dma_fw_nopad input.data Win Hin Cin Wk Hk Wtot Hstr Wstr
                  Hrange.1 Hrange.2 i2c_buf, []⟩
            else
              range.bind (fun r =>
                (im2col_chw_dma_fw_pad input.data Win Hin Cin Wk Hk Htot Wtot
                    Lpad Rpad Upad Dpad Hstr Wstr r.1 r.2 i2c_buf).map (fun b => ⟨b, []⟩))
      else -- IN GRAD
        let Hox := i32 output.H
        let Wox := i32 output.W
        range.bind (fun r =>
          (im2col_chw_dma_in_grad output.diff Win Hin Wk Hk Co Hox Wox r.1 r.2 i2c_buf).map
            (fun b => ⟨b, []⟩))
    -- ERROR SIGNAL
    else some ⟨i2c_buf, [Diag.invalid_USE_DMA]⟩
  -- USE HWC FORMAT
  else if HWC = 1 then
    -- First statement of the branch, `if (USE_DMA == 0) { ... }`.  The flag tells
    -- whether the function has returned inside it.
    let first : Option (Bool × im2col_result α) :=
      if USE_DMA = 0 then
        -- FORWARD & WEIGHT GRAD
        if mod = 0 then
          if u32 (Hin - Hk + Upad + Dpad + Hstr) % Hstr > 0 then
            some (true, ⟨i2c_buf, [Diag.invalid_H_stride]⟩)
          else
            let Htot := u32 (Hin - Hk + Upad + Dpad + Hstr) / Hstr
            if u32 (Win - Wk + Lpad + Rpad + Wstr) % Wstr > 0 then
              some (true, ⟨i2c_buf, [Diag.invalid_W_stride]⟩)
            else
              let Wtot := u32 (Win - Wk + Lpad + Rpad + Wstr) / Wstr
              let padding := i32 (Lpad + Rpad + Upad + Dpad)
              if padding = 0 then
                range.map (fun r =>
                  (false, ⟨im2col_hwc_fw input.data Win Cin Wk Hk Wtot Lpad Upad Hstr Wstr
                      r.1 r.2 i2c_buf, []⟩))
              else
                range.map (fun r =>
                  (false, ⟨im2col_hwc_fw input.data Win Cin Wk Hk Wtot Lpad Upad Hstr Wstr
                      r.1 r.2 i2c_buf, []⟩))
        else -- IN GRAD
          some (false, ⟨im2col_hwc_in_grad Win Wk Hk Co 0 Hin i2c_buf,
            [Diag.hwc_in_grad_not_implemented]⟩)
      else some (false, ⟨i2c_buf, []⟩)
    first.bind (fun st =>
      if st.1 then some st.2
      else
        let i2c_buf := st.2.i2c_buf
        -- Second statement of the branch, `if (USE_DMA == 1) { ... } else { ... }`.
        if USE_DMA = 1 then
          -- FORWARD & WEIGHT GRAD
          if mod = 0 then
            if u32 (Hin - Hk + Upad + Dpad + Hstr) % Hstr > 0 then
              some ⟨i2c_buf, st.2.log ++ [Diag.invalid_H_stride]⟩
            else
              let Htot := u32 (Hin - Hk + Upad + Dpad + Hstr) / Hstr
              if u32 (Win - Wk + Lpad + Rpad + Wstr) % Wstr > 0 then
                some ⟨i2c_buf, st.2.log ++ [Diag.invalid_W_stride]⟩
              else
                let Wtot := u32 (Win - Wk + Lpad + Rpad + Wstr) / Wstr
                let padding := i32 (Lpad + Rpad + Upad + Dpad)
                if padding = 0 then
                  range.map (fun r =>
                    ⟨im2col_hwc_fw input.data Win Cin Wk Hk Wtot Lpad Upad Hstr Wstr
                        r.1 r.2 i2c_buf, st.2.log⟩)
                else
                  range.map (fun r =>
                    ⟨im2col_hwc_fw input.data Win Cin Wk Hk Wtot Lpad Upad Hstr Wstr
                        r.1 r.2 i2c_buf, st.2.log⟩)
          else -- IN GRAD
            range.map (fun r =>
              ⟨im2col_hwc_in_grad Win Wk Hk Co r.1 r.2 i2c_buf,
                st.2.log ++ [Diag.hwc_in_grad_not_implemented]⟩)
        -- ERROR SIGNAL
        else some ⟨i2c_buf, st.2.log ++ [Diag.invalid_USE_DMA]⟩)
  -- ERROR SIGNAL
  else some ⟨i2c_buf, [Diag.invalid_HWC]⟩

/-- Cores `0, ..., n-1` of a `NUM_CORES` build run `pulp_im2col_fp32` one after the
other on the shared im2col buffer; the diagnostics are collected in order. -/
def run_cores (NUM_CORES : Int) (args : im2col_args α) : Nat → Option (im2col_result α)
  | 0 => some ⟨args.pBuffer, []⟩
  | n + 1 =>
    (run_cores NUM_CORES args n).bind (fun r =>
      (pulp_im2col_fp32 NUM_CORES (n : Int) { args with pBuffer := r.i2c_buf }).map (fun r2 =>
        ⟨r2.i2c_buf, r.log ++ r2.log⟩))

/-- Modelled from the spec: the fork/join primitive `forkJoin(P, fn, args)`, here
`pi_cl_team_fork(NUM_CORES, pulp_im2col_fp32, &args)`: the function is invoked once
per worker, worker `k` seeing `pi_core_id() = k`, and the call returns when all
have completed.  The workers are run one after the other. -/
def pi_cl_team_fork (NUM_CORES : Nat) (args : im2col_args α) : Option (im2col_result α) :=
  run_cores (NUM_CORES : Int) args NUM_CORES

end paths

/-- Argument block for a call on tensors given by their extents: input
`[Cin, Hin, Win]`, kernel `Hk x Wk`, output `[Co, Hox, Wox]`. -/
def mk_args {α : Type} (input_data output_diff i2c_buf : Int → α)
    (Cin Hin Win Hk Wk Co Hox Wox Lpad Rpad Upad Dpad Hstr Wstr mod USE_DMA HWC : Int) :
    im2col_args α where
  input := ⟨input_data, fun _ => input_data 0, Win, Hin, Cin⟩
  c := ⟨fun _ => input_data 0, fun _ => input_data 0, Wk, Hk, Cin⟩
  output := ⟨fun _ => input_data 0, output_diff, Wox, Hox, Co⟩
  pBuffer := i2c_buf
  Lpad := Lpad
  Rpad := Rpad
  Upad := Upad
  Dpad := Dpad
  mod := mod
  stride_h := Hstr
  stride_w := Wstr
  USE_DMA := USE_DMA
  HWC := HWC

/-! ## The static partition in the other kernels -/

/-- Lines 45-47 of `pulp_act_fp16.c` (`sigmoid_core_fw_fp16`, and again lines 66-68
in `sigmoid_core_bw_fp16`): the partition rule with every operand an `int`, so that
the division is the signed one. -/
def act_block_range (NUM_CORES core_id dim : Int) : Int × Int :=
  let blockSize := i32 (Int.tdiv (i32 (dim + NUM_CORES - 1)) (i32 NUM_CORES))
  let start := i32 (core_id * blockSize)
  let stop := if i32 (start + blockSize) > dim then dim else i32 (start + blockSize)
  (start, stop)

/-- Lines 639-641 of `pulp_im2col_fp32.c` (`pulp_blocktransp_fp32`): the partition
rule with `blockSize`, `start` and `stop` of type `uint32_t`. -/
def blocktransp_range (NUM_CORES core_id Cout : Int) : Int × Int :=
  let blockSize := u32 (u32 (Cout + NUM_CORES - 1) / u32 NUM_CORES)
  let start := u32 (core_id * blockSize)
  let stop := if u32 (start + blockSize) > Cout then Cout else u32 (start + blockSize)
  (start, stop)

/-! ## Block transpose (`pulp_blocktransp_fp32`) -/

/-- The argument block `struct blocktransp_args`. -/
structure blocktransp_args (α : Type) where
  weights : Int → α
  bt_weights : Int → α
  Cin : Int
  Cout : Int
  Hk : Int
  Wk : Int

/-- The function `pulp_blocktransp_fp32` as executed by core `core_id` of a build
with `NUM_CORES` cores; the result is the content of `bt_weights` afterwards. -/
def pulp_blocktransp_fp32 {α : Type} (NUM_CORES core_id : Int) (args : blocktransp_args α) :
    Int → α :=
  let weights := args.weights
  let bt_weights := args.bt_weights
  let Cin := u32 args.Cin
  let Cout := u32 args.Cout
  let Hk := u32 args.Hk
  let Wk := u32 args.Wk
  let HW := u32 (Hk * Wk)
  let range := blocktransp_range NUM_CORES core_id Cout
  -- Block tranposition
  forLoop range.1 range.2 (fun k bt_weights =>
    forLoop 0 Cin (fun c bt_weights =>
      forLoop 0 (u32 (Hk * Wk)) (fun i bt_weights =>
        Function.update bt_weights (u32 (i + k * HW + c * Cout * HW))
          (weights (u32 ((HW - 1 - i) + c * HW + k * Cin * HW)))
      ) bt_weights) bt_weights) bt_weights

/-- Modelled from the spec: the fork/join primitive `forkJoin(P, fn, args)` for a
worker function that updates one shared buffer: worker `k` runs `fn` with
`pi_core_id() = k`, the workers are run one after the other and the call returns
when all have completed. -/
def team_fork {σ : Type} (NUM_CORES : Nat) (fn : Int → σ → σ) (s : σ) : σ :=
  forN NUM_CORES (fun k s => fn (k : Int) s) s

/-- The call `pi_cl_team_fork(NUM_CORES, pulp_blocktransp_fp32, &args)`. -/
def blocktransp_fork {α : Type} (NUM_CORES : Nat) (args : blocktransp_args α) : Int → α :=
  team_fork NUM_CORES
    (fun k bt => pulp_blocktransp_fp32 (NUM_CORES : Int) k { args with bt_weights := bt })
    args.bt_weights

/-! ## Half precision kernels: data model

The `fp16` values of `pulp_act_fp16.c` and `pulp_conv_pw_fp16.c` are elements of a
commutative ring `R`, in which sums and products are exact. -/

/-- The tensor `struct blob_fp16`. -/
structure blob_fp16 (R : Type) where
  data : Int → R
  diff : Int → R
  dim : Int
  W : Int
  H : Int
  C : Int

/-- The argument block `struct act_args_fp16`. -/
structure act_args_fp16 (R : Type) where
  input : blob_fp16 R
  output : blob_fp16 R

/-- The argument block `struct PointWise_Conv_args_fp16`. -/
structure PointWise_Conv_args_fp16 (R : Type) where
  input : blob_fp16 R
  coeff : blob_fp16 R
  output : blob_fp16 R
  transp_buffer : Int → R
  skip_in_grad : Int
  opt_matmul_type_fw : Int
  opt_matmul_type_wg : Int
  opt_matmul_type_ig : Int

/-- The argument block `struct matMul_args_fp16`. -/
structure matMul_args_fp16 (R : Type) where
  A : Int → R
  B : Int → R
  C : Int → R
  N : Int
  M : Int
  K : Int
  trans_B : Int

/-- The argument block `struct transp_args_fp16`. -/
structure transp_args_fp16 (R : Type) where
  matrix : Int → R
  transp_matrix : Int → R
  N : Int
  M : Int

section fp16
variable {R : Type} [CommRing R]

/-- Modelled from the spec: the matmul dispatch `multiply(A, B, C, N, M, K,
transpose_B, hint)`, reached as `pi_cl_team_fork(NUM_CORES, mm_fp16, &matMul_args)`
or through `mm_manager_fp16`: it computes `C[N×M] = A[N×K] · B[K×M]`, or `A · Bᵗ`
with `B` stored as `[M×K]` when `trans_B` is set, whichever algorithm variant runs.
The result is the content of `C` afterwards. -/
def mm_fp16 (args : matMul_args_fp16 R) : Int → R :=
  forLoop 0 args.N (fun i C =>
    forLoop 0 args.M (fun j C =>
      let temp := forLoop 0 args.K (fun k temp =>
        temp + args.A (i * args.K + k)
          * args.B (if args.trans_B = 0 then j + k * args.M else k + j * args.K)) 0
      Function.update C (i * args.M + j) temp) C) args.C

/-- Modelled from the spec: the transposition `transpose_fp16` of an `N×M` matrix,
reached as `pi_cl_team_fork(NUM_CORES, transpose_fp16, &tr_args)`:
`transp_matrix[m*N + n] = matrix[n*M + m]`.  The result is the content of
`transp_matrix` afterwards. -/
def transpose_fp16 (args : transp_args_fp16 R) : Int → R :=
  forLoop 0 args.M (fun m transp_matrix =>
    forLoop 0 args.N (fun n transp_matrix =>
      Function.update transp_matrix (m * args.N + n) (args.matrix (n * args.M + m))
    ) transp_matrix) args.transp_matrix

/-! ## Pointwise convolution (`pulp_conv_pw_fp16.c`) -/

/-- The function `pulp_conv_pw_fp16_fw_cl`; `OPT_PW_FW` is defined at line 46, so
the branch of lines 70-96 is the one compiled. -/
def pulp_conv_pw_fp16_fw_cl (PW_args : PointWise_Conv_args_fp16 R) :
    PointWise_Conv_args_fp16 R :=
  let pW := i32 PW_args.coeff.W
  let pH := i32 PW_args.coeff.H
  let coeffData := PW_args.coeff.data
  let outData := PW_args.output.data
  let inData := PW_args.input.data
  let W_in := i32 PW_args.input.W
  let H_in := i32 PW_args.input.H
  let Cin := i32 PW_args.input.C
  let Cout := i32 PW_args.output.C
  let transp_buffer := PW_args.transp_buffer
  -- Transpose the input
  let transp_buffer := transpose_fp16 ⟨inData, transp_buffer, Cin, i32 (H_in * W_in)⟩
  -- Perform forward
  let outData := mm_fp16 ⟨coeffData, transp_buffer, outData, Cout, i32 (H_in * W_in), Cin, 1⟩
  { PW_args with
    transp_buffer := transp_buffer
    output := { PW_args.output with data := outData } }

/-- The function `pulp_conv_pw_fp16_bw_param_grads_cl`. -/
def pulp_conv_pw_fp16_bw_param_grads_cl (PW_args : PointWise_Conv_args_fp16 R) :
    PointWise_Conv_args_fp16 R :=
  -- input dimensions
  let W_in := i32 PW_args.input.W
  let H_in := i32 PW_args.input.H
  let C_in := i32 PW_args.input.C
  -- output dimensions
  let W_out := i32 PW_args.output.W
  let H_out := i32 PW_args.output.H
  let C_out := i32 PW_args.output.C
  let inData := PW_args.input.data
  let coeffDiff := PW_args.coeff.diff
  let outDiff := PW_args.output.diff
  -- COMPUTE GRADIENT
  let coeffDiff := mm_fp16 ⟨outDiff, inData, coeffDiff, C_out, C_in, i32 (W_out * H_out), 1⟩
  { PW_args with coeff := { PW_args.coeff with diff := coeffDiff } }

/-- The function `pulp_conv_pw_fp16_bw_input_grads_cl`; `OPT_PW_IG` is not defined
(its `#define` at line 233 is commented out), so the branch of lines 236-254 is
the one compiled. -/
def pulp_conv_pw_fp16_bw_input_grads_cl (PW_args : PointWise_Conv_args_fp16 R) :
    PointWise_Conv_args_fp16 R :=
  -- input dimensions
  let W_in := i32 PW_args.input.W
  let H_in := i32 PW_args.input.H
  let C_in := i32 PW_args.input.C
  -- kernel dimensions
  let pW := i32 PW_args.coeff.W
  let pH := i32 PW_args.coeff.H
  -- output dimensions
  let C_out := i32 PW_args.output.C
  let inDiff := PW_args.input.diff
  let coeffData := PW_args.coeff.data
  let outDiff := PW_args.output.diff
  -- NON-OPTIMIZED
  let inDiff := mm_fp16 ⟨coeffData, outDiff, inDiff, C_in, i32 (W_in * H_in), i32 (pW * pH * C_out), 0⟩
  { PW_args with input := { PW_args.input with diff := inDiff } }

/-- The function `pulp_conv_pw_fp16_bw_cl`. -/
def pulp_conv_pw_fp16_bw_cl (PW_args : PointWise_Conv_args_fp16 R) :
    PointWise_Conv_args_fp16 R :=
  let skip_in_grad := i32 PW_args.skip_in_grad
  let PW_args := pulp_conv_pw_fp16_bw_param_grads_cl PW_args
  if skip_in_grad = 0 then
    pulp_conv_pw_fp16_bw_input_grads_cl PW_args
  else PW_args

/-! ## Softmax (`pulp_act_fp16.c`) -/

/-- The function `pulp_softmax_fp16_bw_cl`. -/
def pulp_softmax_fp16_bw_cl (args : act_args_fp16 R) : act_args_fp16 R :=
  let dim := i32 args.input.dim
  let inDiff := args.input.diff
  let outData := args.output.data
  let outDiff := args.output.diff
  let zero : R := 0
  let inDiff := forLoop 0 dim (fun j inDiff =>
    let neg_sft_j := - outData j
    let sum := forLoop 0 dim (fun z sum =>
      let mul := outDiff z * outData z * neg_sft_j
      sum + mul) zero
    Function.update inDiff j sum) inDiff
  let inDiff := forLoop 0 dim (fun j inDiff =>
    Function.update inDiff j (inDiff j + outData j * outDiff j)) inDiff
  { args with input := { args.input with diff := inDiff } }

/-- The variant of the softmax backward pass the spec allows in place of the double
loop: `Σ_z g[z]·s[z]` is computed once in `O(dim)` and reused for every `j`,
`inDiff[j] = s[j]·(g[j] - Σ_z g[z]·s[z])`. -/
def softmax_bw_precomputed (args : act_args_fp16 R) : act_args_fp16 R :=
  let dim := i32 args.input.dim
  let s := args.output.data
  let g := args.output.diff
  let dot := forLoop 0 dim (fun z acc => acc + g z * s z) 0
  let inDiff := forLoop 0 dim (fun j inDiff =>
    Function.update inDiff j (s j * (g j - dot))) args.input.diff
  { args with input := { args.input with diff := inDiff } }

/-! ## Sigmoid backward and ReLU (`pulp_act_fp16.c`) -/

/-- The worker function `sigmoid_core_bw_fp16` as executed by core `core_id` of a
build with `NUM_CORES` cores; the result is the content of `input->diff`
afterwards. -/
def sigmoid_core_bw_fp16 (NUM_CORES core_id : Int) (args : act_args_fp16 R) : Int → R :=
  let dim := i32 args.input.dim
  let inDiff := args.input.diff
  let outData := args.output.data
  let outDiff := args.output.diff
  let range := act_block_range NUM_CORES core_id dim
  forLoop range.1 range.2 (fun i inDiff =>
    let sigma := outData i
    let sigma_prime := sigma * (1 - sigma)
    Function.update inDiff i (outDiff i * sigma_prime)) inDiff

/-- The function `pulp_sigmoid_fp16_bw_cl`: the call
`pi_cl_team_fork(NUM_CORES, sigmoid_core_bw_fp16, act_args)`. -/
def pulp_sigmoid_fp16_bw_cl (NUM_CORES : Nat) (args : act_args_fp16 R) : act_args_fp16 R :=
  let inDiff := team_fork NUM_CORES
    (fun k inDiff => sigmoid_core_bw_fp16 (NUM_CORES : Int) k
      { args with input := { args.input with diff := inDiff } })
    args.input.diff
  { args with input := { args.input with diff := inDiff } }

end fp16

/-- The function `pulp_relu_fp16_fw_cl`. -/
def pulp_relu_fp16_fw_cl {R : Type} [Zero R] [LinearOrder R] (args : act_args_fp16 R) :
    act_args_fp16 R :=
  let dim := i32 args.input.dim
  let inData := args.input.data
  let outData := args.output.data
  let outData := forLoop 0 dim (fun i outData =>
    Function.update outData i (if inData i > 0 then inData i else 0)) outData
  { args with output := { args.output with data := outData } }

/-- The function `pulp_relu_fp16_bw_cl`. -/
def pulp_relu_fp16_bw_cl {R : Type} [Zero R] [LinearOrder R] (args : act_args_fp16 R) :
    act_args_fp16 R :=
  let dim := i32 args.input.dim
  let inData := args.input.data
  let inDiff := args.input.diff
  let outDiff := args.output.diff
  let inDiff := forLoop 0 dim (fun i inDiff =>
    Function.update inDiff i (if inData i > 0 then outDiff i else 0)) inDiff
  { args with input := { args.input with diff := inDiff } }

/-- Lines 128 and 140-142 of `pulp_softmax_fp16_fw_cl`: the sequential reduction of
the per-worker maxima `maxes[0 .. NUM_CORES-1]` into the value `max` that is handed
to the exponentiation phase (`e_s_args.max = max`, line 149). -/
def pulp_softmax_fp16_fw_cl_max {R : Type} [Zero R] [LinearOrder R] (NUM_CORES : Int)
    (maxes : Int → R) : R :=
  let zero : R := 0
  let max := zero
  forLoop 0 NUM_CORES (fun i max => if max < maxes i then maxes i else max) max

/-! ## Softmax forward (`pulp_softmax_fp16_fw_cl`)

The three worker kernels are not part of `pulp_act_fp16.c`; they are modelled from
the phases of the spec over the static partition.  The values are those of an
ordered field and the exponential is a parameter `expf`. -/

/-- The argument block `struct max_args_fp16`. -/
structure max_args_fp16 (R : Type) where
  input : Int → R
  maxes : Int → R
  dim : Int

/-- The argument block `struct exp_sum_args_fp16`. -/
structure exp_sum_args_fp16 (R : Type) where
  input : Int → R
  sums : Int → R
  output : Int → R
  dim : Int
  max : R

/-- The argument block `struct row_div_args_fp16`. -/
structure row_div_args_fp16 (R : Type) where
  input : Int → R
  n : R
  dim : Int

section softmax_fw
variable {R : Type} [LinearOrderedField R]

/-- Modelled from the spec: phase (1) of the softmax forward pass, "each worker
computes the max over its partition slice, one scalar per worker".  Worker
`core_id` stores the largest element of its slice in `maxes[core_id]`; a worker
with an empty slice does nothing.  The result is the content of `maxes`. -/
def pulp_row_max_fp16_cl (NUM_CORES core_id : Int) (args : max_args_fp16 R) : Int → R :=
  let range := act_block_range NUM_CORES core_id args.dim
  if range.1 < range.2 then
    Function.update args.maxes core_id
      (forLoop (range.1 + 1) range.2
        (fun i max => if max < args.input i then args.input i else max) (args.input range.1))
  else args.maxes

/-- Modelled from the spec: phase (3) of the softmax forward pass, "each worker
computes `exp(in[i]-max)` into `out[i]` and accumulates a partial sum over its
slice".  The result is the content of `output` and of `sums`. -/
def pulp_exp_sum_fp16_cl (expf : R → R) (NUM_CORES core_id : Int) (args : exp_sum_args_fp16 R) :
    (Int → R) × (Int → R) :=
  let range := act_block_range NUM_CORES core_id args.dim
  (forLoop range.1 range.2 (fun i output =>
      Function.update output i (expf (args.input i - args.max))) args.output,
    Function.update args.sums core_id
      (forLoop range.1 range.2 (fun i sum => sum + expf (args.input i - args.max))
        (args.sums core_id)))

/-- Modelled from the spec: phase (5) of the softmax forward pass, "each worker
divides its slice of `out` by the global sum".  The result is the content of
`input`, the buffer that is divided in place. -/
def pulp_row_div_fp16_cl (NUM_CORES core_id : Int) (args : row_div_args_fp16 R) : Int → R :=
  let range := act_block_range NUM_CORES core_id args.dim
  forLoop range.1 range.2 (fun i input => Function.update input i (input i / args.n)) args.input

/-- The function `pulp_softmax_fp16_fw_cl` of a build with `NUM_CORES` cores. -/
def pulp_softmax_fp16_fw_cl (expf : R → R) (NUM_CORES : Nat) (args : act_args_fp16 R) :
    act_args_fp16 R :=
  let dim := i32 args.input.dim
  let inData := args.input.data
  let outData := args.output.data
  let zero : R := 0
  let sum := zero
  let maxes : Int → R := fun _ => zero
  let sums : Int → R := fun _ => zero
  -- pi_cl_team_fork(NUM_CORES, pulp_row_max_fp16_cl, &m_args);
  let maxes := team_fork NUM_CORES
    (fun k maxes => pulp_row_max_fp16_cl (NUM_CORES : Int) k ⟨inData, maxes, dim⟩) maxes
  let max := pulp_softmax_fp16_fw_cl_max (NUM_CORES : Int) maxes
  -- pi_cl_team_fork(NUM_CORES, pulp_exp_sum_fp16_cl, &e_s_args);
  let es := team_fork NUM_CORES
    (fun k es => pulp_exp_sum_fp16_cl expf (NUM_CORES : Int) k ⟨inData, es.2, es.1, dim, max⟩)
    (outData, sums)
  let outData := es.1
  let sums := es.2
  let sum := forLoop 0 (NUM_CORES : Int) (fun i sum => sum + sums i) sum
  -- pi_cl_team_fork(NUM_CORES, pulp_row_div_fp16_cl, &d_args);
  let outData := team_fork NUM_CORES
    (fun k outData => pulp_row_div_fp16_cl (NUM_CORES : Int) k ⟨outData, sum, dim⟩) outData
  { args with output := { args.output with data := outData } }

end softmax_fw

/-- Argument block of the pointwise convolution for an input `[Cin, H_in, W_in]`,
weights `[Cout, Cin, pH, pW]` and an output `[Cout, H_out, W_out]`. -/
def mk_pw_args {R : Type}
    (inData inDiff coeffData coeffDiff outData outDiff transp_buffer : Int → R)
    (Cin Cout H_in W_in H_out W_out pH pW skip_in_grad : Int) : PointWise_Conv_args_fp16 R where
  input := ⟨inData, inDiff, Cin * H_in * W_in, W_in, H_in, Cin⟩
  coeff := ⟨coeffData, coeffDiff, Cout * Cin * pH * pW, pW, pH, Cin⟩
  output := ⟨outData, outDiff, Cout * H_out * W_out, W_out, H_out, Cout⟩
  transp_buffer := transp_buffer
  skip_in_grad := skip_in_grad
  opt_matmul_type_fw := 0
  opt_matmul_type_wg := 0
  opt_matmul_type_ig := 0

/-- Argument block of an activation on vectors of length `dim`. -/
def mk_act_args {R : Type} (inData inDiff outData outDiff : Int → R) (dim : Int) :
    act_args_fp16 R where
  input := ⟨inData, inDiff, dim, dim, 1, 1⟩
  output := ⟨outData, outDiff, dim, dim, 1, 1⟩

/-! ## Bounds-checked execution of the direct CHW input gradient path -/

/-- The read `a[i]` of an array of `n` elements with total indexing: `none` when
`i` is outside `[0, n)`. -/
def read_at {α : Type} (n : Int) (a : Int → α) (i : Int) : Option α :=
  if 0 ≤ i ∧ i < n then some (a i) else none

/-- The store `a[i] = x` into an array of `n` elements with total indexing: `none`
when `i` is outside `[0, n)`. -/
def write_at {α : Type} (n : Int) (a : Int → α) (i : Int) (x : α) : Option (Int → α) :=
  if 0 ≤ i ∧ i < n then some (Function.update a i x) else none

/-- Lines 173-209 (CHW layout, direct path, input gradient mode) with total
indexing: `output->diff` is an array of `out_len` elements and `i2c_buf` an array
of `buf_len` elements, and the run is `none` as soon as one read of `output->diff`
or one store to `i2c_buf` is out of range. -/
def im2col_chw_direct_in_grad_checked {α : Type} [Zero α] (output_diff : Int → α)
    (out_len buf_len : Int) (Win Hin Wk Hk Co Hox Wox start stop : Int) (i2c_buf : Int → α) :
    Option (Int → α) :=
  forLoopM 0 Hin (fun hi i2c_buf =>
    forLoopM 0 Win (fun wi i2c_buf =>
      forLoopM start stop (fun co i2c_buf =>
        -- IM2COL buffer coordinates
        let kernel_idx := i32 (co * Hk * Wk)
        let segment_idx := i32 (wi * Hk * Wk * Co + hi * Hk * Wk * Co * Win)
        -- Output grad tensor coordinates
        let ho_rf := i32 (hi - (Hk - 1))
        let wo_rf := i32 (wi - (Wk - 1))
        let receptive_field_idx := i32 (wo_rf + ho_rf * Wox + co * Hox * Wox)
        forLoopM 0 Hk (fun hk i2c_buf =>
          forLoopM 0 Wk (fun wk i2c_buf =>
            let i2c_inner_idx := i32 (wk + hk * Wk)
            let out_inner_idx := i32 (wk + hk * Wox)
            -- Padding condition
            let w_pad_cond := i32 (wk + wo_rf)
            let h_pad_cond := i32 (hk + ho_rf)
            if h_pad_cond < 0 ∨ w_pad_cond < 0 ∨ h_pad_cond ≥ Hox ∨ w_pad_cond ≥ Wox then
              write_at buf_len i2c_buf (i32 (kernel_idx + segment_idx + i2c_inner_idx)) 0
            else
              (read_at out_len output_diff (i32 (receptive_field_idx + out_inner_idx))).bind
                (fun x => write_at buf_len i2c_buf (i32 (kernel_idx + segment_idx + i2c_inner_idx)) x)
          ) i2c_buf) i2c_buf) i2c_buf) i2c_buf) i2c_buf

/-! ## Concrete calls -/

/-- Input `[C=1, H=4, W=4]` holding `1, ..., 16`, kernel `3x3`, stride 1, all four
pads 2, CHW layout, forward mode, direct path; the im2col buffer is preset to `-1`. -/
def c2_args : im2col_args Int :=
  mk_args (fun i => i + 1) (fun _ => 0) (fun _ => -1) 1 4 4 3 3 1 6 6 2 2 2 2 1 1 0 0 0

/-- Input `[C=1, H=4, W=4]` holding `1, ..., 16`, kernel `3x3`, stride 1,
`Lpad = Upad = 1`, `Rpad = Dpad = 0`, CHW layout, forward mode, on the memory path
`USE_DMA`; the im2col buffer is preset to `-1`. -/
def c5_args (USE_DMA : Int) : im2col_args Int :=
  mk_args (fun i => i + 1) (fun _ => 0) (fun _ => -1) 1 4 4 3 3 1 2 2 1 0 1 0 1 1 0 USE_DMA 0

/-- Output gradient `[C=1, H=1, W=3]` holding `1, 2, 3`, input extents `[1, 1, 4]`,
kernel `1x3`, `Lpad = 1`, stride 1, CHW layout, input gradient mode, on the memory
path `USE_DMA`; the im2col buffer is preset to `-1`. -/
def c6_args (USE_DMA : Int) : im2col_args Int :=
  mk_args (fun _ => 0) (fun i => i + 1) (fun _ => -1) 1 1 4 1 3 1 1 3 1 0 0 0 1 1 1 USE_DMA 0

/-- Input `[C=1, H=2, W=2]` holding `1, 2, 3, 4`, kernel `1x1`, stride 1, `Rpad = 1`
and the other pads 0, HWC layout, forward mode, direct path; the im2col buffer is
preset to `-1`. -/
def c7_args : im2col_args Int :=
  mk_args (fun i => i + 1) (fun _ => 0) (fun _ => -1) 1 2 2 1 1 1 2 3 0 1 0 0 1 1 0 0 1

/-- Output gradient `[C=1, H=1, W=1]` holding `1`, input extents `[1, 1, 1]`, kernel
`1x1`, no pads, stride 1, HWC layout, input gradient mode, on the memory path
`USE_DMA`; the im2col buffer is preset to `-1`. -/
def c8_args (USE_DMA : Int) : im2col_args Int :=
  mk_args (fun _ => 0) (fun i => i + 1) (fun _ => -1) 1 1 1 1 1 1 1 1 0 0 0 0 1 1 1 USE_DMA 1

/-- Output gradient `[C=1, H=2, W=2]` holding `1, 2, 3, 4`, input extents `[1, 2, 2]`,
kernel `1x1`, no pads, both strides 2, CHW layout, input gradient mode, direct
path; the im2col buffer is preset to `-1`. -/
def c10_args : im2col_args Int :=
  mk_args (fun _ => 0) (fun i => i + 1) (fun _ => -1) 1 2 2 1 1 1 2 2 0 0 0 0 2 2 1 0 0

/-- Pointwise convolution with `Cin = Cout = 2` on a `1x1` image: input `(1, 2)`,
weights `[[1, 2], [3, 4]]` stored as `[Cout x Cin]`, output gradient `(0, 1)`, with
the given skip flag; the gradient buffers that are written are preset to `-1`. -/
def c12_args (skip_in_grad : Int) : PointWise_Conv_args_fp16 Int :=
  mk_pw_args (fun i => i + 1) (fun _ => -1) (fun i => i + 1) (fun _ => -1) (fun _ => 0)
    (fun i => i) (fun _ => 0) 2 2 1 1 1 1 1 1 skip_in_grad

/-- Input `[C=1, H=4, W=4]` holding `1, ..., 16`, kernel `3x3`, stride 1, no pads,
forward mode, with the memory path tag `USE_DMA` and the layout tag `HWC`; the
im2col buffer is preset to `-1`.  The geometry passes the divisibility check
(`Htot = Wtot = 2`). -/
def c30_args (USE_DMA HWC : Int) : im2col_args Int :=
  mk_args (fun i => i + 1) (fun _ => 0) (fun _ => -1) 1 4 4 3 3 1 2 2 0 0 0 0 1 1 0 USE_DMA HWC

/-! ## Specification vocabulary -/

/-- The transformer `F` of a buffer stores `v i` at every offset `i` selected by `D`
and leaves every other offset as it was. -/
def Writes {α : Type} (F : (Int → α) → (Int → α)) (D : Int → Prop) (v : Int → α) : Prop :=
  ∀ buf i, (D i → F buf i = v i) ∧ (¬ D i → F buf i = buf i)

/-- Offset in the CHW im2col buffer of kernel element `(hk, wk)` of channel `c` in
the column of position `(a, b)`, for `B` positions per row and `C` channels. -/
def chw_index (B C Hk Wk a b c hk wk : Int) : Int :=
  (a * B + b) * Hk * Wk * C + c * Hk * Wk + hk * Wk + wk

/-- Reads a function of the five loop coordinates at the coordinates that
`chw_index` lays out at offset `i`. -/
def chw_decode {α : Type} (B C Hk Wk : Int) (f : Int → Int → Int → Int → Int → α) (i : Int) : α :=
  f (i / Wk / Hk / C / B) (i / Wk / Hk / C % B) (i / Wk / Hk % C) (i / Wk % Hk) (i % Wk)

/-- The set of offsets `chw_index` assigns to the coordinates in
`[0,A) x [0,B) x [lo,hi) x [0,Hk) x [0,Wk)`. -/
def chw_cells (A B C Hk Wk lo hi : Int) (i : Int) : Prop :=
  ∃ a, 0 ≤ a ∧ a < A ∧ ∃ b, 0 ≤ b ∧ b < B ∧ ∃ c, lo ≤ c ∧ c < hi ∧
    ∃ hk, 0 ≤ hk ∧ hk < Hk ∧ ∃ wk, 0 ≤ wk ∧ wk < Wk ∧ i = chw_index B C Hk Wk a b c hk wk

/-- The value the innermost statement of the direct CHW forward path (lines
137-160) stores for output position `(ho, wo)`, channel `ci` and kernel offset
`(hk, wk)`. -/
def chw_fw_stored {α : Type} [Zero α] (input_data : Int → α)
    (Win Hin Wk Hk Wo Ho Lpad Rpad Upad Dpad Hstr Wstr : Int) (ho wo ci hk wk : Int) : α :=
  let padding := i32 (Lpad + Rpad + Upad + Dpad)
  let receptive_field_idx := i32 ((wo * Wstr - Lpad) + (ho * Hstr - Upad) * Win + ci * Hin * Win)
  let in_inner_idx := i32 (wk + hk * Win)
  let w_pad_cond := i32 (wk + wo * Wstr)
  let h_pad_cond := i32 (hk + ho * Hstr)
  if padding > 0 ∧ (h_pad_cond < Upad ∨ w_pad_cond < Lpad
      ∨ u32 h_pad_cond > u32 (Ho + Hk - Dpad) ∨ u32 w_pad_cond > u32 (Wo + Wk - Rpad)) then 0
  else input_data (i32 (receptive_field_idx + in_inner_idx))

/-- The value the innermost statement of the direct CHW input gradient path (lines
180-204) stores for input position `(hi, wi)`, channel `co` and kernel offset
`(hk, wk)`. -/
def chw_in_grad_stored {α : Type} [Zero α] (output_diff : Int → α)
    (Wk Hk Hox Wox : Int) (hi wi co hk wk : Int) : α :=
  let ho_rf := i32 (hi - (Hk - 1))
  let wo_rf := i32 (wi - (Wk - 1))
  let receptive_field_idx := i32 (wo_rf + ho_rf * Wox + co * Hox * Wox)
  let out_inner_idx := i32 (wk + hk * Wox)
  let w_pad_cond := i32 (wk + wo_rf)
  let h_pad_cond := i32 (hk + ho_rf)
  if h_pad_cond < 0 ∨ w_pad_cond < 0 ∨ h_pad_cond ≥ Hox ∨ w_pad_cond ≥ Wox then 0
  else output_diff (i32 (receptive_field_idx + out_inner_idx))

/-- The value `x` is representable in the C type `uint8_t`. -/
def fits_u8 (x : Int) : Prop := 0 ≤ x ∧ x < 256

/-- The value `x` is representable in the C type `uint32_t`. -/
def fits_u32 (x : Int) : Prop := 0 ≤ x ∧ x < 4294967296

/-- The value `x` is a non-negative value of the C type `int`. -/
def fits_int (x : Int) : Prop := 0 ≤ x ∧ x < 2147483648

instance (x : Int) : Decidable (fits_int x) :=
  inferInstanceAs (Decidable (0 ≤ x ∧ x < 2147483648))

instance (x : Int) : Decidable (fits_u8 x) := inferInstanceAs (Decidable (0 ≤ x ∧ x < 256))

instance (x : Int) : Decidable (fits_u32 x) :=
  inferInstanceAs (Decidable (0 ≤ x ∧ x < 4294967296))

/-- The offset in `weights` of the element that the block transpose of a
`[Cout, Cin, HW]` tensor stores at offset `j` of `bt_weights`: with
`j = (c*Cout + k)*HW + i` it is `(k*Cin + c)*HW + (HW-1-i)`. -/
def bt_source (Cin Cout HW j : Int) : Int :=
  ((j / HW % Cout) * Cin + j / HW / Cout) * HW + (HW - 1 - j % HW)

/-- The destination offset computed by the innermost statement of the two direct
CHW paths (lines 137-140, 145, 152 and 180-183, 190, 197) for the loop coordinates
`t = (a, b, c, hk, wk)`: `kernel_idx + segment_idx + i2c_inner_idx` in `int`
arithmetic, with `B` positions per row and `C` channels. -/
def chw_dest (B C Hk Wk : Int) (t : Int × Int × Int × Int × Int) : Int :=
  let kernel_idx := i32 (t.2.2.1 * Hk * Wk)
  let segment_idx := i32 (t.2.1 * Hk * Wk * C + t.1 * Hk * Wk * C * B)
  let i2c_inner_idx := i32 (t.2.2.2.2 + t.2.2.2.1 * Wk)
  i32 (kernel_idx + segment_idx + i2c_inner_idx)

/-- The loop coordinates `(a, b, c, hk, wk)` in
`[0,A) x [0,B) x [0,C) x [0,Hk) x [0,Wk)`. -/
def chw_box (A B C Hk Wk : Int) : Set (Int × Int × Int × Int × Int) :=
  fun t => (0 ≤ t.1 ∧ t.1 < A) ∧ (0 ≤ t.2.1 ∧ t.2.1 < B) ∧ (0 ≤ t.2.2.1 ∧ t.2.2.1 < C) ∧
    (0 ≤ t.2.2.2.1 ∧ t.2.2.2.1 < Hk) ∧ (0 ≤ t.2.2.2.2 ∧ t.2.2.2.2 < Wk)

/-- The offsets that worker `k` of `P` stores to on a direct CHW path: the
destinations of the coordinates whose channel lies in the slice of worker `k`. -/
def chw_worker_cells (A B C Hk Wk : Int) (P k : Int) (i : Int) : Prop :=
  ∃ t, t ∈ chw_box A B C Hk Wk ∧ (block_range P k C).1 ≤ t.2.2.1 ∧
    t.2.2.1 < (block_range P k C).2 ∧ i = chw_dest B C Hk Wk t

/-- Disjoint and complete writes of a direct CHW path run by `P` workers on the
argument block `args`, whose im2col buffer has `A*B` columns of `C*Hk*Wk`
elements: the destination offset is a bijection from the loop coordinates onto
`[0, A*B*C*Hk*Wk)` and is given by the closed formula; worker `k` stores only to
the destinations of its channel slice; the destinations of two different workers
are disjoint and those of all workers cover the buffer; and the buffer left by all
workers does not depend on its previous content. -/
def DisjointCompleteWrites {α : Type} [Zero α] (A B C Hk Wk : Int) (P : Nat)
    (args : im2col_args α) : Prop :=
  Set.BijOn (chw_dest B C Hk Wk) (chw_box A B C Hk Wk) (Set.Ico 0 (A * B * C * Hk * Wk)) ∧
  (∀ a b c hk wk, (a, b, c, hk, wk) ∈ chw_box A B C Hk Wk →
    chw_dest B C Hk Wk (a, b, c, hk, wk)
      = c * Hk * Wk + b * Hk * Wk * C + a * Hk * Wk * C * B + wk + hk * Wk) ∧
  (∀ k : Nat, k < P → ∀ buf : Int → α, ∃ r,
    pulp_im2col_fp32 (P : Int) (k : Int) { args with pBuffer := buf } = some r ∧
      ∀ i, ¬ chw_worker_cells A B C Hk Wk P k i → r.i2c_buf i = buf i) ∧
  (∀ k1 k2 : Nat, k1 < P → k2 < P → k1 ≠ k2 → ∀ i,
    ¬ (chw_worker_cells A B C Hk Wk P k1 i ∧ chw_worker_cells A B C Hk Wk P k2 i)) ∧
  (∀ i, 0 ≤ i → i < A * B * C * Hk * Wk →
    ∃ k : Nat, k < P ∧ chw_worker_cells A B C Hk Wk P k i) ∧
  (∀ buf1 buf2 : Int → α, ∃ r1 r2,
    pi_cl_team_fork P { args with pBuffer := buf1 } = some r1 ∧
    pi_cl_team_fork P { args with pBuffer := buf2 } = some r2 ∧
    ∀ i, 0 ≤ i → i < A * B * C * Hk * Wk → r1.i2c_buf i = r2.i2c_buf i)

/-- The set of offsets `chw_index` assigns to the coordinates in
`[lo,hi) x [0,B) x [0,C) x [0,Hk) x [0,Wk)`: the cells of the columns of the
positions in rows `[lo, hi)`. -/
def chw_rows (B C Hk Wk lo hi : Int) (i : Int) : Prop :=
  ∃ a, lo ≤ a ∧ a < hi ∧ ∃ b, 0 ≤ b ∧ b < B ∧ ∃ c, 0 ≤ c ∧ c < C ∧
    ∃ hk, 0 ≤ hk ∧ hk < Hk ∧ ∃ wk, 0 ≤ wk ∧ wk < Wk ∧ i = chw_index B C Hk Wk a b c hk wk

/-- The value the transfer of lines 244-257 (CHW layout, DMA path, forward mode, no
pads) stores for output position `(ho, wo)`, channel `ci` and kernel offset
`(hk, wk)`: element `wk` of row `hk` of the block that starts at
`receptive_field_idx`, with rows `Win` elements apart. -/
def chw_dma_fw_stored {α : Type} (input_data : Int → α) (Win Hin Hstr Wstr : Int)
    (ho wo ci hk wk : Int) : α :=
  let receptive_field_idx := i32 ((wo * Wstr) + (ho * Hstr) * Win + ci * Hin * Win)
  input_data (receptive_field_idx + hk * Win + wk)

/-- The value the innermost statement of the HWC forward paths (lines 432-445)
stores for output position `(ho, wo)`, kernel offset `(hk, wk)` and channel `ci`. -/
def hwc_fw_stored {α : Type} (input_data : Int → α) (Win Cin Lpad Upad Hstr Wstr : Int)
    (ho wo hk wk ci : Int) : α :=
  let input_idx := i32 ((wo * Wstr - Lpad) * Cin + (ho * Hstr - Upad) * Cin * Win)
  let act_idx := i32 (ci + wk * Cin + hk * Cin * Win)
  input_data (i32 (input_idx + act_idx))

/-- The index at which the innermost statement of the direct CHW input gradient
path (lines 180-204) reads `output->diff` for input position `(hi, wi)`, channel
`co` and kernel offset `(hk, wk)`; `none` when the padding condition holds and the
statement stores `0` without reading. -/
def chw_in_grad_read (Wk Hk Hox Wox : Int) (hi wi co hk wk : Int) : Option Int :=
  let ho_rf := i32 (hi - (Hk - 1))
  let wo_rf := i32 (wi - (Wk - 1))
  let receptive_field_idx := i32 (wo_rf + ho_rf * Wox + co * Hox * Wox)
  let out_inner_idx := i32 (wk + hk * Wox)
  let w_pad_cond := i32 (wk + wo_rf)
  let h_pad_cond := i32 (hk + ho_rf)
  if h_pad_cond < 0 ∨ w_pad_cond < 0 ∨ h_pad_cond ≥ Hox ∨ w_pad_cond ≥ Wox then none
  else some (i32 (receptive_field_idx + out_inner_idx))

/-! ## Machine integers: basic facts -/

theorem u8_of_range {x : Int} (h0 : 0 ≤ x) (h1 : x < 256) : u8 x = x := by
  unfold u8; omega

theorem u32_of_range {x : Int} (h0 : 0 ≤ x) (h1 : x < 4294967296) : u32 x = x := by
  unfold u32; omega

theorem i32_of_range {x : Int} (h0 : -2147483648 ≤ x) (h1 : x < 2147483648) : i32 x = x := by
  unfold i32; omega

theorem i32_add_left (a b : Int) : i32 (i32 a + b) = i32 (a + b) := by
  unfold i32; omega

theorem i32_add_right (a b : Int) : i32 (a + i32 b) = i32 (a + b) := by
  unfold i32; omega

/-! ## Loops and buffer writes -/

theorem forN_succ {σ : Type} (n : Nat) (body : Nat → σ → σ) (s : σ) :
    forN (n + 1) body s = body n (forN n body s) := rfl

theorem forN_id {σ : Type} (n : Nat) (body : Nat → σ → σ) (h : ∀ k s, body k s = s) (s : σ) :
    forN n body s = s := by
  induction n with
  | zero => rfl
  | succ k ih => rw [forN_succ, h, ih]

theorem forLoop_id {σ : Type} (lo hi : Int) (body : Int → σ → σ) (h : ∀ k s, body k s = s)
    (s : σ) : forLoop lo hi body s = s :=
  forN_id _ _ (fun k s => h _ s) s

section writes
variable {α : Type}

theorem writes_update (v : Int → α) (j : Int) (x : α) (h : v j = x) :
    Writes (fun b => Function.update b j x) (fun i => i = j) v := by
  intro buf i
  constructor
  · intro hi
    subst hi
    simp [h]
  · intro hi
    simp [Function.update, hi]

theorem writes_comp {F G : (Int → α) → (Int → α)} {D1 D2 : Int → Prop} {v : Int → α}
    (h1 : Writes F D1 v) (h2 : Writes G D2 v) :
    Writes (fun b => G (F b)) (fun i => D1 i ∨ D2 i) v := by
  intro buf i
  constructor
  · intro hi
    show G (F buf) i = v i
    by_cases h : D2 i
    · exact (h2 (F buf) i).1 h
    · rw [(h2 (F buf) i).2 h]
      rcases hi with hi | hi
      · exact (h1 buf i).1 hi
      · exact absurd hi h
  · intro hi
    have hn1 : ¬ D1 i := fun h => hi (Or.inl h)
    have hn2 : ¬ D2 i := fun h => hi (Or.inr h)
    show G (F buf) i = buf i
    rw [(h2 (F buf) i).2 hn2, (h1 buf i).2 hn1]

theorem writes_congr {F : (Int → α) → (Int → α)} {D D2 : Int → Prop} {v : Int → α}
    (h : Writes F D v) (hD : ∀ i, D i ↔ D2 i) : Writes F D2 v := by
  intro buf i
  rw [← hD i]
  exact h buf i

theorem writes_forN (n : Nat) (body : Nat → (Int → α) → (Int → α)) (D : Nat → Int → Prop)
    (v : Int → α) (h : ∀ k, k < n → Writes (body k) (D k) v) :
    Writes (forN n body) (fun i => ∃ k, k < n ∧ D k i) v := by
  induction n with
  | zero =>
    intro buf i
    constructor
    · rintro ⟨k, hk, _⟩
      omega
    · intro _
      rfl
  | succ m ih =>
    have hm := ih (fun k hk => h k (by omega))
    have hc := writes_comp hm (h m (by omega))
    refine writes_congr hc (fun i => ?_)
    constructor
    · rintro (⟨k, hk, hd⟩ | hd)
      · exact ⟨k, by omega, hd⟩
      · exact ⟨m, by omega, hd⟩
    · rintro ⟨k, hk, hd⟩
      by_cases hkm : k = m
      · subst hkm
        exact Or.inr hd
      · exact Or.inl ⟨k, by omega, hd⟩

theorem writes_forLoop (lo hi : Int) (body : Int → (Int → α) → (Int → α))
    (D : Int → Int → Prop) (v : Int → α)
    (h : ∀ k, lo ≤ k → k < hi → Writes (body k) (D k) v) :
    Writes (forLoop lo hi body) (fun i => ∃ k, lo ≤ k ∧ k < hi ∧ D k i) v := by
  have hN := writes_forN (hi - lo).toNat (fun k => body (lo + (k : Int)))
    (fun k => D (lo + (k : Int))) v (fun k hk => h _ (by omega) (by omega))
  refine writes_congr hN (fun i => ?_)
  constructor
  · rintro ⟨k, hk, hd⟩
    exact ⟨lo + (k : Int), by omega, by omega, hd⟩
  · rintro ⟨k, h1, h2, hd⟩
    refine ⟨(k - lo).toNat, by omega, ?_⟩
    have : lo + ((k - lo).toNat : Int) = k := by omega
    show D (lo + ((k - lo).toNat : Int)) i
    rw [this]
    exact hd

end writes

/-! ## The CHW index layout -/

theorem radix_div (q r m : Int) (h0 : 0 ≤ r) (h1 : r < m) : (q * m + r) / m = q := by
  have hm : m ≠ 0 := by omega
  rw [add_comm, Int.add_mul_ediv_right _ _ hm, Int.ediv_eq_zero_of_lt h0 h1]
  simp

theorem radix_mod (q r m : Int) (h0 : 0 ≤ r) (h1 : r < m) : (q * m + r) % m = r := by
  rw [add_comm, Int.add_mul_emod_self, Int.emod_eq_of_lt h0 h1]

theorem radix_lt (q r A m : Int) (hq : q < A) (h0 : 0 ≤ r) (h1 : r < m) : q * m + r < A * m := by
  have h2 : (q + 1) * m ≤ A * m := mul_le_mul_of_nonneg_right (by omega) (by omega)
  have h3 : (q + 1) * m = q * m + m := by ring
  omega

theorem radix_nonneg (q r m : Int) (hq : 0 ≤ q) (h0 : 0 ≤ r) (h1 : r < m) : 0 ≤ q * m + r := by
  have h2 : 0 ≤ q * m := mul_nonneg hq (by omega)
  omega

theorem chw_index_eq (B C Hk Wk a b c hk wk : Int) :
    chw_index B C Hk Wk a b c hk wk = ((((a * B + b) * C + c) * Hk + hk) * Wk + wk) := by
  unfold chw_index; ring

theorem chw_decode_index {α : Type} (B C Hk Wk a b c hk wk : Int)
    (f : Int → Int → Int → Int → Int → α)
    (hb0 : 0 ≤ b) (hb : b < B) (hc0 : 0 ≤ c) (hc : c < C)
    (hk0 : 0 ≤ hk) (hk1 : hk < Hk) (wk0 : 0 ≤ wk) (wk1 : wk < Wk) :
    chw_decode B C Hk Wk f (chw_index B C Hk Wk a b c hk wk) = f a b c hk wk := by
  unfold chw_decode
  rw [chw_index_eq, radix_div _ _ _ wk0 wk1, radix_mod _ _ _ wk0 wk1, radix_div _ _ _ hk0 hk1,
    radix_mod _ _ _ hk0 hk1, radix_div _ _ _ hc0 hc, radix_mod _ _ _ hc0 hc,
    radix_div _ _ _ hb0 hb, radix_mod _ _ _ hb0 hb]

theorem chw_index_bounds (A B C Hk Wk a b c hk wk : Int)
    (ha0 : 0 ≤ a) (ha : a < A) (hb0 : 0 ≤ b) (hb : b < B) (hc0 : 0 ≤ c) (hc : c < C)
    (hk0 : 0 ≤ hk) (hk1 : hk < Hk) (wk0 : 0 ≤ wk) (wk1 : wk < Wk) :
    0 ≤ chw_index B C Hk Wk a b c hk wk ∧
      chw_index B C Hk Wk a b c hk wk < A * B * C * Hk * Wk := by
  rw [chw_index_eq]
  have n1 := radix_nonneg a b B ha0 hb0 hb
  have n2 := radix_nonneg _ c C n1 hc0 hc
  have n3 := radix_nonneg _ hk Hk n2 hk0 hk1
  have n4 := radix_nonneg _ wk Wk n3 wk0 wk1
  have l1 := radix_lt a b A B ha hb0 hb
  have l2 := radix_lt _ c _ C l1 hc0 hc
  have l3 := radix_lt _ hk _ Hk l2 hk0 hk1
  have l4 := radix_lt _ wk _ Wk l3 wk0 wk1
  exact ⟨n4, l4⟩

theorem chw_cells_bounds (A B C Hk Wk lo hi i : Int) (hlo : 0 ≤ lo) (hhi : hi ≤ C)
    (h : chw_cells A B C Hk Wk lo hi i) : 0 ≤ i ∧ i < A * B * C * Hk * Wk := by
  obtain ⟨a, ha0, ha, b, hb0, hb, c, hc0, hc, hk, hk0, hk1, wk, wk0, wk1, rfl⟩ := h
  exact chw_index_bounds A B C Hk Wk a b c hk wk ha0 ha hb0 hb (by omega) (by omega)
    hk0 hk1 wk0 wk1

/-- A loop nest of the shape shared by the two direct CHW paths, whose innermost
statement stores `f a b c hk wk` at `chw_index B C Hk Wk a b c hk wk`. -/
theorem writes_chw_nest {α : Type} (A B C Hk Wk lo hi : Int)
    (st : Int → Int → Int → Int → Int → (Int → α) → (Int → α))
    (f : Int → Int → Int → Int → Int → α) (hlo : 0 ≤ lo) (hhi : hi ≤ C)
    (hst : ∀ a b c hk wk, 0 ≤ a → a < A → 0 ≤ b → b < B → lo ≤ c → c < hi →
      0 ≤ hk → hk < Hk → 0 ≤ wk → wk < Wk →
      st a b c hk wk = fun buf =>
        Function.update buf (chw_index B C Hk Wk a b c hk wk) (f a b c hk wk)) :
    Writes
      (forLoop 0 A (fun a buf => forLoop 0 B (fun b buf => forLoop lo hi (fun c buf =>
        forLoop 0 Hk (fun hk buf => forLoop 0 Wk (fun wk buf =>
          st a b c hk wk buf) buf) buf) buf) buf))
      (chw_cells A B C Hk Wk lo hi) (chw_decode B C Hk Wk f) := by
  unfold chw_cells
  refine writes_forLoop 0 A _ _ _ (fun a ha0 ha => ?_)
  refine writes_forLoop 0 B _ _ _ (fun b hb0 hb => ?_)
  refine writes_forLoop lo hi _ _ _ (fun c hc0 hc => ?_)
  refine writes_forLoop 0 Hk _ _ _ (fun hk hk0 hk1 => ?_)
  refine writes_forLoop 0 Wk _ _ _ (fun wk wk0 wk1 => ?_)
  rw [hst a b c hk wk ha0 ha hb0 hb hc0 hc hk0 hk1 wk0 wk1]
  exact writes_update _ _ _
    (chw_decode_index B C Hk Wk a b c hk wk f hb0 hb (by omega) (by omega) hk0 hk1 wk0 wk1)

/-! ## The direct CHW paths -/

section direct
variable {α : Type} [Zero α]

theorem chw_store_index (B C Hk Wk a b c hk wk A : Int)
    (ha0 : 0 ≤ a) (ha : a < A) (hb0 : 0 ≤ b) (hb : b < B) (hc0 : 0 ≤ c) (hc : c < C)
    (hk0 : 0 ≤ hk) (hk1 : hk < Hk) (wk0 : 0 ≤ wk) (wk1 : wk < Wk)
    (hN : A * B * C * Hk * Wk ≤ 2147483648) :
    i32 (i32 (c * Hk * Wk) + i32 (b * Hk * Wk * C + a * Hk * Wk * C * B) + i32 (wk + hk * Wk))
      = chw_index B C Hk Wk a b c hk wk := by
  have hb := chw_index_bounds A B C Hk Wk a b c hk wk ha0 ha hb0 hb hc0 hc hk0 hk1 wk0 wk1
  have e : c * Hk * Wk + (b * Hk * Wk * C + a * Hk * Wk * C * B) + (wk + hk * Wk)
      = chw_index B C Hk Wk a b c hk wk := by
    unfold chw_index; ring
  generalize chw_index B C Hk Wk a b c hk wk = idx at *
  generalize c * Hk * Wk = x at *
  generalize b * Hk * Wk * C + a * Hk * Wk * C * B = y at *
  generalize wk + hk * Wk = z at *
  unfold i32
  omega

theorem im2col_chw_direct_fw_writes (input_data : Int → α)
    (Win Hin Cin Wk Hk Wo Ho Htot Wtot Lpad Rpad Upad Dpad Hstr Wstr start stop : Int)
    (hstart : 0 ≤ start) (hstop : stop ≤ Cin)
    (hN : Htot * Wtot * Cin * Hk * Wk ≤ 2147483648) :
    Writes
      (im2col_chw_direct_fw input_data Win Hin Cin Wk Hk Wo Ho Htot Wtot
        Lpad Rpad Upad Dpad Hstr Wstr start stop)
      (chw_cells Htot Wtot Cin Hk Wk start stop)
      (chw_decode Wtot Cin Hk Wk
        (chw_fw_stored input_data Win Hin Wk Hk Wo Ho Lpad Rpad Upad Dpad Hstr Wstr)) := by
  unfold im2col_chw_direct_fw
  refine writes_chw_nest Htot Wtot Cin Hk Wk start stop _ _ hstart hstop ?_
  intro ho wo ci hk wk ha0 ha hb0 hb hc0 hc hk0 hk1 wk0 wk1
  funext buf
  have hi := chw_store_index Wtot Cin Hk Wk ho wo ci hk wk Htot ha0 ha hb0 hb
    (by omega) (by omega) hk0 hk1 wk0 wk1 hN
  simp only [hi, chw_fw_stored]
  split <;> rfl

theorem im2col_chw_direct_in_grad_writes (output_diff : Int → α)
    (Win Hin Wk Hk Co Hox Wox start stop : Int)
    (hstart : 0 ≤ start) (hstop : stop ≤ Co)
    (hN : Hin * Win * Co * Hk * Wk ≤ 2147483648) :
    Writes
      (im2col_chw_direct_in_grad output_diff Win Hin Wk Hk Co Hox Wox start stop)
      (chw_cells Hin Win Co Hk Wk start stop)
      (chw_decode Win Co Hk Wk (chw_in_grad_stored output_diff Wk Hk Hox Wox)) := by
  unfold im2col_chw_direct_in_grad
  refine writes_chw_nest Hin Win Co Hk Wk start stop _ _ hstart hstop ?_
  intro hi wi co hk wk ha0 ha hb0 hb hc0 hc hk0 hk1 wk0 wk1
  funext buf
  have hi := chw_store_index Win Co Hk Wk hi wi co hk wk Hin ha0 ha hb0 hb
    (by omega) (by omega) hk0 hk1 wk0 wk1 hN
  simp only [hi, chw_in_grad_stored]
  split <;> rfl

end direct

/-! ## The static partition -/

theorem block_range_eq (P k N : Int) (hP : 1 ≤ P) (hN : 0 ≤ N) (hNP : N + P ≤ 2147483648)
    (hk0 : 0 ≤ k) (hk : k < P) :
    block_range P k N
      = (k * ((N + P - 1) / P),
          if k * ((N + P - 1) / P) + (N + P - 1) / P > N then N
          else k * ((N + P - 1) / P) + (N + P - 1) / P) := by
  have hP0 : (0 : Int) < P := by omega
  have h1 : (N + P - 1) / P * P ≤ N + P - 1 := Int.ediv_mul_le _ (by omega)
  have h2 : 0 ≤ (N + P - 1) / P := Int.ediv_nonneg (by omega) (by omega)
  have h3 : k * ((N + P - 1) / P) ≤ (P - 1) * ((N + P - 1) / P) :=
    mul_le_mul_of_nonneg_right (by omega) h2
  have h4 : (P - 1) * ((N + P - 1) / P) = (N + P - 1) / P * P - (N + P - 1) / P := by ring
  have h5 : 0 ≤ k * ((N + P - 1) / P) := mul_nonneg hk0 h2
  unfold block_range
  simp only []
  rw [u32_of_range (x := N + P - 1) (by omega) (by omega), u32_of_range (x := P) (by omega) (by omega)]
  generalize (N + P - 1) / P = bs at *
  rw [i32_of_range (x := bs) (by omega) (by omega)]
  generalize k * bs = s at *
  rw [i32_of_range (x := s) (by omega) (by omega), u32_of_range (x := s + bs) (by omega) (by omega),
    i32_of_range (x := N) (by omega) (by omega), i32_of_range (x := s + bs) (by omega) (by omega)]

theorem block_range_bounds (P k N : Int) (hP : 1 ≤ P) (hN : 0 ≤ N) (hNP : N + P ≤ 2147483648)
    (hk0 : 0 ≤ k) (hk : k < P) :
    0 ≤ (block_range P k N).1 ∧ (block_range P k N).2 ≤ N := by
  rw [block_range_eq P k N hP hN hNP hk0 hk]
  have h2 : 0 ≤ (N + P - 1) / P := Int.ediv_nonneg (by omega) (by omega)
  have h5 : 0 ≤ k * ((N + P - 1) / P) := mul_nonneg hk0 h2
  constructor
  · exact h5
  · simp only []
    split <;> omega

theorem block_range_cover (P N c : Int) (hP : 1 ≤ P) (hNP : N + P ≤ 2147483648)
    (hc0 : 0 ≤ c) (hc : c < N) :
    ∃ k : Nat, (k : Int) < P ∧ (block_range P k N).1 ≤ c ∧ c < (block_range P k N).2 := by
  have hb1 : N + P - 1 < ((N + P - 1) / P + 1) * P :=
    Int.lt_ediv_add_one_mul_self _ (by omega)
  have hb2 : 1 ≤ (N + P - 1) / P := by
    have : 1 * P ≤ N + P - 1 := by omega
    exact Int.le_ediv_of_mul_le (by omega) this
  have hb3 : ((N + P - 1) / P + 1) * P = P * ((N + P - 1) / P) + P := by ring
  have hq0 : 0 ≤ c / ((N + P - 1) / P) := Int.ediv_nonneg hc0 (by omega)
  have hq1 : c / ((N + P - 1) / P) < P := Int.ediv_lt_of_lt_mul (by omega) (by omega)
  have hq2 : c / ((N + P - 1) / P) * ((N + P - 1) / P) ≤ c := Int.ediv_mul_le _ (by omega)
  have hq3 : c < (c / ((N + P - 1) / P) + 1) * ((N + P - 1) / P) :=
    Int.lt_ediv_add_one_mul_self _ (by omega)
  have hq4 : (c / ((N + P - 1) / P) + 1) * ((N + P - 1) / P)
      = c / ((N + P - 1) / P) * ((N + P - 1) / P) + (N + P - 1) / P := by ring
  refine ⟨(c / ((N + P - 1) / P)).toNat, by omega, ?_⟩
  have hcast : (((c / ((N + P - 1) / P)).toNat : Nat) : Int) = c / ((N + P - 1) / P) := by omega
  rw [hcast, block_range_eq P _ N hP (by omega) hNP hq0 hq1]
  simp only []
  constructor
  · exact hq2
  · split <;> omega

theorem core_range_eq (P k N : Int) (hP : 1 ≤ P) (hN : 0 ≤ N) (hNP : N + P ≤ 2147483648)
    (hk0 : 0 ≤ k) (hk : k < P) :
    (if P > 1 then block_range P k N else (0, i32 N)) = block_range P k N := by
  split
  · rfl
  · have hP1 : P = 1 := by omega
    have hk1 : k = 0 := by omega
    subst hP1 hk1
    rw [block_range_eq 1 0 N (by omega) hN hNP (by omega) (by omega),
      i32_of_range (x := N) (by omega) (by omega)]
    have : (N + 1 - 1) / 1 = N := by simp
    rw [this]
    simp

theorem core_range_some (P k N : Int) (hP : 1 ≤ P) (hN : 0 ≤ N) (hNP : N + P ≤ 2147483648)
    (hk0 : 0 ≤ k) (hk : k < P) :
    (if 1 < P then some (block_range P k N) else some (0, i32 N)) = some (block_range P k N) := by
  have h := core_range_eq P k N hP hN hNP hk0 hk
  split
  · rfl
  · rw [if_neg (by omega)] at h
    rw [h]

/-! ## Fork and join -/

section fork
variable {α : Type} [Zero α]

theorem run_cores_writes (NC : Int) (args : im2col_args α) (n : Nat)
    (F : Nat → (Int → α) → (Int → α)) (D : Nat → Int → Prop) (v : Int → α)
    (hcall : ∀ k : Nat, k < n → ∀ b : Int → α, ∃ l,
      pulp_im2col_fp32 NC (k : Int) { args with pBuffer := b } = some ⟨F k b, l⟩)
    (hW : ∀ k : Nat, k < n → Writes (F k) (D k) v) :
    ∃ r, run_cores NC args n = some r ∧
      ∀ i, ((∃ k : Nat, k < n ∧ D k i) → r.i2c_buf i = v i) ∧
        ((¬ ∃ k : Nat, k < n ∧ D k i) → r.i2c_buf i = args.pBuffer i) := by
  induction n with
  | zero =>
    refine ⟨⟨args.pBuffer, []⟩, rfl, fun i => ⟨?_, fun _ => rfl⟩⟩
    rintro ⟨k, hk, _⟩
    omega
  | succ m ih =>
    obtain ⟨r, hr, hbuf⟩ := ih (fun k hk => hcall k (by omega)) (fun k hk => hW k (by omega))
    obtain ⟨l, hl⟩ := hcall m (by omega) r.i2c_buf
    refine ⟨⟨F m r.i2c_buf, r.log ++ l⟩, ?_, fun i => ⟨?_, ?_⟩⟩
    · simp [run_cores, hr, hl]
    · rintro ⟨k, hk, hd⟩
      show F m r.i2c_buf i = v i
      by_cases hm : D m i
      · exact (hW m (by omega) r.i2c_buf i).1 hm
      · rw [(hW m (by omega) r.i2c_buf i).2 hm]
        refine (hbuf i).1 ⟨k, ?_, hd⟩
        by_cases hkm : k = m
        · subst hkm
          exact absurd hd hm
        · omega
    · intro hn
      show F m r.i2c_buf i = args.pBuffer i
      have hm : ¬ D m i := fun h => hn ⟨m, by omega, h⟩
      rw [(hW m (by omega) r.i2c_buf i).2 hm]
      exact (hbuf i).2 (fun ⟨k, hk, hd⟩ => hn ⟨k, by omega, hd⟩)

end fork

/-! ## Dispatch of `pulp_im2col_fp32` -/

section dispatch
variable {α : Type} [Zero α]

theorem u8_fits {x : Int} (h : fits_u8 x) : u8 x = x := u8_of_range h.1 h.2

theorem u32_fits {x : Int} (h : fits_u32 x) : u32 x = x := u32_of_range h.1 h.2

theorem u8_zero : u8 0 = 0 := rfl

theorem u8_one : u8 1 = 1 := rfl

theorem call_chw_direct_fw (P k : Int) (input_data output_diff buf : Int → α)
    (Cin Hin Win Hk Wk Co Hox Wox Lpad Rpad Upad Dpad Hstr Wstr : Int)
    (hP : 1 ≤ P) (hk0 : 0 ≤ k) (hk : k < P) (hCin : 0 ≤ Cin) (hCP : Cin + P ≤ 2147483648)
    (hHin : fits_u32 Hin) (hWin : fits_u32 Win) (hHk : fits_u32 Hk) (hWk : fits_u32 Wk)
    (hL : fits_u8 Lpad) (hR : fits_u8 Rpad) (hU : fits_u8 Upad) (hD : fits_u8 Dpad)
    (hHs : fits_u8 Hstr) (hWs : fits_u8 Wstr) (hHs1 : 1 ≤ Hstr) (hWs1 : 1 ≤ Wstr)
    (hH : u32 (Hin - Hk + Upad + Dpad + Hstr) % Hstr = 0)
    (hW : u32 (Win - Wk + Lpad + Rpad + Wstr) % Wstr = 0) :
    pulp_im2col_fp32 P k
        (mk_args input_data output_diff buf Cin Hin Win Hk Wk Co Hox Wox
          Lpad Rpad Upad Dpad Hstr Wstr 0 0 0)
      = some ⟨im2col_chw_direct_fw input_data Win Hin Cin Wk Hk
          (u32 (Win - Wk + 1)) (u32 (Hin - Hk + 1))
          (u32 (Hin - Hk + Upad + Dpad + Hstr) / Hstr) (u32 (Win - Wk + Lpad + Rpad + Wstr) / Wstr)
          Lpad Rpad Upad Dpad Hstr Wstr (block_range P k Cin).1 (block_range P k Cin).2 buf, []⟩ := by
  have hCin32 : u32 Cin = Cin := u32_of_range hCin (by omega)
  have hHs0 : Hstr ≠ 0 := by omega
  have hWs0 : Wstr ≠ 0 := by omega
  have hr := core_range_some P k Cin hP hCin hCP hk0 hk
  simp only [pulp_im2col_fp32, mk_args, u8_fits hL, u8_fits hR, u8_fits hU, u8_fits hD,
    u8_fits hHs, u8_fits hWs, u32_fits hHin, u32_fits hWin, u32_fits hHk, u32_fits hWk,
    hCin32, u8_zero, hH, hW, hHs0, hWs0, or_self, if_false, and_self, if_true, lt_irrefl,
    gt_iff_lt, Option.map_some', hr]

/-- All cores together, direct CHW forward path, arbitrary pads: every cell of the
im2col buffer holds what the innermost statement stores for its coordinates, and
nothing outside the buffer is touched. -/
theorem fork_chw_direct_fw (P : Nat) (input_data output_diff buf : Int → α)
    (Cin Hin Win Hk Wk Co Hox Wox Lpad Rpad Upad Dpad Hstr Wstr Htot Wtot : Int)
    (hP : 1 ≤ P) (hCin : 0 ≤ Cin) (hCP : Cin + P ≤ 2147483648)
    (hHin : fits_u32 Hin) (hWin : fits_u32 Win) (hHk : fits_u32 Hk) (hWk : fits_u32 Wk)
    (hL : fits_u8 Lpad) (hR : fits_u8 Rpad) (hU : fits_u8 Upad) (hD : fits_u8 Dpad)
    (hHs : fits_u8 Hstr) (hWs : fits_u8 Wstr) (hHs1 : 1 ≤ Hstr) (hWs1 : 1 ≤ Wstr)
    (hH : u32 (Hin - Hk + Upad + Dpad + Hstr) % Hstr = 0)
    (hW : u32 (Win - Wk + Lpad + Rpad + Wstr) % Wstr = 0)
    (hHtot : Htot = u32 (Hin - Hk + Upad + Dpad + Hstr) / Hstr)
    (hWtot : Wtot = u32 (Win - Wk + Lpad + Rpad + Wstr) / Wstr)
    (hN : Htot * Wtot * Cin * Hk * Wk ≤ 2147483648) :
    ∃ r, pi_cl_team_fork P (mk_args input_data output_diff buf Cin Hin Win Hk Wk Co Hox Wox
          Lpad Rpad Upad Dpad Hstr Wstr 0 0 0) = some r ∧
      (∀ ho wo ci hk wk, 0 ≤ ho → ho < Htot → 0 ≤ wo → wo < Wtot → 0 ≤ ci → ci < Cin →
        0 ≤ hk → hk < Hk → 0 ≤ wk → wk < Wk →
        r.i2c_buf (chw_index Wtot Cin Hk Wk ho wo ci hk wk)
          = chw_fw_stored input_data Win Hin Wk Hk (u32 (Win - Wk + 1)) (u32 (Hin - Hk + 1))
              Lpad Rpad Upad Dpad Hstr Wstr ho wo ci hk wk) ∧
      (∀ i, i < 0 ∨ Htot * Wtot * Cin * Hk * Wk ≤ i → r.i2c_buf i = buf i) := by
  have hPi : (1 : Int) ≤ (P : Int) := by omega
  obtain ⟨r, hr, hbuf⟩ := run_cores_writes (P : Int)
    (mk_args input_data output_diff buf Cin Hin Win Hk Wk Co Hox Wox
      Lpad Rpad Upad Dpad Hstr Wstr 0 0 0) P
    (fun k => im2col_chw_direct_fw input_data Win Hin Cin Wk Hk
      (u32 (Win - Wk + 1)) (u32 (Hin - Hk + 1)) Htot Wtot Lpad Rpad Upad Dpad Hstr Wstr
      (block_range P k Cin).1 (block_range P k Cin).2)
    (fun k => chw_cells Htot Wtot Cin Hk Wk (block_range P k Cin).1 (block_range P k Cin).2)
    (chw_decode Wtot Cin Hk Wk
      (chw_fw_stored input_data Win Hin Wk Hk (u32 (Win - Wk + 1)) (u32 (Hin - Hk + 1))
        Lpad Rpad Upad Dpad Hstr Wstr))
    (fun k hk b => ⟨[], by
      rw [hHtot, hWtot]
      exact call_chw_direct_fw (P : Int) (k : Int) input_data output_diff b
        Cin Hin Win Hk Wk Co Hox Wox Lpad Rpad Upad Dpad Hstr Wstr hPi (by omega) (by omega)
        hCin hCP hHin hWin hHk hWk hL hR hU hD hHs hWs hHs1 hWs1 hH hW⟩)
    (fun k hk => im2col_chw_direct_fw_writes input_data Win Hin Cin Wk Hk _ _ Htot Wtot
      Lpad Rpad Upad Dpad Hstr Wstr _ _
      (block_range_bounds P k Cin hPi hCin hCP (by omega) (by omega)).1
      (block_range_bounds P k Cin hPi hCin hCP (by omega) (by omega)).2 hN)
  refine ⟨r, hr, ?_, ?_⟩
  · intro ho wo ci hk wk ho0 ho1 wo0 wo1 ci0 ci1 hk0 hk1 wk0 wk1
    obtain ⟨k, hkP, hlo, hhi⟩ := block_range_cover P Cin ci hPi hCP ci0 ci1
    have hmem : ∃ k : Nat, k < P ∧ chw_cells Htot Wtot Cin Hk Wk
        (block_range P k Cin).1 (block_range P k Cin).2 (chw_index Wtot Cin Hk Wk ho wo ci hk wk) :=
      ⟨k, by omega, ho, ho0, ho1, wo, wo0, wo1, ci, hlo, hhi, hk, hk0, hk1, wk, wk0, wk1, rfl⟩
    rw [(hbuf _).1 hmem]
    exact chw_decode_index Wtot Cin Hk Wk ho wo ci hk wk _ wo0 wo1 ci0 ci1 hk0 hk1 wk0 wk1
  · intro i hi
    refine (hbuf i).2 ?_
    rintro ⟨k, hk, hc⟩
    have hb := block_range_bounds P k Cin hPi hCin hCP (by omega) (by omega)
    have := chw_cells_bounds Htot Wtot Cin Hk Wk _ _ i hb.1 hb.2 hc
    omega

theorem stride_row_bound (x s q r K : Int) (hs : 1 ≤ s) (hq0 : 0 ≤ q)
    (hq : q < x / s + 1) (hr : r < K) : q * s + r < x + K := by
  have h1 : x / s * s ≤ x := Int.ediv_mul_le _ (by omega)
  have h2 : q * s ≤ x / s * s := mul_le_mul_of_nonneg_right (by omega) (by omega)
  omega

theorem tot_no_pad (X K s : Int) (hK0 : 0 ≤ K) (hK : K ≤ X) (hX : X < 2147483648) (hs1 : 1 ≤ s) (hs : s < 256) :
    u32 (X - K + 0 + 0 + s) / s = (X - K) / s + 1 := by
  rw [u32_of_range (by omega) (by omega)]
  have e : X - K + 0 + 0 + s = (X - K) + 1 * s := by ring
  rw [e, Int.add_mul_ediv_right _ _ (by omega)]

/-- C1: `pulp_im2col_fp32` in CHW layout (`HWC = 0`), forward mode (`mod = 0`), on
the direct path (`USE_DMA = 0`) and with all four pads zero.  For tensors and
buffers that fit the 32 bit index arithmetic of the code, kernel not larger than
the input, strides at least 1 and a geometry passing the divisibility check, after
all `P` cores have run, the entry of column `(ho, wo)` for channel `ci` and kernel
offset `(hk, wk)` is the input element at channel `ci`, row `ho*Hstr+hk`, column
`wo*Wstr+wk`; no offset outside the `Htot*Wtot` columns of `Hk*Wk*Cin` elements is
written. -/
theorem C1_chw_forward_direct_unpadded (P : Nat) (input_data output_diff buf : Int → α)
    (Cin Hin Win Hk Wk Hstr Wstr Co Hox Wox : Int)
    (hP : 1 ≤ P) (hCin : 0 ≤ Cin) (hCP : Cin + P ≤ 2147483648)
    (hHk0 : 0 ≤ Hk) (hHk : Hk ≤ Hin) (hHin : Hin < 2147483648)
    (hWk0 : 0 ≤ Wk) (hWk : Wk ≤ Win) (hWin : Win < 2147483648)
    (hHs1 : 1 ≤ Hstr) (hHs : Hstr < 256) (hWs1 : 1 ≤ Wstr) (hWs : Wstr < 256)
    (hdivH : (Hin - Hk + Hstr) % Hstr = 0) (hdivW : (Win - Wk + Wstr) % Wstr = 0)
    (hin : Cin * Hin * Win ≤ 2147483648)
    (hout : ((Hin - Hk) / Hstr + 1) * ((Win - Wk) / Wstr + 1) * Cin * Hk * Wk ≤ 2147483648) :
    ∃ r, pi_cl_team_fork P (mk_args input_data output_diff buf Cin Hin Win Hk Wk Co Hox Wox
          0 0 0 0 Hstr Wstr 0 0 0) = some r ∧
      (∀ ho wo ci hk wk, 0 ≤ ho → ho < (Hin - Hk) / Hstr + 1 →
        0 ≤ wo → wo < (Win - Wk) / Wstr + 1 → 0 ≤ ci → ci < Cin →
        0 ≤ hk → hk < Hk → 0 ≤ wk → wk < Wk →
        r.i2c_buf ((ho * ((Win - Wk) / Wstr + 1) + wo) * Hk * Wk * Cin + ci * Hk * Wk + hk * Wk + wk)
          = input_data (ci * Hin * Win + (ho * Hstr + hk) * Win + (wo * Wstr + wk))) ∧
      (∀ i, i < 0 ∨ ((Hin - Hk) / Hstr + 1) * ((Win - Wk) / Wstr + 1) * Cin * Hk * Wk ≤ i →
        r.i2c_buf i = buf i) := by
  have z8 : fits_u8 0 := ⟨by omega, by omega⟩
  have eH := tot_no_pad Hin Hk Hstr hHk0 hHk hHin hHs1 hHs
  have eW := tot_no_pad Win Wk Wstr hWk0 hWk hWin hWs1 hWs
  have hH : u32 (Hin - Hk + 0 + 0 + Hstr) % Hstr = 0 := by
    rw [u32_of_range (by omega) (by omega)]
    simpa using hdivH
  have hW : u32 (Win - Wk + 0 + 0 + Wstr) % Wstr = 0 := by
    rw [u32_of_range (by omega) (by omega)]
    simpa using hdivW
  obtain ⟨r, hr, hcell, hframe⟩ := fork_chw_direct_fw P input_data output_diff buf
    Cin Hin Win Hk Wk Co Hox Wox 0 0 0 0 Hstr Wstr ((Hin - Hk) / Hstr + 1) ((Win - Wk) / Wstr + 1)
    hP hCin hCP ⟨by omega, by omega⟩ ⟨by omega, by omega⟩ ⟨by omega, by omega⟩
    ⟨by omega, by omega⟩ z8 z8 z8 z8 ⟨by omega, by omega⟩ ⟨by omega, by omega⟩ hHs1 hWs1
    hH hW eH.symm eW.symm hout
  refine ⟨r, hr, ?_, hframe⟩
  intro ho wo ci hk wk ho0 ho1 wo0 wo1 ci0 ci1 hk0 hk1 wk0 wk1
  have hc := hcell ho wo ci hk wk ho0 ho1 wo0 wo1 ci0 ci1 hk0 hk1 wk0 wk1
  unfold chw_index at hc
  rw [hc]
  have hrow := stride_row_bound (Hin - Hk) Hstr ho hk Hk hHs1 ho0 ho1 hk1
  have hcol := stride_row_bound (Win - Wk) Wstr wo wk Wk hWs1 wo0 wo1 wk1
  have hr0 : 0 ≤ ho * Hstr + hk := by
    have := mul_nonneg ho0 (by omega : (0 : Int) ≤ Hstr)
    omega
  have hc0 : 0 ≤ wo * Wstr + wk := by
    have := mul_nonneg wo0 (by omega : (0 : Int) ≤ Wstr)
    omega
  have n1 := radix_nonneg ci (ho * Hstr + hk) Hin ci0 hr0 (by omega)
  have n2 := radix_nonneg _ (wo * Wstr + wk) Win n1 hc0 (by omega)
  have l1 := radix_lt ci (ho * Hstr + hk) Cin Hin ci1 hr0 (by omega)
  have l2 := radix_lt _ (wo * Wstr + wk) _ Win l1 hc0 (by omega)
  have e : (wo * Wstr - 0) + (ho * Hstr - 0) * Win + ci * Hin * Win + (wk + hk * Win)
      = (ci * Hin + (ho * Hstr + hk)) * Win + (wo * Wstr + wk) := by ring
  have e2 : ci * Hin * Win + (ho * Hstr + hk) * Win + (wo * Wstr + wk)
      = (ci * Hin + (ho * Hstr + hk)) * Win + (wo * Wstr + wk) := by ring
  have hidx : i32 (i32 ((wo * Wstr - 0) + (ho * Hstr - 0) * Win + ci * Hin * Win)
      + i32 (wk + hk * Win)) = ci * Hin * Win + (ho * Hstr + hk) * Win + (wo * Wstr + wk) := by
    rw [e2]
    generalize (ci * Hin + (ho * Hstr + hk)) * Win + (wo * Wstr + wk) = t at *
    generalize (wo * Wstr - 0) + (ho * Hstr - 0) * Win + ci * Hin * Win = x at *
    generalize wk + hk * Win = y at *
    unfold i32
    omega
  have hp : i32 (0 + 0 + 0 + 0) = 0 := rfl
  simp only [chw_fw_stored, hp, lt_irrefl, gt_iff_lt, false_and, if_false, hidx]

/-- C1, instance: input `[C=1, H=4, W=4]` holding `1, ..., 16`, kernel `3x3`,
stride 1, two cores.  The buffer receives `2 x 2 = 4` columns of 9 elements, each
the `3x3` patch in row-major kernel order, and offsets from 36 on keep their
content. -/
theorem C1_chw_forward_direct_unpadded_witness :
    ∃ r, pi_cl_team_fork 2 (mk_args (fun i => i + 1) (fun _ => 0) (fun _ => -1)
          1 4 4 3 3 1 2 2 0 0 0 0 1 1 0 0 0) = some r ∧
      (∀ ho wo ci hk wk, 0 ≤ ho → ho < (4 - 3) / 1 + 1 →
        0 ≤ wo → wo < (4 - 3) / 1 + 1 → 0 ≤ ci → ci < 1 →
        0 ≤ hk → hk < 3 → 0 ≤ wk → wk < 3 →
        r.i2c_buf ((ho * ((4 - 3) / 1 + 1) + wo) * 3 * 3 * 1 + ci * 3 * 3 + hk * 3 + wk)
          = (fun i : Int => i + 1) (ci * 4 * 4 + (ho * 1 + hk) * 4 + (wo * 1 + wk))) ∧
      (∀ i, i < 0 ∨ ((4 - 3) / 1 + 1) * ((4 - 3) / 1 + 1) * 1 * 3 * 3 ≤ i →
        r.i2c_buf i = (fun _ : Int => (-1 : Int)) i) :=
  C1_chw_forward_direct_unpadded 2 (fun i => i + 1) (fun _ => 0) (fun _ => -1)
    1 4 4 3 3 1 1 1 2 2 (by decide) (by decide) (by decide) (by decide) (by decide) (by decide)
    (by decide) (by decide) (by decide) (by decide) (by decide) (by decide) (by decide)
    (by decide) (by decide) (by decide) (by decide)

set_option maxRecDepth 100000 in
/-- C2, evaluation at the failing input `c2_args` (input `[1,4,4]`, kernel `3x3`,
stride 1, all pads 2, hence `Htot = Wtot = 6`).  The entry for `ho = 2, wo = 2`,
`ci = 0, hk = 2, wk = 0`, at offset `(2*6+2)*9 + 2*3 + 0 = 132`, has receptive field
position `r = 4`, `c = 2`, which is inside the input (`Upad ≤ r < Upad + Hin`,
`Lpad ≤ c < Lpad + Win`), so the claim asks for `input.data[(4-2)*4 + (2-2)] = 9`;
the code stores `0` there, because its bottom margin test
`h_pad_cond > Ho + Hk - Dpad` fires from `r = 4` on. -/
theorem C2_padded_margin_failing_input :
    (pi_cl_team_fork 1 c2_args).map
        (fun r => r.i2c_buf ((2 * 6 + 2) * 3 * 3 * 1 + 0 * 3 * 3 + 2 * 3 + 0)) = some 0 ∧
      c2_args.input.data (0 * 4 * 4 + (4 - 2) * 4 + (2 - 2)) = 9 ∧ c2_args.pBuffer 132 = -1 := by
  decide

/-- C3: input of shape `[C=1, H=4, W=4]`, kernel `3x3`, stride 1, `Lpad = Upad = 1`,
`Rpad = Dpad = 0`, CHW layout, forward mode, direct path, any number of cores.  In
the first column (`ho = 0`, `wo = 0`) the entries with `hk = 0` or `wk = 0` are `0`
and every other entry is `input.data[(hk-1)*4 + (wk-1)]`. -/
theorem C3_chw_forward_direct_pad_first_column (P : Nat) (input_data output_diff buf : Int → α)
    (Co Hox Wox : Int) (hP : 1 ≤ P) (hCP : (1 : Int) + P ≤ 2147483648) :
    ∃ r, pi_cl_team_fork P (mk_args input_data output_diff buf 1 4 4 3 3 Co Hox Wox
          1 0 1 0 1 1 0 0 0) = some r ∧
      ∀ hk wk, 0 ≤ hk → hk < 3 → 0 ≤ wk → wk < 3 →
        ((hk = 0 ∨ wk = 0) → r.i2c_buf (hk * 3 + wk) = 0) ∧
        (¬ (hk = 0 ∨ wk = 0) → r.i2c_buf (hk * 3 + wk) = input_data ((hk - 1) * 4 + (wk - 1))) := by
  obtain ⟨r, hr, hcell, -⟩ := fork_chw_direct_fw P input_data output_diff buf
    1 4 4 3 3 Co Hox Wox 1 0 1 0 1 1 3 3 hP (by decide) hCP
    (by decide) (by decide) (by decide) (by decide) (by decide) (by decide) (by decide)
    (by decide) (by decide) (by decide) (by decide) (by decide) (by decide) (by decide)
    (by decide) (by decide) (by decide)
  refine ⟨r, hr, ?_⟩
  intro hk wk hk0 hk1 wk0 wk1
  have hc := hcell 0 0 0 hk wk (by decide) (by decide) (by decide) (by decide) (by decide)
    (by decide) hk0 hk1 wk0 wk1
  have hidx : chw_index 3 1 3 3 0 0 0 hk wk = hk * 3 + wk := by
    unfold chw_index; ring
  rw [hidx] at hc
  rw [hc]
  interval_cases hk <;> interval_cases wk <;>
    refine ⟨fun h => ?_, fun h => ?_⟩ <;>
    first
      | rfl
      | exact absurd h (by decide)

/-- C3, instance: the input holds `1, ..., 16`, one core. -/
theorem C3_chw_forward_direct_pad_first_column_witness :
    ∃ r, pi_cl_team_fork 1 (mk_args (fun i => i + 1) (fun _ => 0) (fun _ => -1) 1 4 4 3 3 1 2 2
          1 0 1 0 1 1 0 0 0) = some r ∧
      ∀ hk wk, 0 ≤ hk → hk < 3 → 0 ≤ wk → wk < 3 →
        ((hk = 0 ∨ wk = 0) → r.i2c_buf (hk * 3 + wk) = 0) ∧
        (¬ (hk = 0 ∨ wk = 0) →
          r.i2c_buf (hk * 3 + wk) = (fun i : Int => i + 1) ((hk - 1) * 4 + (wk - 1))) :=
  C3_chw_forward_direct_pad_first_column 1 (fun i => i + 1) (fun _ => 0) (fun _ => -1) 1 2 2
    (by decide) (by decide)

theorem call_chw_direct_in_grad (P k : Int) (input_data output_diff buf : Int → α)
    (Cin Hin Win Hk Wk Co Hox Wox Lpad Rpad Upad Dpad Hstr Wstr : Int)
    (hP : 1 ≤ P) (hk0 : 0 ≤ k) (hk : k < P) (hCo : 0 ≤ Co) (hCP : Co + P ≤ 2147483648)
    (hHin : fits_u32 Hin) (hWin : fits_u32 Win) (hHk : fits_u32 Hk) (hWk : fits_u32 Wk)
    (hHox : fits_int Hox) (hWox : fits_int Wox)
    (hHs : u8 Hstr ≠ 0) (hWs : u8 Wstr ≠ 0) :
    pulp_im2col_fp32 P k
        (mk_args input_data output_diff buf Cin Hin Win Hk Wk Co Hox Wox
          Lpad Rpad Upad Dpad Hstr Wstr 1 0 0)
      = some ⟨im2col_chw_direct_in_grad output_diff Win Hin Wk Hk Co Hox Wox
          (block_range P k Co).1 (block_range P k Co).2 buf, []⟩ := by
  have hCo32 : u32 Co = Co := u32_of_range hCo (by omega)
  have hHox32 : i32 Hox = Hox := i32_of_range (by have := hHox.1; omega) hHox.2
  have hWox32 : i32 Wox = Wox := i32_of_range (by have := hWox.1; omega) hWox.2
  have hr := core_range_some P k Co hP hCo hCP hk0 hk
  simp only [pulp_im2col_fp32, mk_args, u32_fits hHin, u32_fits hWin, u32_fits hHk, u32_fits hWk,
    hCo32, hHox32, hWox32, u8_zero, u8_one, hHs, hWs, or_self, if_false, and_self, if_true,
    gt_iff_lt, Option.map_some', hr, one_ne_zero, and_false, true_and]

/-- C4: `pulp_im2col_fp32` in CHW layout, input gradient mode (`mod = 1`), on the
direct path.  For extents that are non-negative `int` values, tensors and buffers
that fit the 32 bit index arithmetic and strides at least 1, after all `P` cores
have run the entry for input position `(hi, wi)`, channel `co` and kernel offset
`(hk, wk)` is `output.diff[co*Hox*Wox + h*Wox + w]` with `h = hi-(Hk-1)+hk` and
`w = wi-(Wk-1)+wk` when `0 ≤ h < Hox` and `0 ≤ w < Wox`, and `0` otherwise; no
offset outside the `Hin*Win` columns of `Hk*Wk*Co` elements is written. -/
theorem C4_chw_in_grad_direct_full_correlation (P : Nat)
    (input_data output_diff buf : Int → α)
    (Cin Hin Win Hk Wk Co Hox Wox Lpad Rpad Upad Dpad Hstr Wstr : Int)
    (hP : 1 ≤ P) (hCo : 0 ≤ Co) (hCP : Co + P ≤ 2147483648)
    (hHin : fits_int Hin) (hWin : fits_int Win) (hHk : fits_int Hk) (hWk : fits_int Wk)
    (hHox : fits_int Hox) (hWox : fits_int Wox)
    (hHs1 : 1 ≤ Hstr) (hHs : Hstr < 256) (hWs1 : 1 ≤ Wstr) (hWs : Wstr < 256)
    (hout : Co * Hox * Wox ≤ 2147483648)
    (hbuf : Hin * Win * Co * Hk * Wk ≤ 2147483648) :
    ∃ r, pi_cl_team_fork P (mk_args input_data output_diff buf Cin Hin Win Hk Wk Co Hox Wox
          Lpad Rpad Upad Dpad Hstr Wstr 1 0 0) = some r ∧
      (∀ hi wi co hk wk, 0 ≤ hi → hi < Hin → 0 ≤ wi → wi < Win → 0 ≤ co → co < Co →
        0 ≤ hk → hk < Hk → 0 ≤ wk → wk < Wk →
        r.i2c_buf ((hi * Win + wi) * Hk * Wk * Co + co * Hk * Wk + hk * Wk + wk)
          = if 0 ≤ hi - (Hk - 1) + hk ∧ hi - (Hk - 1) + hk < Hox
                ∧ 0 ≤ wi - (Wk - 1) + wk ∧ wi - (Wk - 1) + wk < Wox then
              output_diff (co * Hox * Wox + (hi - (Hk - 1) + hk) * Wox + (wi - (Wk - 1) + wk))
            else 0) ∧
      (∀ i, i < 0 ∨ Hin * Win * Co * Hk * Wk ≤ i → r.i2c_buf i = buf i) := by
  have hPi : (1 : Int) ≤ (P : Int) := by omega
  obtain ⟨hHin0, hHin1⟩ := hHin
  obtain ⟨hWin0, hWin1⟩ := hWin
  obtain ⟨hHk0, hHk1⟩ := hHk
  obtain ⟨hWk0, hWk1⟩ := hWk
  have hHs8 : u8 Hstr ≠ 0 := by rw [u8_of_range (by omega) hHs]; omega
  have hWs8 : u8 Wstr ≠ 0 := by rw [u8_of_range (by omega) hWs]; omega
  obtain ⟨r, hr, hres⟩ := run_cores_writes (P : Int)
    (mk_args input_data output_diff buf Cin Hin Win Hk Wk Co Hox Wox
      Lpad Rpad Upad Dpad Hstr Wstr 1 0 0) P
    (fun k => im2col_chw_direct_in_grad output_diff Win Hin Wk Hk Co Hox Wox
      (block_range P k Co).1 (block_range P k Co).2)
    (fun k => chw_cells Hin Win Co Hk Wk (block_range P k Co).1 (block_range P k Co).2)
    (chw_decode Win Co Hk Wk (chw_in_grad_stored output_diff Wk Hk Hox Wox))
    (fun k hk b => ⟨[], call_chw_direct_in_grad (P : Int) (k : Int) input_data output_diff b
        Cin Hin Win Hk Wk Co Hox Wox Lpad Rpad Upad Dpad Hstr Wstr hPi (by omega) (by omega)
        hCo hCP ⟨hHin0, by omega⟩ ⟨hWin0, by omega⟩ ⟨hHk0, by omega⟩ ⟨hWk0, by omega⟩
        hHox hWox hHs8 hWs8⟩)
    (fun k hk => im2col_chw_direct_in_grad_writes output_diff Win Hin Wk Hk Co Hox Wox _ _
      (block_range_bounds P k Co hPi hCo hCP (by omega) (by omega)).1
      (block_range_bounds P k Co hPi hCo hCP (by omega) (by omega)).2 hbuf)
  refine ⟨r, hr, ?_, ?_⟩
  · intro hi wi co hk wk hi0 hi1 wi0 wi1 co0 co1 hk0 hk1 wk0 wk1
    obtain ⟨k, hkP, hlo, hhi⟩ := block_range_cover P Co co hPi hCP co0 co1
    have hmem : ∃ k : Nat, k < P ∧ chw_cells Hin Win Co Hk Wk
        (block_range P k Co).1 (block_range P k Co).2 (chw_index Win Co Hk Wk hi wi co hk wk) :=
      ⟨k, by omega, hi, hi0, hi1, wi, wi0, wi1, co, hlo, hhi, hk, hk0, hk1, wk, wk0, wk1, rfl⟩
    have hc := (hres _).1 hmem
    rw [chw_decode_index Win Co Hk Wk hi wi co hk wk _ wi0 wi1 co0 co1 hk0 hk1 wk0 wk1] at hc
    unfold chw_index at hc
    rw [hc]
    have e1 : i32 (hi - (Hk - 1)) = hi - (Hk - 1) := i32_of_range (by omega) (by omega)
    have e2 : i32 (wi - (Wk - 1)) = wi - (Wk - 1) := i32_of_range (by omega) (by omega)
    have e3 : i32 (hk + (hi - (Hk - 1))) = hi - (Hk - 1) + hk := by
      rw [i32_of_range (by omega) (by omega)]; ring
    have e4 : i32 (wk + (wi - (Wk - 1))) = wi - (Wk - 1) + wk := by
      rw [i32_of_range (by omega) (by omega)]; ring
    simp only [chw_in_grad_stored, e1, e2, e3, e4]
    by_cases hin : 0 ≤ hi - (Hk - 1) + hk ∧ hi - (Hk - 1) + hk < Hox
        ∧ 0 ≤ wi - (Wk - 1) + wk ∧ wi - (Wk - 1) + wk < Wox
    · obtain ⟨h0, h1, w0, w1⟩ := hin
      rw [if_neg (by omega), if_pos ⟨h0, h1, w0, w1⟩]
      have n1 := radix_nonneg co (hi - (Hk - 1) + hk) Hox co0 h0 h1
      have n2 := radix_nonneg _ (wi - (Wk - 1) + wk) Wox n1 w0 w1
      have l1 := radix_lt co (hi - (Hk - 1) + hk) Co Hox co1 h0 h1
      have l2 := radix_lt _ (wi - (Wk - 1) + wk) _ Wox l1 w0 w1
      have ea : (wi - (Wk - 1)) + (hi - (Hk - 1)) * Wox + co * Hox * Wox + (wk + hk * Wox)
          = (co * Hox + (hi - (Hk - 1) + hk)) * Wox + (wi - (Wk - 1) + wk) := by ring
      have eb : co * Hox * Wox + (hi - (Hk - 1) + hk) * Wox + (wi - (Wk - 1) + wk)
          = (co * Hox + (hi - (Hk - 1) + hk)) * Wox + (wi - (Wk - 1) + wk) := by ring
      have hidx : i32 (i32 ((wi - (Wk - 1)) + (hi - (Hk - 1)) * Wox + co * Hox * Wox)
          + i32 (wk + hk * Wox))
          = co * Hox * Wox + (hi - (Hk - 1) + hk) * Wox + (wi - (Wk - 1) + wk) := by
        rw [eb]
        generalize (co * Hox + (hi - (Hk - 1) + hk)) * Wox + (wi - (Wk - 1) + wk) = t at *
        generalize (wi - (Wk - 1)) + (hi - (Hk - 1)) * Wox + co * Hox * Wox = x at *
        generalize wk + hk * Wox = y at *
        unfold i32
        omega
      rw [hidx]
    · rw [if_pos (by omega), if_neg hin]
  · intro i hi
    refine (hres i).2 ?_
    rintro ⟨k, hk, hc⟩
    have hb := block_range_bounds P k Co hPi hCo hCP (by omega) (by omega)
    have := chw_cells_bounds Hin Win Co Hk Wk _ _ i hb.1 hb.2 hc
    omega

/-- C4, instance: output gradient `[C=1, H=2, W=2]` holding `1, ..., 4`, input
extents `[1, 4, 4]`, kernel `3x3`, two cores. -/
theorem C4_chw_in_grad_direct_full_correlation_witness :
    ∃ r, pi_cl_team_fork 2 (mk_args (fun _ => 0) (fun i => i + 1) (fun _ => -1)
          1 4 4 3 3 1 2 2 0 0 0 0 1 1 1 0 0) = some r ∧
      (∀ hi wi co hk wk, 0 ≤ hi → hi < 4 → 0 ≤ wi → wi < 4 → 0 ≤ co → co < 1 →
        0 ≤ hk → hk < 3 → 0 ≤ wk → wk < 3 →
        r.i2c_buf ((hi * 4 + wi) * 3 * 3 * 1 + co * 3 * 3 + hk * 3 + wk)
          = if 0 ≤ hi - (3 - 1) + hk ∧ hi - (3 - 1) + hk < 2
                ∧ 0 ≤ wi - (3 - 1) + wk ∧ wi - (3 - 1) + wk < 2 then
              (fun i : Int => i + 1) (co * 2 * 2 + (hi - (3 - 1) + hk) * 2 + (wi - (3 - 1) + wk))
            else 0) ∧
      (∀ i, i < 0 ∨ 4 * 4 * 1 * 3 * 3 ≤ i → r.i2c_buf i = (fun _ : Int => (-1 : Int)) i) :=
  C4_chw_in_grad_direct_full_correlation 2 (fun _ => 0) (fun i => i + 1) (fun _ => -1)
    1 4 4 3 3 1 2 2 0 0 0 0 1 1 (by decide) (by decide) (by decide) (by decide) (by decide)
    (by decide) (by decide) (by decide) (by decide) (by decide) (by decide) (by decide)
    (by decide) (by decide) (by decide)

/-- C5, evaluation at the failing input `c5_args` (input `[1,4,4]`, kernel `3x3`,
stride 1, `Lpad = Upad = 1`, `Rpad = Dpad = 0`).  The entry for `ho = 1, wo = 1`,
`hk = 2, wk = 2`, at offset `(1*3+1)*9 + 2*3 + 2 = 44`, covers input row 2 and
column 2: the direct path stores `input.data[2*4+2] = 11`, the DMA path stores `0`,
because it takes `pad_r = wo*Wstr + Wk - Wtot - Rpad = 1` and
`pad_d = ho*Hstr + Hk - Htot - Dpad = 1` and so loads a `2x2` block only. -/
theorem C5_forward_paths_differ_failing_input :
    (pi_cl_team_fork 1 (c5_args 0)).map (fun r => r.i2c_buf 44) = some 11 ∧
      (pi_cl_team_fork 1 (c5_args 1)).map (fun r => r.i2c_buf 44) = some 0 ∧
      (c5_args 0).input.data (2 * 4 + 2) = 11 := by
  decide

/-- C6, evaluation at the failing input `c6_args` (output gradient `[1,1,3]`, input
extents `[1,1,4]`, kernel `1x3`).  The entry for `hi = 0, wi = 3, hk = 0, wk = 1`, at
offset `3*3 + 1 = 10`, reads output column `w = 3 - 2 + 1 = 2`: the direct path
stores `output.diff[2] = 3`, the DMA path stores `0`, because with
`pad_r = wi = 3 ≥ Wox` it shortens the row by `pad_r - 1 = 2` elements instead of 1. -/
theorem C6_in_grad_paths_differ_failing_input :
    (pi_cl_team_fork 1 (c6_args 0)).map (fun r => r.i2c_buf 10) = some 3 ∧
      (pi_cl_team_fork 1 (c6_args 1)).map (fun r => r.i2c_buf 10) = some 0 ∧
      (c6_args 0).output.diff 2 = 3 := by
  decide

/-- C7, evaluation at the failing input `c7_args` (HWC layout, input `[1,2,2]`,
kernel `1x1`, `Rpad = 1`).  The entry for `ho = 0, wo = 2`, at offset 2, has column
`c = 2 ≥ Lpad + Win`, inside the right pad margin, so the claim asks for `0`; the
code stores `input.data[2] = 3`, the first element of the next input row. -/
theorem C7_hwc_no_zero_fill_failing_input :
    (pi_cl_team_fork 1 c7_args).map (fun r => r.i2c_buf 2) = some 3 ∧
      c7_args.input.data 2 = 3 := by
  decide

/-- C8, counterexample: HWC layout, input gradient mode, output gradient
`[1,1,1]` holding `1`, kernel `1x1`.  The only entry, for
`hi = wi = co = hk = wk = 0`, reads the output position `(0, 0)`, which is inside
the output, so the claim asks for `output.diff[0] = 1`; on both memory paths the
buffer keeps its preset content `-1`. -/
theorem C8_hwc_in_grad_counterexample :
    (pi_cl_team_fork 1 (c8_args 0)).map (fun r => r.i2c_buf 0) = some (-1) ∧
      (pi_cl_team_fork 1 (c8_args 1)).map (fun r => r.i2c_buf 0) = some (-1) ∧
      (c8_args 0).output.diff 0 = 1 ∧ (c8_args 1).output.diff 0 = 1 := by
  decide

/-- C10, counterexample: CHW layout, input gradient mode, direct path, input extent
2, kernel extent 1, no pads, stride 2, so that `Hin-Hk+Upad+Dpad+Hstr = 3` is not
divisible by `Hstr = 2`.  The call does not return early: offset 0 of the buffer,
preset to `-1`, holds `output.diff[0] = 1` afterwards. -/
theorem C10_in_grad_validity_counterexample :
    u32 (2 - 1 + 0 + 0 + 2) % 2 ≠ 0 ∧ c10_args.pBuffer 0 = -1 ∧
      (pi_cl_team_fork 1 c10_args).map (fun r => r.i2c_buf 0) = some 1 := by
  decide

omit [Zero α] in
theorem im2col_hwc_in_grad_eq (Win Wk Hk Co hlo hhi : Int) (buf : Int → α) :
    im2col_hwc_in_grad Win Wk Hk Co hlo hhi buf = buf := by
  unfold im2col_hwc_in_grad
  refine forLoop_id _ _ _ (fun _ b => ?_) buf
  refine forLoop_id _ _ _ (fun _ b => ?_) b
  refine forLoop_id _ _ _ (fun _ b => ?_) b
  refine forLoop_id _ _ _ (fun _ b => ?_) b
  exact forLoop_id _ _ _ (fun _ _ => rfl) b

theorem run_cores_unchanged (NC : Int) (args : im2col_args α) (n : Nat)
    (hcall : ∀ k : Nat, k < n → ∀ b : Int → α, ∃ l,
      pulp_im2col_fp32 NC (k : Int) { args with pBuffer := b } = some ⟨b, l⟩) :
    ∃ r, run_cores NC args n = some r ∧ r.i2c_buf = args.pBuffer := by
  obtain ⟨r, hr, hbuf⟩ := run_cores_writes NC args n (fun _ b => b) (fun _ _ => False)
    (fun _ => (0 : α)) hcall
    (fun _ _ buf i => ⟨fun h => absurd h id, fun _ => rfl⟩)
  refine ⟨r, hr, funext (fun i => (hbuf i).2 ?_)⟩
  rintro ⟨_, _, h⟩
  exact h

theorem call_hwc_in_grad (P k : Int) (input_data output_diff buf : Int → α)
    (Cin Hin Win Hk Wk Co Hox Wox Lpad Rpad Upad Dpad Hstr Wstr USE_DMA : Int)
    (hDMA : USE_DMA = 0 ∨ USE_DMA = 1) (hHs : u8 Hstr ≠ 0) (hWs : u8 Wstr ≠ 0) :
    ∃ l, pulp_im2col_fp32 P k
        (mk_args input_data output_diff buf Cin Hin Win Hk Wk Co Hox Wox
          Lpad Rpad Upad Dpad Hstr Wstr 1 USE_DMA 1) = some ⟨buf, l⟩ ∧
      Diag.hwc_in_grad_not_implemented ∈ l := by
  rcases hDMA with rfl | rfl
  · refine ⟨[Diag.hwc_in_grad_not_implemented, Diag.invalid_USE_DMA], ?_, by simp⟩
    simp [pulp_im2col_fp32, mk_args, u8_zero, u8_one, hHs, hWs, im2col_hwc_in_grad_eq]
  · refine ⟨[Diag.hwc_in_grad_not_implemented], ?_, by simp⟩
    by_cases hP : 1 < P <;>
      simp [pulp_im2col_fp32, mk_args, u8_zero, u8_one, hHs, hWs, im2col_hwc_in_grad_eq, hP]

/-- C8, amended: input gradient mode is not implemented in HWC layout.  For every
geometry with strides at least 1, every output gradient and either memory path,
a call of `pulp_im2col_fp32` with `HWC = 1`, `mod = 1` prints the diagnostic
"HWC Im2Col for IN GRAD not implemented" and leaves the im2col buffer as it was,
and so does the run of all cores. -/
theorem C8_hwc_in_grad_not_implemented (P : Nat) (k : Int)
    (input_data output_diff buf : Int → α)
    (Cin Hin Win Hk Wk Co Hox Wox Lpad Rpad Upad Dpad Hstr Wstr USE_DMA : Int)
    (hDMA : USE_DMA = 0 ∨ USE_DMA = 1)
    (hHs1 : 1 ≤ Hstr) (hHs : Hstr < 256) (hWs1 : 1 ≤ Wstr) (hWs : Wstr < 256) :
    (∃ r, pulp_im2col_fp32 P k (mk_args input_data output_diff buf Cin Hin Win Hk Wk Co Hox Wox
          Lpad Rpad Upad Dpad Hstr Wstr 1 USE_DMA 1) = some r ∧
        r.i2c_buf = buf ∧ Diag.hwc_in_grad_not_implemented ∈ r.log) ∧
      (∃ r, pi_cl_team_fork P (mk_args input_data output_diff buf Cin Hin Win Hk Wk Co Hox Wox
          Lpad Rpad Upad Dpad Hstr Wstr 1 USE_DMA 1) = some r ∧ r.i2c_buf = buf) := by
  have hHs8 : u8 Hstr ≠ 0 := by rw [u8_of_range (by omega) hHs]; omega
  have hWs8 : u8 Wstr ≠ 0 := by rw [u8_of_range (by omega) hWs]; omega
  constructor
  · obtain ⟨l, hl, hmem⟩ := call_hwc_in_grad (P : Int) k input_data output_diff buf
      Cin Hin Win Hk Wk Co Hox Wox Lpad Rpad Upad Dpad Hstr Wstr USE_DMA hDMA hHs8 hWs8
    exact ⟨⟨buf, l⟩, hl, rfl, hmem⟩
  · refine run_cores_unchanged (P : Int) (mk_args input_data output_diff buf Cin Hin Win Hk Wk
      Co Hox Wox Lpad Rpad Upad Dpad Hstr Wstr 1 USE_DMA 1) P (fun j _ b => ?_)
    obtain ⟨l, hl, -⟩ := call_hwc_in_grad (P : Int) (j : Int) input_data output_diff b
      Cin Hin Win Hk Wk Co Hox Wox Lpad Rpad Upad Dpad Hstr Wstr USE_DMA hDMA hHs8 hWs8
    exact ⟨l, hl⟩

/-- C8, amended, instance: the call `c8_args` on the direct path, core 0 of 2. -/
theorem C8_hwc_in_grad_not_implemented_witness :
    (∃ r, pulp_im2col_fp32 (2 : Nat) 0 (mk_args (fun _ => 0) (fun i => i + 1) (fun _ => -1)
          1 1 1 1 1 1 1 1 0 0 0 0 1 1 1 0 1) = some r ∧
        r.i2c_buf = (fun _ : Int => (-1 : Int)) ∧ Diag.hwc_in_grad_not_implemented ∈ r.log) ∧
      (∃ r, pi_cl_team_fork 2 (mk_args (fun _ => 0) (fun i => i + 1) (fun _ => -1)
          1 1 1 1 1 1 1 1 0 0 0 0 1 1 1 0 1) = some r ∧
        r.i2c_buf = (fun _ : Int => (-1 : Int))) :=
  C8_hwc_in_grad_not_implemented 2 0 (fun _ => 0) (fun i => i + 1) (fun _ => -1)
    1 1 1 1 1 1 1 1 0 0 0 0 1 1 0 (by decide) (by decide) (by decide) (by decide) (by decide)

theorem call_fw_invalid (P k : Int) (input_data output_diff buf : Int → α)
    (Cin Hin Win Hk Wk Co Hox Wox Lpad Rpad Upad Dpad Hstr Wstr USE_DMA HWC : Int)
    (hHWC : HWC = 0 ∨ HWC = 1) (hDMA : USE_DMA = 0 ∨ USE_DMA = 1)
    (hHin : fits_u32 Hin) (hWin : fits_u32 Win) (hHk : fits_u32 Hk) (hWk : fits_u32 Wk)
    (hL : fits_u8 Lpad) (hR : fits_u8 Rpad) (hU : fits_u8 Upad) (hD : fits_u8 Dpad)
    (hHs : fits_u8 Hstr) (hWs : fits_u8 Wstr) (hHs1 : 1 ≤ Hstr) (hWs1 : 1 ≤ Wstr)
    (hbad : u32 (Hin - Hk + Upad + Dpad + Hstr) % Hstr ≠ 0
      ∨ u32 (Win - Wk + Lpad + Rpad + Wstr) % Wstr ≠ 0) :
    ∃ l, pulp_im2col_fp32 P k
        (mk_args input_data output_diff buf Cin Hin Win Hk Wk Co Hox Wox
          Lpad Rpad Upad Dpad Hstr Wstr 0 USE_DMA HWC) = some ⟨buf, l⟩ ∧
      (l = [Diag.invalid_H_stride] ∨ l = [Diag.invalid_W_stride]) := by
  have hHs0 : Hstr ≠ 0 := by omega
  have hWs0 : Wstr ≠ 0 := by omega
  have hHnn : 0 ≤ u32 (Hin - Hk + Upad + Dpad + Hstr) % Hstr := Int.emod_nonneg _ hHs0
  have hWnn : 0 ≤ u32 (Win - Wk + Lpad + Rpad + Wstr) % Wstr := Int.emod_nonneg _ hWs0
  by_cases hH : u32 (Hin - Hk + Upad + Dpad + Hstr) % Hstr > 0
  · refine ⟨[Diag.invalid_H_stride], ?_, Or.inl rfl⟩
    rcases hHWC with rfl | rfl <;> rcases hDMA with rfl | rfl <;>
      simp [pulp_im2col_fp32, mk_args, u8_fits hL, u8_fits hR, u8_fits hU, u8_fits hD,
        u8_fits hHs, u8_fits hWs, u32_fits hHin, u32_fits hWin, u32_fits hHk, u32_fits hWk,
        u8_zero, u8_one, hHs0, hWs0, hH]
  · have hW : u32 (Win - Wk + Lpad + Rpad + Wstr) % Wstr > 0 := by
      rcases hbad with h | h
      · omega
      · omega
    refine ⟨[Diag.invalid_W_stride], ?_, Or.inr rfl⟩
    rcases hHWC with rfl | rfl <;> rcases hDMA with rfl | rfl <;>
      simp [pulp_im2col_fp32, mk_args, u8_fits hL, u8_fits hR, u8_fits hU, u8_fits hD,
        u8_fits hHs, u8_fits hWs, u32_fits hHin, u32_fits hWin, u32_fits hHk, u32_fits hWk,
        u8_zero, u8_one, hHs0, hWs0, hH, hW]

/-- C9: validity check in forward mode (`mod = 0`).  For either layout tag and
either memory path tag, extents, pads and strides representable in their C types
and strides at least 1: if `(Hin-Hk+Upad+Dpad+Hstr) % Hstr` or
`(Win-Wk+Lpad+Rpad+Wstr) % Wstr`, evaluated in `uint32_t` as in the code, is not
zero, then every core returns with the im2col buffer as it was after printing one
invalid-stride diagnostic, and the buffer is unchanged after all `P` cores. -/
theorem C9_forward_validity_check (P : Nat) (k : Int) (input_data output_diff buf : Int → α)
    (Cin Hin Win Hk Wk Co Hox Wox Lpad Rpad Upad Dpad Hstr Wstr USE_DMA HWC : Int)
    (hHWC : HWC = 0 ∨ HWC = 1) (hDMA : USE_DMA = 0 ∨ USE_DMA = 1)
    (hHin : fits_u32 Hin) (hWin : fits_u32 Win) (hHk : fits_u32 Hk) (hWk : fits_u32 Wk)
    (hL : fits_u8 Lpad) (hR : fits_u8 Rpad) (hU : fits_u8 Upad) (hD : fits_u8 Dpad)
    (hHs : fits_u8 Hstr) (hWs : fits_u8 Wstr) (hHs1 : 1 ≤ Hstr) (hWs1 : 1 ≤ Wstr)
    (hbad : u32 (Hin - Hk + Upad + Dpad + Hstr) % Hstr ≠ 0
      ∨ u32 (Win - Wk + Lpad + Rpad + Wstr) % Wstr ≠ 0) :
    (∃ r, pulp_im2col_fp32 P k (mk_args input_data output_diff buf Cin Hin Win Hk Wk Co Hox Wox
          Lpad Rpad Upad Dpad Hstr Wstr 0 USE_DMA HWC) = some r ∧ r.i2c_buf = buf ∧
        (r.log = [Diag.invalid_H_stride] ∨ r.log = [Diag.invalid_W_stride])) ∧
      (∃ r, pi_cl_team_fork P (mk_args input_data output_diff buf Cin Hin Win Hk Wk Co Hox Wox
          Lpad Rpad Upad Dpad Hstr Wstr 0 USE_DMA HWC) = some r ∧ r.i2c_buf = buf) := by
  constructor
  · obtain ⟨l, hl, hlog⟩ := call_fw_invalid (P : Int) k input_data output_diff buf
      Cin Hin Win Hk Wk Co Hox Wox Lpad Rpad Upad Dpad Hstr Wstr USE_DMA HWC hHWC hDMA
      hHin hWin hHk hWk hL hR hU hD hHs hWs hHs1 hWs1 hbad
    exact ⟨⟨buf, l⟩, hl, rfl, hlog⟩
  · refine run_cores_unchanged (P : Int) (mk_args input_data output_diff buf Cin Hin Win Hk Wk
      Co Hox Wox Lpad Rpad Upad Dpad Hstr Wstr 0 USE_DMA HWC) P (fun j _ b => ?_)
    obtain ⟨l, hl, -⟩ := call_fw_invalid (P : Int) (j : Int) input_data output_diff b
      Cin Hin Win Hk Wk Co Hox Wox Lpad Rpad Upad Dpad Hstr Wstr USE_DMA HWC hHWC hDMA
      hHin hWin hHk hWk hL hR hU hD hHs hWs hHs1 hWs1 hbad
    exact ⟨l, hl⟩

/-- C9, instance: input `[1,4,4]`, kernel `3x3`, no pads, stride 2 in both
directions (`4-3+2 = 3` is odd), HWC layout, DMA path, core 1 of 2. -/
theorem C9_forward_validity_check_witness :
    (∃ r, pulp_im2col_fp32 (2 : Nat) 1 (mk_args (fun i => i + 1) (fun _ => 0) (fun _ => -1)
          1 4 4 3 3 1 1 1 0 0 0 0 2 2 0 1 1) = some r ∧ r.i2c_buf = (fun _ : Int => (-1 : Int)) ∧
        (r.log = [Diag.invalid_H_stride] ∨ r.log = [Diag.invalid_W_stride])) ∧
      (∃ r, pi_cl_team_fork 2 (mk_args (fun i => i + 1) (fun _ => 0) (fun _ => -1)
          1 4 4 3 3 1 1 1 0 0 0 0 2 2 0 1 1) = some r ∧ r.i2c_buf = (fun _ : Int => (-1 : Int))) :=
  C9_forward_validity_check 2 1 (fun i => i + 1) (fun _ => 0) (fun _ => -1)
    1 4 4 3 3 1 1 1 0 0 0 0 2 2 1 1 (by decide) (by decide) (by decide) (by decide) (by decide)
    (by decide) (by decide) (by decide) (by decide) (by decide) (by decide) (by decide)
    (by decide) (by decide) (by decide)

theorem run_cores_congr (NC : Int) (args1 args2 : im2col_args α) (n : Nat)
    (hbuf : args1.pBuffer = args2.pBuffer)
    (hcall : ∀ k : Nat, k < n → ∀ b : Int → α,
      pulp_im2col_fp32 NC (k : Int) { args1 with pBuffer := b }
        = pulp_im2col_fp32 NC (k : Int) { args2 with pBuffer := b }) :
    run_cores NC args1 n = run_cores NC args2 n := by
  induction n with
  | zero => simp [run_cores, hbuf]
  | succ m ih =>
    simp only [run_cores]
    rw [ih (fun j hj => hcall j (by omega))]
    cases run_cores NC args2 m with
    | none => rfl
    | some r => simp only [Option.bind_some, hcall m (by omega)]

theorem call_chw_in_grad (P k : Int) (input_data output_diff buf : Int → α)
    (Cin Hin Win Hk Wk Co Hox Wox Lpad Rpad Upad Dpad Hstr Wstr USE_DMA : Int)
    (hDMA : USE_DMA = 0 ∨ USE_DMA = 1) (hHs : u8 Hstr ≠ 0) (hWs : u8 Wstr ≠ 0) :
    pulp_im2col_fp32 P k
        (mk_args input_data output_diff buf Cin Hin Win Hk Wk Co Hox Wox
          Lpad Rpad Upad Dpad Hstr Wstr 1 USE_DMA 0)
      = ((if USE_DMA = 0 then
            fun od a b c d e f g lo hi bf =>
              some (im2col_chw_direct_in_grad od a b c d e f g lo hi bf)
          else im2col_chw_dma_in_grad)
          output_diff (u32 Win) (u32 Hin) (u32 Wk) (u32 Hk) (u32 Co) (i32 Hox) (i32 Wox)
          (if 1 < P then block_range P k (u32 Co) else (0, i32 (u32 Co))).1
          (if 1 < P then block_range P k (u32 Co) else (0, i32 (u32 Co))).2 buf).map
        (fun b => ⟨b, []⟩) := by
  rcases hDMA with rfl | rfl <;> by_cases hP : 1 < P <;>
    simp [pulp_im2col_fp32, mk_args, u8_zero, u8_one, hHs, hWs, hP]

/-- C10, amended: in input gradient mode (`mod = 1`) `pulp_im2col_fp32` makes no
divisibility check.  For strides at least 1: in HWC layout, on either memory path,
the im2col buffer is unchanged after all cores, whatever the geometry; in CHW
layout a call on the direct path returns without a diagnostic, a call on either
memory path that returns has printed no diagnostic, and the outcome of the run of
all cores (the buffer and the diagnostics, or no result where the DMA path
declares a staging buffer of non-positive length) is the same for any two settings
of the pads and strides, so a geometry that fails the divisibility test is
processed exactly like one that passes it. -/
theorem C10_in_grad_no_validity_check (P : Nat) (k : Int)
    (input_data output_diff buf : Int → α)
    (Cin Hin Win Hk Wk Co Hox Wox USE_DMA : Int)
    (Lpad Rpad Upad Dpad Hstr Wstr Lpad2 Rpad2 Upad2 Dpad2 Hstr2 Wstr2 : Int)
    (hDMA : USE_DMA = 0 ∨ USE_DMA = 1)
    (hHs1 : 1 ≤ Hstr) (hHs : Hstr < 256) (hWs1 : 1 ≤ Wstr) (hWs : Wstr < 256)
    (hHs21 : 1 ≤ Hstr2) (hHs2 : Hstr2 < 256) (hWs21 : 1 ≤ Wstr2) (hWs2 : Wstr2 < 256) :
    (∃ r, pi_cl_team_fork P (mk_args input_data output_diff buf Cin Hin Win Hk Wk Co Hox Wox
          Lpad Rpad Upad Dpad Hstr Wstr 1 USE_DMA 1) = some r ∧ r.i2c_buf = buf) ∧
      (∃ r, pulp_im2col_fp32 P k (mk_args input_data output_diff buf Cin Hin Win Hk Wk Co Hox Wox
          Lpad Rpad Upad Dpad Hstr Wstr 1 0 0) = some r ∧ r.log = []) ∧
      (∀ r, pulp_im2col_fp32 P k (mk_args input_data output_diff buf Cin Hin Win Hk Wk Co Hox Wox
          Lpad Rpad Upad Dpad Hstr Wstr 1 USE_DMA 0) = some r → r.log = []) ∧
      pi_cl_team_fork P (mk_args input_data output_diff buf Cin Hin Win Hk Wk Co Hox Wox
          Lpad Rpad Upad Dpad Hstr Wstr 1 USE_DMA 0)
        = pi_cl_team_fork P (mk_args input_data output_diff buf Cin Hin Win Hk Wk Co Hox Wox
          Lpad2 Rpad2 Upad2 Dpad2 Hstr2 Wstr2 1 USE_DMA 0) := by
  have hHs8 : u8 Hstr ≠ 0 := by rw [u8_of_range (by omega) hHs]; omega
  have hWs8 : u8 Wstr ≠ 0 := by rw [u8_of_range (by omega) hWs]; omega
  have hHs28 : u8 Hstr2 ≠ 0 := by rw [u8_of_range (by omega) hHs2]; omega
  have hWs28 : u8 Wstr2 ≠ 0 := by rw [u8_of_range (by omega) hWs2]; omega
  refine ⟨?_, ?_, ?_, ?_⟩
  · refine run_cores_unchanged (P : Int) (mk_args input_data output_diff buf Cin Hin Win Hk Wk
      Co Hox Wox Lpad Rpad Upad Dpad Hstr Wstr 1 USE_DMA 1) P (fun j _ b => ?_)
    obtain ⟨l, hl, -⟩ := call_hwc_in_grad (P : Int) (j : Int) input_data output_diff b
      Cin Hin Win Hk Wk Co Hox Wox Lpad Rpad Upad Dpad Hstr Wstr USE_DMA hDMA hHs8 hWs8
    exact ⟨l, hl⟩
  · exact ⟨_, call_chw_in_grad (P : Int) k input_data output_diff buf Cin Hin Win Hk Wk Co Hox Wox
      Lpad Rpad Upad Dpad Hstr Wstr 0 (Or.inl rfl) hHs8 hWs8, rfl⟩
  · intro r hr
    rw [call_chw_in_grad (P : Int) k input_data output_diff buf Cin Hin Win Hk Wk Co Hox Wox
      Lpad Rpad Upad Dpad Hstr Wstr USE_DMA hDMA hHs8 hWs8] at hr
    obtain ⟨b, -, rfl⟩ := Option.map_eq_some'.mp hr
    rfl
  · refine run_cores_congr (P : Int) _ _ P rfl (fun j _ b => ?_)
    exact (call_chw_in_grad (P : Int) (j : Int) input_data output_diff b Cin Hin Win Hk Wk
      Co Hox Wox Lpad Rpad Upad Dpad Hstr Wstr USE_DMA hDMA hHs8 hWs8).trans
      (call_chw_in_grad (P : Int) (j : Int) input_data output_diff b Cin Hin Win Hk Wk
        Co Hox Wox Lpad2 Rpad2 Upad2 Dpad2 Hstr2 Wstr2 USE_DMA hDMA hHs28 hWs28).symm

/-- C10, amended, instance: the geometry of `c10_args` with stride 2, which fails
the divisibility test, against the same geometry with stride 1, which passes it,
on the DMA path; there every transfer has one row of one element, and the run of
all cores returns with `output.diff[0] = 1` at offset 0. -/
theorem C10_in_grad_no_validity_check_witness :
    (pi_cl_team_fork 1 (mk_args (fun _ => 0) (fun i => i + 1) (fun _ => (-1 : Int))
          1 2 2 1 1 1 2 2 0 0 0 0 2 2 1 1 0)).map (fun r => r.i2c_buf 0) = some 1 ∧
      (∃ r, pi_cl_team_fork 1 (mk_args (fun _ => 0) (fun i => i + 1) (fun _ => -1)
          1 2 2 1 1 1 2 2 0 0 0 0 2 2 1 1 1) = some r ∧ r.i2c_buf = (fun _ : Int => (-1 : Int))) ∧
      (∃ r, pulp_im2col_fp32 (1 : Nat) 0 (mk_args (fun _ => 0) (fun i => i + 1) (fun _ => -1)
          1 2 2 1 1 1 2 2 0 0 0 0 2 2 1 0 0) = some r ∧ r.log = []) ∧
      (∀ r, pulp_im2col_fp32 (1 : Nat) 0 (mk_args (fun _ => 0) (fun i => i + 1)
          (fun _ => (-1 : Int)) 1 2 2 1 1 1 2 2 0 0 0 0 2 2 1 1 0) = some r → r.log = []) ∧
      pi_cl_team_fork 1 (mk_args (fun _ => 0) (fun i => i + 1) (fun _ => (-1 : Int))
          1 2 2 1 1 1 2 2 0 0 0 0 2 2 1 1 0)
        = pi_cl_team_fork 1 (mk_args (fun _ => 0) (fun i => i + 1) (fun _ => (-1 : Int))
          1 2 2 1 1 1 2 2 0 0 0 0 1 1 1 1 0) :=
  ⟨by decide, C10_in_grad_no_validity_check 1 0 (fun _ => 0) (fun i => i + 1) (fun _ => -1)
    1 2 2 1 1 1 2 2 1 0 0 0 0 2 2 0 0 0 0 1 1 (by decide) (by decide) (by decide) (by decide)
    (by decide) (by decide) (by decide) (by decide) (by decide)⟩

/-- The DMA path in input gradient mode at an input row of 4, kernel `1x1` and
output row of 3 (CHW layout, one core): at `wi = 3` line 354 computes
`row_size = 1 - (3 - 1) = -1`, so `load_buffer` is declared with length `-1` and
the run has no result; the direct path returns for the same call. -/
theorem dma_in_grad_negative_row_size :
    (pi_cl_team_fork 1 (mk_args (fun _ => 0) (fun i => i + 1) (fun _ => (-1 : Int))
        1 1 4 1 1 1 1 3 0 0 0 0 1 1 1 1 0)).isSome = false ∧
      (pi_cl_team_fork 1 (mk_args (fun _ => 0) (fun i => i + 1) (fun _ => (-1 : Int))
        1 1 4 1 1 1 1 3 0 0 0 0 1 1 1 0 0)).isSome = true := by
  decide

theorem call_invalid_tag (P k : Int) (input_data output_diff buf : Int → α)
    (Cin Hin Win Hk Wk Co Hox Wox Lpad Rpad Upad Dpad Hstr Wstr mod USE_DMA HWC : Int)
    (hHs : u8 Hstr ≠ 0) (hWs : u8 Wstr ≠ 0)
    (hbad : (u8 HWC ≠ 0 ∧ u8 HWC ≠ 1) ∨ (u8 USE_DMA ≠ 0 ∧ u8 USE_DMA ≠ 1)) :
    ∃ l, pulp_im2col_fp32 P k
        (mk_args input_data output_diff buf Cin Hin Win Hk Wk Co Hox Wox
          Lpad Rpad Upad Dpad Hstr Wstr mod USE_DMA HWC) = some ⟨buf, l⟩ ∧
      (l = [Diag.invalid_HWC] ∨ l = [Diag.invalid_USE_DMA]) := by
  by_cases h0 : u8 HWC = 0
  · have hd : u8 USE_DMA ≠ 0 ∧ u8 USE_DMA ≠ 1 := by
      rcases hbad with h | h
      · exact absurd h0 h.1
      · exact h
    refine ⟨[Diag.invalid_USE_DMA], ?_, Or.inr rfl⟩
    simp [pulp_im2col_fp32, mk_args, hHs, hWs, h0, hd.1, hd.2]
  · by_cases h1 : u8 HWC = 1
    · have hd : u8 USE_DMA ≠ 0 ∧ u8 USE_DMA ≠ 1 := by
        rcases hbad with h | h
        · exact absurd h1 h.2
        · exact h
      refine ⟨[Diag.invalid_USE_DMA], ?_, Or.inr rfl⟩
      simp [pulp_im2col_fp32, mk_args, hHs, hWs, h1, hd.1, hd.2]
    · refine ⟨[Diag.invalid_HWC], ?_, Or.inl rfl⟩
      simp [pulp_im2col_fp32, mk_args, hHs, hWs, h0, h1]

/-- C11: invalid tags perform no writes.  For every call whose layout tag is
neither 0 nor 1, or whose memory path tag is neither 0 nor 1 (the tags as the
function reads them into its `uint8_t` locals), whatever the tensors, extents,
pads and mode, and for strides that are not zero: every core returns with the
im2col buffer as it was after printing the invalid-HWC or the invalid-USE_DMA
diagnostic, and the buffer is unchanged after all `P` cores. -/
theorem C11_invalid_tags_no_write (P : Nat) (k : Int) (input_data output_diff buf : Int → α)
    (Cin Hin Win Hk Wk Co Hox Wox Lpad Rpad Upad Dpad Hstr Wstr mod USE_DMA HWC : Int)
    (hHs : u8 Hstr ≠ 0) (hWs : u8 Wstr ≠ 0)
    (hbad : (u8 HWC ≠ 0 ∧ u8 HWC ≠ 1) ∨ (u8 USE_DMA ≠ 0 ∧ u8 USE_DMA ≠ 1)) :
    (∃ r, pulp_im2col_fp32 P k (mk_args input_data output_diff buf Cin Hin Win Hk Wk Co Hox Wox
          Lpad Rpad Upad Dpad Hstr Wstr mod USE_DMA HWC) = some r ∧ r.i2c_buf = buf ∧
        (r.log = [Diag.invalid_HWC] ∨ r.log = [Diag.invalid_USE_DMA])) ∧
      (∃ r, pi_cl_team_fork P (mk_args input_data output_diff buf Cin Hin Win Hk Wk Co Hox Wox
          Lpad Rpad Upad Dpad Hstr Wstr mod USE_DMA HWC) = some r ∧ r.i2c_buf = buf) := by
  constructor
  · obtain ⟨l, hl, hlog⟩ := call_invalid_tag (P : Int) k input_data output_diff buf
      Cin Hin Win Hk Wk Co Hox Wox Lpad Rpad Upad Dpad Hstr Wstr mod USE_DMA HWC hHs hWs hbad
    exact ⟨⟨buf, l⟩, hl, rfl, hlog⟩
  · refine run_cores_unchanged (P : Int) (mk_args input_data output_diff buf Cin Hin Win Hk Wk
      Co Hox Wox Lpad Rpad Upad Dpad Hstr Wstr mod USE_DMA HWC) P (fun j _ b => ?_)
    obtain ⟨l, hl, -⟩ := call_invalid_tag (P : Int) (j : Int) input_data output_diff b
      Cin Hin Win Hk Wk Co Hox Wox Lpad Rpad Upad Dpad Hstr Wstr mod USE_DMA HWC hHs hWs hbad
    exact ⟨l, hl⟩

/-- C11, instance: layout tag 2 with a valid memory path tag, on the geometry of
the `[1,4,4]`, `3x3` forward call, core 1 of 2. -/
theorem C11_invalid_tags_no_write_witness :
    (∃ r, pulp_im2col_fp32 (2 : Nat) 1 (mk_args (fun i => i + 1) (fun _ => 0) (fun _ => -1)
          1 4 4 3 3 1 2 2 0 0 0 0 1 1 0 0 2) = some r ∧ r.i2c_buf = (fun _ : Int => (-1 : Int)) ∧
        (r.log = [Diag.invalid_HWC] ∨ r.log = [Diag.invalid_USE_DMA])) ∧
      (∃ r, pi_cl_team_fork 2 (mk_args (fun i => i + 1) (fun _ => 0) (fun _ => -1)
          1 4 4 3 3 1 2 2 0 0 0 0 1 1 0 0 2) = some r ∧ r.i2c_buf = (fun _ : Int => (-1 : Int))) :=
  C11_invalid_tags_no_write 2 1 (fun i => i + 1) (fun _ => 0) (fun _ => -1)
    1 4 4 3 3 1 2 2 0 0 0 0 1 1 0 0 2 (by decide) (by decide) (by decide)

end dispatch

/-! ## Two-level loop nests and accumulation loops -/

theorem writes_nest2 {α : Type} (A B : Int) (f : Int → Int → α) :
    Writes
      (forLoop 0 A (fun a buf => forLoop 0 B (fun b buf =>
        Function.update buf (a * B + b) (f a b)) buf))
      (fun i => ∃ a, 0 ≤ a ∧ a < A ∧ ∃ b, 0 ≤ b ∧ b < B ∧ i = a * B + b)
      (fun i => f (i / B) (i % B)) := by
  refine writes_forLoop 0 A _ _ _ (fun a ha0 ha => ?_)
  refine writes_forLoop 0 B _ _ _ (fun b hb0 hb => ?_)
  refine writes_update _ _ _ ?_
  show f ((a * B + b) / B) ((a * B + b) % B) = f a b
  rw [radix_div a b B hb0 hb, radix_mod a b B hb0 hb]

theorem nest2_cell {α : Type} (A B : Nat) (f : Int → Int → α) (buf : Int → α) (a b : Nat)
    (ha : a < A) (hb : b < B) :
    forLoop 0 (A : Int) (fun a buf => forLoop 0 (B : Int) (fun b buf =>
        Function.update buf (a * (B : Int) + b) (f a b)) buf) buf ((a * B + b : Nat) : Int)
      = f a b := by
  have h := (writes_nest2 (A : Int) (B : Int) f buf ((a * B + b : Nat) : Int)).1
    ⟨a, by omega, by omega, b, by omega, by omega, by push_cast; ring⟩
  rw [h]
  have e : ((a * B + b : Nat) : Int) = (a : Int) * (B : Int) + (b : Int) := by push_cast; ring
  show f (((a * B + b : Nat) : Int) / (B : Int)) (((a * B + b : Nat) : Int) % (B : Int)) = f a b
  rw [e, radix_div _ _ _ (by omega) (by omega), radix_mod _ _ _ (by omega) (by omega)]

theorem nest2_frame {α : Type} (A B : Nat) (f : Int → Int → α) (buf : Int → α) (i : Int)
    (hi : i < 0 ∨ ((A * B : Nat) : Int) ≤ i) :
    forLoop 0 (A : Int) (fun a buf => forLoop 0 (B : Int) (fun b buf =>
        Function.update buf (a * (B : Int) + b) (f a b)) buf) buf i = buf i := by
  refine (writes_nest2 (A : Int) (B : Int) f buf i).2 ?_
  rintro ⟨a, ha0, ha, b, hb0, hb, rfl⟩
  have h1 := radix_nonneg a b B ha0 hb0 hb
  have h2 := radix_lt a b A B ha hb0 hb
  push_cast at hi
  omega

theorem forN_sum {R : Type} [AddCommMonoid R] (n : Nat) (f : Nat → R) (init : R) :
    forN n (fun k acc => acc + f k) init = init + Finset.sum (Finset.range n) f := by
  induction n with
  | zero => simp [forN]
  | succ m ih => rw [forN_succ, ih, Finset.sum_range_succ, add_assoc]

theorem forLoop_sum {R : Type} [AddCommMonoid R] (n : Nat) (f : Int → R) :
    forLoop 0 (n : Int) (fun k acc => acc + f k) 0
      = Finset.sum (Finset.range n) (fun k => f (k : Int)) := by
  unfold forLoop
  have e : ((n : Int) - 0).toNat = n := by omega
  rw [e]
  have h := forN_sum n (fun k => f (0 + (k : Int))) 0
  rw [h, zero_add]
  refine Finset.sum_congr rfl (fun k _ => ?_)
  rw [zero_add]

/-! ## The matmul and transposition collaborators -/

section fp16_lemmas
variable {R : Type} [CommRing R]

theorem mm_fp16_cell (A B C : Int → R) (N M K : Nat) (trans_B : Int) (i j : Nat)
    (hi : i < N) (hj : j < M) :
    mm_fp16 ⟨A, B, C, N, M, K, trans_B⟩ ((i * M + j : Nat) : Int)
      = Finset.sum (Finset.range K) (fun k =>
          A ((i * K + k : Nat) : Int)
            * B (if trans_B = 0 then ((j + k * M : Nat) : Int) else ((k + j * K : Nat) : Int))) := by
  unfold mm_fp16
  simp only []
  rw [nest2_cell N M _ C i j hi hj, forLoop_sum]
  refine Finset.sum_congr rfl (fun k _ => ?_)
  push_cast
  rfl

theorem mm_fp16_frame (A B C : Int → R) (N M K : Nat) (trans_B : Int) (i : Int)
    (hi : i < 0 ∨ ((N * M : Nat) : Int) ≤ i) :
    mm_fp16 ⟨A, B, C, N, M, K, trans_B⟩ i = C i := by
  unfold mm_fp16
  simp only []
  exact nest2_frame N M _ C i hi

omit [CommRing R] in
theorem transpose_fp16_cell (matrix transp_matrix : Int → R) (N M : Nat) (n m : Nat)
    (hn : n < N) (hm : m < M) :
    transpose_fp16 ⟨matrix, transp_matrix, N, M⟩ ((m * N + n : Nat) : Int)
      = matrix ((n * M + m : Nat) : Int) := by
  unfold transpose_fp16
  simp only []
  rw [nest2_cell M N (fun m n => matrix (n * (M : Int) + m)) transp_matrix m n hm hn]
  push_cast
  rfl

end fp16_lemmas

/-! ## Pointwise convolution -/

section conv
variable {R : Type} [CommRing R]

theorem i32_natCast (n : Nat) (h : (n : Int) < 2147483648) : i32 (n : Int) = n :=
  i32_of_range (by omega) h

theorem i32_natCast_mul (a b : Nat) (ha : (a : Int) < 2147483648) (hb : (b : Int) < 2147483648)
    (h : ((a * b : Nat) : Int) < 2147483648) :
    i32 (i32 (a : Int) * i32 (b : Int)) = ((a * b : Nat) : Int) := by
  rw [i32_natCast a ha, i32_natCast b hb]
  have e : (a : Int) * (b : Int) = ((a * b : Nat) : Int) := by push_cast; ring
  rw [e]
  exact i32_natCast _ h

/-- C14: forward pass of the pointwise convolution.  With `transpose_fp16` storing
`transp[p*Cin + ci] = in[ci*S + p]` (`S = H_in*W_in`) and the matmul collaborator
exact, `trans_B` meaning `A·Bᵗ`, for extents that are `int` values
`pulp_conv_pw_fp16_fw_cl` leaves `outData[co*S + p] = Σ_{ci<Cin}
coeffData[co*Cin + ci] · inData[ci*S + p]` for every `co < Cout` and `p < S`, and
leaves `outData` as it was outside these `Cout*S` elements. -/
theorem C14_pw_forward (inData inDiff coeffData coeffDiff outData outDiff transp_buffer : Int → R)
    (Cin Cout H_in W_in : Nat) (H_out W_out pH pW skip_in_grad : Int)
    (hCin : (Cin : Int) < 2147483648) (hCout : (Cout : Int) < 2147483648)
    (hH : (H_in : Int) < 2147483648) (hW : (W_in : Int) < 2147483648)
    (hS : ((H_in * W_in : Nat) : Int) < 2147483648) :
    (∀ co p : Nat, co < Cout → p < H_in * W_in →
      (pulp_conv_pw_fp16_fw_cl (mk_pw_args inData inDiff coeffData coeffDiff outData outDiff
          transp_buffer Cin Cout H_in W_in H_out W_out pH pW skip_in_grad)).output.data
          ((co * (H_in * W_in) + p : Nat) : Int)
        = Finset.sum (Finset.range Cin) (fun ci =>
            coeffData ((co * Cin + ci : Nat) : Int)
              * inData ((ci * (H_in * W_in) + p : Nat) : Int))) ∧
      (∀ i : Int, i < 0 ∨ ((Cout * (H_in * W_in) : Nat) : Int) ≤ i →
        (pulp_conv_pw_fp16_fw_cl (mk_pw_args inData inDiff coeffData coeffDiff outData outDiff
          transp_buffer Cin Cout H_in W_in H_out W_out pH pW skip_in_grad)).output.data i
          = outData i) := by
  have eS := i32_natCast_mul H_in W_in hH hW hS
  have eCin := i32_natCast Cin hCin
  have eCout := i32_natCast Cout hCout
  constructor
  · intro co p hco hp
    simp only [pulp_conv_pw_fp16_fw_cl, mk_pw_args, eS, eCin, eCout]
    rw [mm_fp16_cell _ _ _ Cout (H_in * W_in) Cin 1 co p hco hp]
    refine Finset.sum_congr rfl (fun ci hci => ?_)
    have hci2 : ci < Cin := Finset.mem_range.mp hci
    rw [if_neg (by decide)]
    have e : ((ci + p * Cin : Nat) : Int) = ((p * Cin + ci : Nat) : Int) := by
      rw [Nat.add_comm]
    rw [e, transpose_fp16_cell inData transp_buffer Cin (H_in * W_in) ci p hci2 hp]
  · intro i hi
    simp only [pulp_conv_pw_fp16_fw_cl, mk_pw_args, eS, eCin, eCout]
    exact mm_fp16_frame _ _ _ Cout (H_in * W_in) Cin 1 i hi

/-- C13: weight gradient of the pointwise convolution.  With the matmul
collaborator exact, `trans_B` meaning `A·Bᵗ`, and `S = W_out*H_out` the spatial
size, for extents that are `int` values `pulp_conv_pw_fp16_bw_param_grads_cl`
leaves `coeffDiff[co*Cin + ci] = Σ_{p<S} outDiff[co*S + p] · inData[ci*S + p]` for
every `co < Cout`, `ci < Cin`, leaves `coeffDiff` as it was outside these
`Cout*Cin` elements, and changes no other buffer. -/
theorem C13_pw_weight_gradient
    (inData inDiff coeffData coeffDiff outData outDiff transp_buffer : Int → R)
    (Cin Cout H_out W_out : Nat) (H_in W_in pH pW skip_in_grad : Int)
    (hCin : (Cin : Int) < 2147483648) (hCout : (Cout : Int) < 2147483648)
    (hH : (H_out : Int) < 2147483648) (hW : (W_out : Int) < 2147483648)
    (hS : ((W_out * H_out : Nat) : Int) < 2147483648) :
    (∀ co ci : Nat, co < Cout → ci < Cin →
      (pulp_conv_pw_fp16_bw_param_grads_cl (mk_pw_args inData inDiff coeffData coeffDiff
          outData outDiff transp_buffer Cin Cout H_in W_in H_out W_out pH pW skip_in_grad)).coeff.diff
          ((co * Cin + ci : Nat) : Int)
        = Finset.sum (Finset.range (W_out * H_out)) (fun p =>
            outDiff ((co * (W_out * H_out) + p : Nat) : Int)
              * inData ((ci * (W_out * H_out) + p : Nat) : Int))) ∧
      (∀ i : Int, i < 0 ∨ ((Cout * Cin : Nat) : Int) ≤ i →
        (pulp_conv_pw_fp16_bw_param_grads_cl (mk_pw_args inData inDiff coeffData coeffDiff
          outData outDiff transp_buffer Cin Cout H_in W_in H_out W_out pH pW skip_in_grad)).coeff.diff i
          = coeffDiff i) ∧
      (pulp_conv_pw_fp16_bw_param_grads_cl (mk_pw_args inData inDiff coeffData coeffDiff
          outData outDiff transp_buffer Cin Cout H_in W_in H_out W_out pH pW skip_in_grad)).input.diff
        = inDiff := by
  have eS := i32_natCast_mul W_out H_out hW hH hS
  have eCin := i32_natCast Cin hCin
  have eCout := i32_natCast Cout hCout
  refine ⟨?_, ?_, rfl⟩
  · intro co ci hco hci
    simp only [pulp_conv_pw_fp16_bw_param_grads_cl, mk_pw_args, eS, eCin, eCout]
    rw [mm_fp16_cell _ _ _ Cout Cin (W_out * H_out) 1 co ci hco hci]
    refine Finset.sum_congr rfl (fun p _ => ?_)
    rw [if_neg (by decide)]
    have e : ((p + ci * (W_out * H_out) : Nat) : Int) = ((ci * (W_out * H_out) + p : Nat) : Int) := by
      rw [Nat.add_comm]
    rw [e]
  · intro i hi
    simp only [pulp_conv_pw_fp16_bw_param_grads_cl, mk_pw_args, eS, eCin, eCout]
    exact mm_fp16_frame _ _ _ Cout Cin (W_out * H_out) 1 i hi

/-- C14, instance: `Cin = 2`, `Cout = 3`, image `1x3`, input `i ↦ i + 1`, weights
`i ↦ i + 1`. -/
theorem C14_pw_forward_witness :
    (∀ co p : Nat, co < 3 → p < 1 * 3 →
      (pulp_conv_pw_fp16_fw_cl (mk_pw_args (fun i : Int => i + 1) (fun _ => -1) (fun i => i + 1)
          (fun _ => -1) (fun _ => -1) (fun i => i) (fun _ => -1)
          (2 : Nat) (3 : Nat) (1 : Nat) (3 : Nat) 1 3 1 1 0)).output.data
          ((co * (1 * 3) + p : Nat) : Int)
        = Finset.sum (Finset.range 2) (fun ci =>
            (fun i : Int => i + 1) ((co * 2 + ci : Nat) : Int)
              * (fun i : Int => i + 1) ((ci * (1 * 3) + p : Nat) : Int))) ∧
      (∀ i : Int, i < 0 ∨ ((3 * (1 * 3) : Nat) : Int) ≤ i →
        (pulp_conv_pw_fp16_fw_cl (mk_pw_args (fun i : Int => i + 1) (fun _ => -1) (fun i => i + 1)
          (fun _ => -1) (fun _ => -1) (fun i => i) (fun _ => -1)
          (2 : Nat) (3 : Nat) (1 : Nat) (3 : Nat) 1 3 1 1 0)).output.data i
          = (fun _ : Int => (-1 : Int)) i) :=
  C14_pw_forward (fun i : Int => i + 1) (fun _ => -1) (fun i => i + 1) (fun _ => -1)
    (fun _ => -1) (fun i => i) (fun _ => -1) 2 3 1 3 1 3 1 1 0
    (by decide) (by decide) (by decide) (by decide) (by decide)

/-- C13, instance: `Cin = 2`, `Cout = 3`, image `1x3`, input `i ↦ i + 1`, output
gradient `i ↦ i`. -/
theorem C13_pw_weight_gradient_witness :
    (∀ co ci : Nat, co < 3 → ci < 2 →
      (pulp_conv_pw_fp16_bw_param_grads_cl (mk_pw_args (fun i : Int => i + 1) (fun _ => -1)
          (fun i => i + 1) (fun _ => -1) (fun _ => -1) (fun i => i) (fun _ => -1)
          (2 : Nat) (3 : Nat) 1 3 (1 : Nat) (3 : Nat) 1 1 0)).coeff.diff
          ((co * 2 + ci : Nat) : Int)
        = Finset.sum (Finset.range (3 * 1)) (fun p =>
            (fun i : Int => i) ((co * (3 * 1) + p : Nat) : Int)
              * (fun i : Int => i + 1) ((ci * (3 * 1) + p : Nat) : Int))) ∧
      (∀ i : Int, i < 0 ∨ ((3 * 2 : Nat) : Int) ≤ i →
        (pulp_conv_pw_fp16_bw_param_grads_cl (mk_pw_args (fun i : Int => i + 1) (fun _ => -1)
          (fun i => i + 1) (fun _ => -1) (fun _ => -1) (fun i => i) (fun _ => -1)
          (2 : Nat) (3 : Nat) 1 3 (1 : Nat) (3 : Nat) 1 1 0)).coeff.diff i
          = (fun _ : Int => (-1 : Int)) i) ∧
      (pulp_conv_pw_fp16_bw_param_grads_cl (mk_pw_args (fun i : Int => i + 1) (fun _ => -1)
          (fun i => i + 1) (fun _ => -1) (fun _ => -1) (fun i => i) (fun _ => -1)
          (2 : Nat) (3 : Nat) 1 3 (1 : Nat) (3 : Nat) 1 1 0)).input.diff
        = (fun _ : Int => (-1 : Int)) :=
  C13_pw_weight_gradient (fun i : Int => i + 1) (fun _ => -1) (fun i => i + 1) (fun _ => -1)
    (fun _ => -1) (fun i => i) (fun _ => -1) 2 3 1 3 1 3 1 1 0
    (by decide) (by decide) (by decide) (by decide) (by decide)

/-- C12, evaluation at the failing input `c12_args` (`Cin = Cout = 2`, image `1x1`,
weights `[[1, 2], [3, 4]]` as `[Cout x Cin]`, output gradient `(0, 1)`).  The
forward pass reads the weights as `coeff[co*Cin + ci]`, so its gradient at input
channel 0 is
`Σ_co coeff[co*Cin + 0] · outDiff[co] = 1·0 + 3·1 = 3`; the code leaves
`inDiff[0] = coeff[0]·outDiff[0] + coeff[1]·outDiff[1] = 2`, because it hands
`coeffData` to the matmul as the `[Cin x Cout]` operand `A` without transposing it. -/
theorem C12_pw_input_gradient_failing_input :
    (pulp_conv_pw_fp16_bw_input_grads_cl (c12_args 0)).input.diff 0 = 2 ∧
      Finset.sum (Finset.range 2) (fun co =>
        (c12_args 0).coeff.data ((co * 2 + 0 : Nat) : Int)
          * (c12_args 0).output.diff ((co * (1 * 1) + 0 : Nat) : Int)) = 3 ∧
      (pulp_conv_pw_fp16_fw_cl (c12_args 0)).output.data 1
        = (c12_args 0).coeff.data ((1 * 2 + 0 : Nat) : Int) * (c12_args 0).input.data 0
          + (c12_args 0).coeff.data ((1 * 2 + 1 : Nat) : Int) * (c12_args 0).input.data 1 := by
  decide

/-- C15: the skip flag of `pulp_conv_pw_fp16_bw_cl`.  When `skip_in_grad` is not
zero the call is the weight gradient pass alone: it leaves `input.diff` as it was
and `coeff.diff` as `pulp_conv_pw_fp16_bw_param_grads_cl` computes it.  When
`skip_in_grad` is zero it is the weight gradient pass followed by the input
gradient pass. -/
theorem C15_pw_backward_skip_flag (PW_args : PointWise_Conv_args_fp16 R) :
    (i32 PW_args.skip_in_grad ≠ 0 →
      pulp_conv_pw_fp16_bw_cl PW_args = pulp_conv_pw_fp16_bw_param_grads_cl PW_args ∧
      (pulp_conv_pw_fp16_bw_cl PW_args).input.diff = PW_args.input.diff ∧
      (pulp_conv_pw_fp16_bw_cl PW_args).coeff.diff
        = (pulp_conv_pw_fp16_bw_param_grads_cl PW_args).coeff.diff) ∧
    (i32 PW_args.skip_in_grad = 0 →
      pulp_conv_pw_fp16_bw_cl PW_args
        = pulp_conv_pw_fp16_bw_input_grads_cl (pulp_conv_pw_fp16_bw_param_grads_cl PW_args)) := by
  constructor
  · intro h
    have e : pulp_conv_pw_fp16_bw_cl PW_args = pulp_conv_pw_fp16_bw_param_grads_cl PW_args := by
      simp only [pulp_conv_pw_fp16_bw_cl, h, if_false]
    rw [e]
    exact ⟨rfl, rfl, rfl⟩
  · intro h
    simp only [pulp_conv_pw_fp16_bw_cl, h, if_true]

/-- C15, instance: the call `c12_args` with the skip flag 1 and with the skip
flag 0. -/
theorem C15_pw_backward_skip_flag_witness :
    (pulp_conv_pw_fp16_bw_cl (c12_args 1) = pulp_conv_pw_fp16_bw_param_grads_cl (c12_args 1) ∧
      (pulp_conv_pw_fp16_bw_cl (c12_args 1)).input.diff = (c12_args 1).input.diff ∧
      (pulp_conv_pw_fp16_bw_cl (c12_args 1)).coeff.diff
        = (pulp_conv_pw_fp16_bw_param_grads_cl (c12_args 1)).coeff.diff) ∧
    pulp_conv_pw_fp16_bw_cl (c12_args 0)
      = pulp_conv_pw_fp16_bw_input_grads_cl (pulp_conv_pw_fp16_bw_param_grads_cl (c12_args 0)) :=
  ⟨(C15_pw_backward_skip_flag (c12_args 1)).1 (by decide),
    (C15_pw_backward_skip_flag (c12_args 0)).2 (by decide)⟩

end conv

/-! ## The static partition: the three variants of the rule -/

theorem act_block_range_eq (P k N : Int) (hP : 1 ≤ P) (hN : 1 ≤ N) (hNP : N + P ≤ 2147483648)
    (hk0 : 0 ≤ k) (hk : k < P) : act_block_range P k N = block_range P k N := by
  rw [block_range_eq P k N hP (by omega) hNP hk0 hk]
  have h1 : (N + P - 1) / P * P ≤ N + P - 1 := Int.ediv_mul_le _ (by omega)
  have h2 : 0 ≤ (N + P - 1) / P := Int.ediv_nonneg (by omega) (by omega)
  have h3 : k * ((N + P - 1) / P) ≤ (P - 1) * ((N + P - 1) / P) :=
    mul_le_mul_of_nonneg_right (by omega) h2
  have h4 : (P - 1) * ((N + P - 1) / P) = (N + P - 1) / P * P - (N + P - 1) / P := by ring
  have h5 : 0 ≤ k * ((N + P - 1) / P) := mul_nonneg hk0 h2
  unfold act_block_range
  simp only []
  rw [i32_of_range (x := N + P - 1) (by omega) (by omega), i32_of_range (x := P) (by omega) (by omega),
    Int.tdiv_eq_ediv (by omega) (by omega)]
  generalize (N + P - 1) / P = bs at *
  rw [i32_of_range (x := bs) (by omega) (by omega)]
  generalize k * bs = s at *
  rw [i32_of_range (x := s) (by omega) (by omega), i32_of_range (x := s + bs) (by omega) (by omega)]

theorem blocktransp_range_eq (P k N : Int) (hP : 1 ≤ P) (hN : 0 ≤ N) (hNP : N + P ≤ 2147483648)
    (hk0 : 0 ≤ k) (hk : k < P) : blocktransp_range P k N = block_range P k N := by
  rw [block_range_eq P k N hP hN hNP hk0 hk]
  have h1 : (N + P - 1) / P * P ≤ N + P - 1 := Int.ediv_mul_le _ (by omega)
  have h2 : 0 ≤ (N + P - 1) / P := Int.ediv_nonneg (by omega) (by omega)
  have h3 : k * ((N + P - 1) / P) ≤ (P - 1) * ((N + P - 1) / P) :=
    mul_le_mul_of_nonneg_right (by omega) h2
  have h4 : (P - 1) * ((N + P - 1) / P) = (N + P - 1) / P * P - (N + P - 1) / P := by ring
  have h5 : 0 ≤ k * ((N + P - 1) / P) := mul_nonneg hk0 h2
  unfold blocktransp_range
  simp only []
  rw [u32_of_range (x := N + P - 1) (by omega) (by omega), u32_of_range (x := P) (by omega) (by omega)]
  generalize (N + P - 1) / P = bs at *
  rw [u32_of_range (x := bs) (by omega) (by omega)]
  generalize k * bs = s at *
  rw [u32_of_range (x := s) (by omega) (by omega), u32_of_range (x := s + bs) (by omega) (by omega)]

theorem forLoop_empty {σ : Type} (lo hi : Int) (h : hi ≤ lo) (body : Int → σ → σ) (s : σ) :
    forLoop lo hi body s = s := by
  unfold forLoop
  have e : (hi - lo).toNat = 0 := by omega
  rw [e]
  rfl

/-- C16: partition covering.  For every extent `N ≥ 1` and worker count `P ≥ 1`
with `N + P ≤ 2^31`, and for each of the three forms in which the source writes the
rule (`int` operands in `sigmoid_core_fw_fp16` and `sigmoid_core_bw_fp16`, mixed
operands in `pulp_im2col_fp32`, `uint32_t` operands in `pulp_blocktransp_fp32`):
`c = (N+P-1)/P` is the ceiling of `N/P`; worker `k` gets `[k*c, min((k+1)*c, N))`;
the ranges of two different workers share no index; an index lies in `[0, N)`
exactly when it lies in the range of some worker; and a worker whose start is at
least `N` runs its loop over no index. -/
theorem C16_partition_covering (rule : Int → Int → Int → Int × Int)
    (hrule : rule = act_block_range ∨ rule = block_range ∨ rule = blocktransp_range)
    (N P : Int) (hN : 1 ≤ N) (hP : 1 ≤ P) (hNP : N + P ≤ 2147483648) :
    (((N + P - 1) / P - 1) * P < N ∧ N ≤ (N + P - 1) / P * P) ∧
    (∀ k, 0 ≤ k → k < P →
      rule P k N = (k * ((N + P - 1) / P), min ((k + 1) * ((N + P - 1) / P)) N)) ∧
    (∀ k1 k2 i, 0 ≤ k1 → k1 < P → 0 ≤ k2 → k2 < P →
      (rule P k1 N).1 ≤ i → i < (rule P k1 N).2 →
      (rule P k2 N).1 ≤ i → i < (rule P k2 N).2 → k1 = k2) ∧
    (∀ i, (0 ≤ i ∧ i < N) ↔ ∃ k, 0 ≤ k ∧ k < P ∧ (rule P k N).1 ≤ i ∧ i < (rule P k N).2) ∧
    (∀ k, 0 ≤ k → k < P → N ≤ (rule P k N).1 →
      ∀ (σ : Type) (body : Int → σ → σ) (s : σ),
        forLoop (rule P k N).1 (rule P k N).2 body s = s) := by
  have hc1 : (N + P - 1) / P * P ≤ N + P - 1 := Int.ediv_mul_le _ (by omega)
  have hc2 : N + P - 1 < ((N + P - 1) / P + 1) * P := Int.lt_ediv_add_one_mul_self _ (by omega)
  have hc3 : ((N + P - 1) / P + 1) * P = (N + P - 1) / P * P + P := by ring
  have hc4 : ((N + P - 1) / P - 1) * P = (N + P - 1) / P * P - P := by ring
  have hc0 : 0 ≤ (N + P - 1) / P := Int.ediv_nonneg (by omega) (by omega)
  have hform : ∀ k, 0 ≤ k → k < P →
      rule P k N = (k * ((N + P - 1) / P), min ((k + 1) * ((N + P - 1) / P)) N) := by
    intro k hk0 hk
    have hb := block_range_eq P k N hP (by omega) hNP hk0 hk
    have hr : rule P k N = block_range P k N := by
      rcases hrule with h | h | h
      · rw [h]; exact act_block_range_eq P k N hP hN hNP hk0 hk
      · rw [h]
      · rw [h]; exact blocktransp_range_eq P k N hP (by omega) hNP hk0 hk
    rw [hr, hb]
    have e : (k + 1) * ((N + P - 1) / P) = k * ((N + P - 1) / P) + (N + P - 1) / P := by ring
    rw [e]
    generalize k * ((N + P - 1) / P) + (N + P - 1) / P = t
    congr 1
    rw [min_def]
    split <;> split <;> omega
  refine ⟨⟨by omega, by omega⟩, hform, ?_, ?_, ?_⟩
  · intro k1 k2 i h10 h1 h20 h2 a1 b1 a2 b2
    rw [hform k1 h10 h1] at a1 b1
    rw [hform k2 h20 h2] at a2 b2
    simp only [] at a1 b1 a2 b2
    have b1' : i < (k1 + 1) * ((N + P - 1) / P) := lt_of_lt_of_le b1 (min_le_left _ _)
    have b2' : i < (k2 + 1) * ((N + P - 1) / P) := lt_of_lt_of_le b2 (min_le_left _ _)
    by_contra hne
    rcases lt_or_gt_of_ne hne with hlt | hgt
    · have : (k1 + 1) * ((N + P - 1) / P) ≤ k2 * ((N + P - 1) / P) :=
        mul_le_mul_of_nonneg_right (by omega) hc0
      omega
    · have : (k2 + 1) * ((N + P - 1) / P) ≤ k1 * ((N + P - 1) / P) :=
        mul_le_mul_of_nonneg_right (by omega) hc0
      omega
  · intro i
    constructor
    · rintro ⟨hi0, hi⟩
      obtain ⟨k, hk, hlo, hhi⟩ := block_range_cover P N i hP hNP hi0 hi
      refine ⟨(k : Int), by omega, hk, ?_, ?_⟩
      · rw [hform k (by omega) hk]
        rw [block_range_eq P k N hP (by omega) hNP (by omega) hk] at hlo
        exact hlo
      · rw [hform k (by omega) hk]
        rw [block_range_eq P k N hP (by omega) hNP (by omega) hk] at hhi
        simp only [] at hhi ⊢
        have e : (k + 1) * ((N + P - 1) / P)
            = (k : Int) * ((N + P - 1) / P) + (N + P - 1) / P := by ring
        rw [e, lt_min_iff]
        split at hhi <;> omega
    · rintro ⟨k, hk0, hk, hlo, hhi⟩
      rw [hform k hk0 hk] at hlo hhi
      simp only [] at hlo hhi
      have h5 : 0 ≤ k * ((N + P - 1) / P) := mul_nonneg hk0 hc0
      have := lt_of_lt_of_le hhi (min_le_right _ _)
      omega
  · intro k hk0 hk hstart σ body s
    refine forLoop_empty _ _ ?_ body s
    rw [hform k hk0 hk] at hstart ⊢
    simp only [] at hstart ⊢
    exact le_trans (min_le_right _ _) hstart

/-- C16, instance: `N = 5` indices on `P = 4` workers with the rule of
`sigmoid_core_fw_fp16`; the ranges are `[0,2)`, `[2,4)`, `[4,5)` and the empty
`[6,5)`. -/
theorem C16_partition_covering_witness :
    (((5 + 4 - 1) / 4 - 1) * 4 < (5 : Int) ∧ (5 : Int) ≤ (5 + 4 - 1) / 4 * 4) ∧
    (∀ k, 0 ≤ k → k < 4 →
      act_block_range 4 k 5 = (k * ((5 + 4 - 1) / 4), min ((k + 1) * ((5 + 4 - 1) / 4)) 5)) ∧
    (∀ k1 k2 i, 0 ≤ k1 → k1 < 4 → 0 ≤ k2 → k2 < 4 →
      (act_block_range 4 k1 5).1 ≤ i → i < (act_block_range 4 k1 5).2 →
      (act_block_range 4 k2 5).1 ≤ i → i < (act_block_range 4 k2 5).2 → k1 = k2) ∧
    (∀ i, (0 ≤ i ∧ i < 5) ↔
      ∃ k, 0 ≤ k ∧ k < 4 ∧ (act_block_range 4 k 5).1 ≤ i ∧ i < (act_block_range 4 k 5).2) ∧
    (∀ k, 0 ≤ k → k < 4 → 5 ≤ (act_block_range 4 k 5).1 →
      ∀ (σ : Type) (body : Int → σ → σ) (s : σ),
        forLoop (act_block_range 4 k 5).1 (act_block_range 4 k 5).2 body s = s) :=
  C16_partition_covering act_block_range (Or.inl rfl) 5 4 (by decide) (by decide) (by decide)

/-! ## Block transpose -/

section blocktransp
variable {α : Type}

theorem writes_bt_nest (lo hi Cin Cout HW : Int)
    (st : Int → Int → Int → (Int → α) → (Int → α)) (f : Int → Int → Int → α)
    (hlo : 0 ≤ lo) (hhi : hi ≤ Cout)
    (hst : ∀ k c i, lo ≤ k → k < hi → 0 ≤ c → c < Cin → 0 ≤ i → i < HW →
      st k c i = fun buf => Function.update buf ((c * Cout + k) * HW + i) (f k c i)) :
    Writes
      (forLoop lo hi (fun k buf => forLoop 0 Cin (fun c buf => forLoop 0 HW (fun i buf =>
        st k c i buf) buf) buf))
      (fun idx => ∃ k, lo ≤ k ∧ k < hi ∧ ∃ c, 0 ≤ c ∧ c < Cin ∧ ∃ i, 0 ≤ i ∧ i < HW ∧
        idx = (c * Cout + k) * HW + i)
      (fun idx => f (idx / HW % Cout) (idx / HW / Cout) (idx % HW)) := by
  refine writes_forLoop lo hi _ _ _ (fun k hk0 hk => ?_)
  refine writes_forLoop 0 Cin _ _ _ (fun c hc0 hc => ?_)
  refine writes_forLoop 0 HW _ _ _ (fun i hi0 hi => ?_)
  rw [hst k c i hk0 hk hc0 hc hi0 hi]
  refine writes_update _ _ _ ?_
  show f (((c * Cout + k) * HW + i) / HW % Cout) (((c * Cout + k) * HW + i) / HW / Cout)
    (((c * Cout + k) * HW + i) % HW) = f k c i
  rw [radix_div _ _ _ hi0 hi, radix_mod _ _ _ hi0 hi, radix_div _ _ _ (by omega) (by omega),
    radix_mod _ _ _ (by omega) (by omega)]

theorem bt_index_bounds (Cin Cout HW k c i : Int) (hk0 : 0 ≤ k) (hk : k < Cout)
    (hc0 : 0 ≤ c) (hc : c < Cin) (hi0 : 0 ≤ i) (hi : i < HW) :
    0 ≤ (c * Cout + k) * HW + i ∧ (c * Cout + k) * HW + i < Cin * Cout * HW ∧
      0 ≤ (k * Cin + c) * HW + (HW - 1 - i) ∧
      (k * Cin + c) * HW + (HW - 1 - i) < Cout * Cin * HW := by
  have n1 := radix_nonneg c k Cout hc0 hk0 hk
  have n2 := radix_nonneg _ i HW n1 hi0 hi
  have l1 := radix_lt c k Cin Cout hc hk0 hk
  have l2 := radix_lt _ i _ HW l1 hi0 hi
  have m1 := radix_nonneg k c Cin hk0 hc0 hc
  have m2 := radix_nonneg _ (HW - 1 - i) HW m1 (by omega) (by omega)
  have p1 := radix_lt k c Cout Cin hk hc0 hc
  have p2 := radix_lt _ (HW - 1 - i) _ HW p1 (by omega) (by omega)
  exact ⟨n2, l2, m2, p2⟩

/-- One core of the block transpose, as a transformer of `bt_weights`. -/
theorem blocktransp_core_writes (P k : Int) (weights : Int → α) (Cin Cout Hk Wk : Int)
    (hP : 1 ≤ P) (hk0 : 0 ≤ k) (hk : k < P)
    (hCin : fits_u32 Cin) (hCout : fits_u32 Cout) (hHk : fits_u32 Hk) (hWk : fits_u32 Wk)
    (hHW : Hk * Wk < 4294967296) (hCP : Cout + P ≤ 2147483648)
    (hsize : Cin * Cout * (Hk * Wk) ≤ 4294967296) :
    Writes (fun bt => pulp_blocktransp_fp32 P k ⟨weights, bt, Cin, Cout, Hk, Wk⟩)
      (fun idx => ∃ k2, (block_range P k Cout).1 ≤ k2 ∧ k2 < (block_range P k Cout).2 ∧
        ∃ c, 0 ≤ c ∧ c < Cin ∧ ∃ i, 0 ≤ i ∧ i < Hk * Wk ∧
        idx = (c * Cout + k2) * (Hk * Wk) + i)
      (fun idx => (fun k2 c i => weights ((k2 * Cin + c) * (Hk * Wk) + (Hk * Wk - 1 - i)))
        (idx / (Hk * Wk) % Cout) (idx / (Hk * Wk) / Cout) (idx % (Hk * Wk))) := by
  have hHW0 : 0 ≤ Hk * Wk := mul_nonneg hHk.1 hWk.1
  have eHW : u32 (Hk * Wk) = Hk * Wk := u32_of_range hHW0 hHW
  have hb := block_range_bounds P k Cout hP hCout.1 hCP hk0 hk
  have hcomm : Cout * Cin * (Hk * Wk) = Cin * Cout * (Hk * Wk) := by ring
  simp only [pulp_blocktransp_fp32, u32_fits hCin, u32_fits hCout, u32_fits hHk, u32_fits hWk, eHW,
    blocktransp_range_eq P k Cout hP hCout.1 hCP hk0 hk]
  refine writes_bt_nest _ _ Cin Cout (Hk * Wk)
    (fun k2 c i bt_weights =>
      Function.update bt_weights (u32 (i + k2 * (Hk * Wk) + c * Cout * (Hk * Wk)))
        (weights (u32 (Hk * Wk - 1 - i + c * (Hk * Wk) + k2 * Cin * (Hk * Wk)))))
    (fun k2 c i => weights ((k2 * Cin + c) * (Hk * Wk) + (Hk * Wk - 1 - i))) hb.1 hb.2 ?_
  intro k2 c i hk20 hk2 hc0 hc hi0 hi
  have hbd := bt_index_bounds Cin Cout (Hk * Wk) k2 c i (by omega) (by omega) hc0 hc hi0 hi
  funext buf
  have e1 : i + k2 * (Hk * Wk) + c * Cout * (Hk * Wk) = (c * Cout + k2) * (Hk * Wk) + i := by ring
  have e2 : Hk * Wk - 1 - i + c * (Hk * Wk) + k2 * Cin * (Hk * Wk)
      = (k2 * Cin + c) * (Hk * Wk) + (Hk * Wk - 1 - i) := by ring
  show Function.update buf (u32 (i + k2 * (Hk * Wk) + c * Cout * (Hk * Wk)))
      (weights (u32 (Hk * Wk - 1 - i + c * (Hk * Wk) + k2 * Cin * (Hk * Wk))))
    = Function.update buf ((c * Cout + k2) * (Hk * Wk) + i)
      (weights ((k2 * Cin + c) * (Hk * Wk) + (Hk * Wk - 1 - i)))
  rw [e1, e2, u32_of_range hbd.1 (by omega), u32_of_range hbd.2.2.1 (by omega)]

/-- All cores of the block transpose. -/
theorem blocktransp_fork_spec (P : Nat) (weights bt : Int → α) (Cin Cout Hk Wk : Int)
    (hP : 1 ≤ P) (hCin : fits_u32 Cin) (hCout : fits_u32 Cout) (hHk : fits_u32 Hk)
    (hWk : fits_u32 Wk) (hHW : Hk * Wk < 4294967296) (hCP : Cout + P ≤ 2147483648)
    (hsize : Cin * Cout * (Hk * Wk) ≤ 4294967296) :
    (∀ k c i, 0 ≤ k → k < Cout → 0 ≤ c → c < Cin → 0 ≤ i → i < Hk * Wk →
      blocktransp_fork P ⟨weights, bt, Cin, Cout, Hk, Wk⟩ ((c * Cout + k) * (Hk * Wk) + i)
        = weights ((k * Cin + c) * (Hk * Wk) + (Hk * Wk - 1 - i))) ∧
    (∀ idx, idx < 0 ∨ Cin * Cout * (Hk * Wk) ≤ idx →
      blocktransp_fork P ⟨weights, bt, Cin, Cout, Hk, Wk⟩ idx = bt idx) := by
  have hPi : (1 : Int) ≤ (P : Int) := by omega
  have hW := writes_forN P
    (fun j b => pulp_blocktransp_fp32 (P : Int) (j : Int) ⟨weights, b, Cin, Cout, Hk, Wk⟩)
    (fun j idx => ∃ k2, (block_range P j Cout).1 ≤ k2 ∧ k2 < (block_range P j Cout).2 ∧
        ∃ c, 0 ≤ c ∧ c < Cin ∧ ∃ i, 0 ≤ i ∧ i < Hk * Wk ∧
        idx = (c * Cout + k2) * (Hk * Wk) + i)
    (fun idx => (fun k2 c i => weights ((k2 * Cin + c) * (Hk * Wk) + (Hk * Wk - 1 - i)))
        (idx / (Hk * Wk) % Cout) (idx / (Hk * Wk) / Cout) (idx % (Hk * Wk)))
    (fun j hj => blocktransp_core_writes (P : Int) (j : Int) weights Cin Cout Hk Wk hPi
      (by omega) (by omega) hCin hCout hHk hWk hHW hCP hsize)
  constructor
  · intro k c i hk0 hk hc0 hc hi0 hi
    obtain ⟨j, hjP, hlo, hhi⟩ := block_range_cover P Cout k hPi hCP hk0 hk
    have h := (hW bt ((c * Cout + k) * (Hk * Wk) + i)).1
      ⟨j, by omega, k, hlo, hhi, c, hc0, hc, i, hi0, hi, rfl⟩
    show forN P _ bt _ = _
    rw [h]
    show weights (((((c * Cout + k) * (Hk * Wk) + i) / (Hk * Wk) % Cout) * Cin
      + ((c * Cout + k) * (Hk * Wk) + i) / (Hk * Wk) / Cout) * (Hk * Wk)
      + (Hk * Wk - 1 - ((c * Cout + k) * (Hk * Wk) + i) % (Hk * Wk))) = _
    rw [radix_div _ _ _ hi0 hi, radix_mod _ _ _ hi0 hi, radix_div _ _ _ hk0 hk,
      radix_mod _ _ _ hk0 hk]
  · intro idx hidx
    show forN P _ bt _ = _
    refine (hW bt idx).2 ?_
    rintro ⟨j, hj, k2, hlo, hhi, c, hc0, hc, i, hi0, hi, rfl⟩
    have hb := block_range_bounds P j Cout hPi hCout.1 hCP (by omega) (by omega)
    have hbd := bt_index_bounds Cin Cout (Hk * Wk) k2 c i (by omega) (by omega) hc0 hc hi0 hi
    omega

theorem bt_extents_fit (Cin Cout Hk Wk B : Int) (hCout : 1 ≤ Cout) (hCin : 1 ≤ Cin)
    (hHk : 1 ≤ Hk) (hWk : 1 ≤ Wk) (hsize : Cout * Cin * (Hk * Wk) < B) :
    Cin < B ∧ Cout < B ∧ Hk < B ∧ Wk < B ∧ Hk * Wk < B := by
  have hHW : 1 ≤ Hk * Wk := one_le_mul_of_one_le_of_one_le hHk hWk
  have hCC : 1 ≤ Cout * Cin := one_le_mul_of_one_le_of_one_le hCout hCin
  have h1 : Hk * Wk ≤ Cout * Cin * (Hk * Wk) := le_mul_of_one_le_left (by omega) hCC
  have h2 : Cout * Cin ≤ Cout * Cin * (Hk * Wk) := le_mul_of_one_le_right (by omega) hHW
  have h3 : Cin ≤ Cout * Cin := le_mul_of_one_le_left (by omega) hCout
  have h4 : Cout ≤ Cout * Cin := le_mul_of_one_le_right (by omega) hCin
  have h5 : Hk ≤ Hk * Wk := le_mul_of_one_le_right (by omega) hWk
  have h6 : Wk ≤ Hk * Wk := le_mul_of_one_le_left (by omega) hHk
  refine ⟨?_, ?_, ?_, ?_, ?_⟩ <;> omega

/-- C17: block transpose result.  For `Cout, Cin, Hk, Wk ≥ 1` with fewer than `2^32`
weights (`HW = Hk*Wk`) and every worker count `P ≥ 1` (`Cout + P ≤ 2^31`), after all
`P` workers have run `pulp_blocktransp_fp32`, for every `k < Cout`, `c < Cin`,
`i < HW`: `bt_weights[i + k*HW + c*Cout*HW] = weights[(HW-1-i) + c*HW + k*Cin*HW]`;
`bt_weights` is as it was outside these `Cout*Cin*HW` elements. -/
theorem C17_blocktransp_result (P : Nat) (weights bt_weights : Int → α) (Cout Cin Hk Wk : Int)
    (hP : 1 ≤ P) (hCout : 1 ≤ Cout) (hCin : 1 ≤ Cin) (hHk : 1 ≤ Hk) (hWk : 1 ≤ Wk)
    (hCP : Cout + P ≤ 2147483648) (hsize : Cout * Cin * (Hk * Wk) < 4294967296) :
    (∀ k c i, 0 ≤ k → k < Cout → 0 ≤ c → c < Cin → 0 ≤ i → i < Hk * Wk →
      blocktransp_fork P ⟨weights, bt_weights, Cin, Cout, Hk, Wk⟩
          (i + k * (Hk * Wk) + c * Cout * (Hk * Wk))
        = weights ((Hk * Wk - 1 - i) + c * (Hk * Wk) + k * Cin * (Hk * Wk))) ∧
    (∀ idx, idx < 0 ∨ Cout * Cin * (Hk * Wk) ≤ idx →
      blocktransp_fork P ⟨weights, bt_weights, Cin, Cout, Hk, Wk⟩ idx = bt_weights idx) := by
  obtain ⟨f1, f2, f3, f4, f5⟩ := bt_extents_fit Cin Cout Hk Wk _ hCout hCin hHk hWk hsize
  have hcomm : Cin * Cout * (Hk * Wk) = Cout * Cin * (Hk * Wk) := by ring
  obtain ⟨hcell, hframe⟩ := blocktransp_fork_spec P weights bt_weights Cin Cout Hk Wk hP
    ⟨by omega, f1⟩ ⟨by omega, f2⟩ ⟨by omega, f3⟩ ⟨by omega, f4⟩ f5 hCP (by omega)
  constructor
  · intro k c i hk0 hk hc0 hc hi0 hi
    have e1 : i + k * (Hk * Wk) + c * Cout * (Hk * Wk) = (c * Cout + k) * (Hk * Wk) + i := by ring
    have e2 : (Hk * Wk - 1 - i) + c * (Hk * Wk) + k * Cin * (Hk * Wk)
        = (k * Cin + c) * (Hk * Wk) + (Hk * Wk - 1 - i) := by ring
    rw [e1, e2]
    exact hcell k c i hk0 hk hc0 hc hi0 hi
  · intro idx hidx
    exact hframe idx (by omega)

/-- C17, instance: `Cout = 3`, `Cin = 2`, kernel `1x2`, weights `i ↦ i`, three
workers. -/
theorem C17_blocktransp_result_witness :
    (∀ k c i, 0 ≤ k → k < 3 → 0 ≤ c → c < 2 → 0 ≤ i → i < 1 * 2 →
      blocktransp_fork 3 ⟨fun j : Int => j, fun _ => -1, 2, 3, 1, 2⟩
          (i + k * (1 * 2) + c * 3 * (1 * 2))
        = (fun j : Int => j) ((1 * 2 - 1 - i) + c * (1 * 2) + k * 2 * (1 * 2))) ∧
    (∀ idx, idx < 0 ∨ 3 * 2 * (1 * 2) ≤ idx →
      blocktransp_fork 3 ⟨fun j : Int => j, fun _ => -1, 2, 3, 1, 2⟩ idx
        = (fun _ : Int => (-1 : Int)) idx) :=
  C17_blocktransp_result 3 (fun j : Int => j) (fun _ => -1) 3 2 1 2
    (by decide) (by decide) (by decide) (by decide) (by decide) (by decide) (by decide)

/-- C18: the window reversal of `pulp_blocktransp_fp32` is a rotation of the kernel
by 180 degrees.  For `Hk, Wk ≥ 1`, `h < Hk`, `w < Wk`, the flat index `i = h*Wk + w`
is mapped to `HW-1-i = (Hk-1-h)*Wk + (Wk-1-w)`, and after all `P` workers have run,
the output window of every channel pair `(k, c)` holds at `(h, w)` the element the
input window holds at `(Hk-1-h, Wk-1-w)`. -/
theorem C18_blocktransp_rotation (P : Nat) (weights bt_weights : Int → α) (Cout Cin Hk Wk : Int)
    (hP : 1 ≤ P) (hCout : 1 ≤ Cout) (hCin : 1 ≤ Cin) (hHk : 1 ≤ Hk) (hWk : 1 ≤ Wk)
    (hCP : Cout + P ≤ 2147483648) (hsize : Cout * Cin * (Hk * Wk) < 4294967296)
    (h w : Int) (hh0 : 0 ≤ h) (hh : h < Hk) (hw0 : 0 ≤ w) (hw : w < Wk) :
      Hk * Wk - 1 - (h * Wk + w) = (Hk - 1 - h) * Wk + (Wk - 1 - w) ∧
      (0 ≤ h * Wk + w ∧ h * Wk + w < Hk * Wk) ∧
      ∀ k c, 0 ≤ k → k < Cout → 0 ≤ c → c < Cin →
        blocktransp_fork P ⟨weights, bt_weights, Cin, Cout, Hk, Wk⟩
            ((h * Wk + w) + k * (Hk * Wk) + c * Cout * (Hk * Wk))
          = weights (((Hk - 1 - h) * Wk + (Wk - 1 - w)) + c * (Hk * Wk) + k * Cin * (Hk * Wk)) := by
  obtain ⟨f1, f2, f3, f4, f5⟩ := bt_extents_fit Cin Cout Hk Wk _ hCout hCin hHk hWk hsize
  obtain ⟨hcell, -⟩ := blocktransp_fork_spec P weights bt_weights Cin Cout Hk Wk hP
    ⟨by omega, f1⟩ ⟨by omega, f2⟩ ⟨by omega, f3⟩ ⟨by omega, f4⟩ f5 hCP
    (by have : Cin * Cout * (Hk * Wk) = Cout * Cin * (Hk * Wk) := by ring
        omega)
  have hrot : Hk * Wk - 1 - (h * Wk + w) = (Hk - 1 - h) * Wk + (Wk - 1 - w) := by ring
  have hi0 := radix_nonneg h w Wk hh0 hw0 hw
  have hi1 := radix_lt h w Hk Wk hh hw0 hw
  refine ⟨hrot, ⟨hi0, hi1⟩, ?_⟩
  intro k c hk0 hk hc0 hc
  have e1 : (h * Wk + w) + k * (Hk * Wk) + c * Cout * (Hk * Wk)
      = (c * Cout + k) * (Hk * Wk) + (h * Wk + w) := by ring
  have e2 : ((Hk - 1 - h) * Wk + (Wk - 1 - w)) + c * (Hk * Wk) + k * Cin * (Hk * Wk)
      = (k * Cin + c) * (Hk * Wk) + (Hk * Wk - 1 - (h * Wk + w)) := by ring
  rw [e1, e2]
  exact hcell k c (h * Wk + w) hk0 hk hc0 hc hi0 hi1

/-- C18, instance: `Cout = 2`, `Cin = 2`, kernel `3x3`, weights `i ↦ i`, two
workers, window position `(h, w) = (0, 1)`, which receives the element at `(2, 1)`. -/
theorem C18_blocktransp_rotation_witness :
    (3 : Int) * 3 - 1 - (0 * 3 + 1) = (3 - 1 - 0) * 3 + (3 - 1 - 1) ∧
      ((0 : Int) ≤ 0 * 3 + 1 ∧ (0 : Int) * 3 + 1 < 3 * 3) ∧
      ∀ k c : Int, 0 ≤ k → k < 2 → 0 ≤ c → c < 2 →
        blocktransp_fork 2 ⟨fun j : Int => j, fun _ => -1, 2, 2, 3, 3⟩
            ((0 * 3 + 1) + k * (3 * 3) + c * 2 * (3 * 3))
          = (fun j : Int => j) (((3 - 1 - 0) * 3 + (3 - 1 - 1)) + c * (3 * 3) + k * 2 * (3 * 3)) :=
  C18_blocktransp_rotation 2 (fun j : Int => j) (fun _ => -1) 2 2 3 3
    (by decide) (by decide) (by decide) (by decide) (by decide) (by decide) (by decide)
    0 1 (by decide) (by decide) (by decide) (by decide)

end blocktransp

/-! ## Softmax -/

theorem forN_pointwise {α : Type} (n : Nat) (lo : Int) (h : Int → α → α) (buf : Int → α) :
    forN n (fun k b => Function.update b (lo + (k : Int)) (h (lo + (k : Int)) (b (lo + (k : Int)))))
        buf
      = fun i => if lo ≤ i ∧ i < lo + (n : Int) then h i (buf i) else buf i := by
  induction n with
  | zero =>
    funext i
    have hne : ¬ (lo ≤ i ∧ i < lo + ((0 : Nat) : Int)) := by omega
    simp only [forN, if_neg hne]
  | succ m ih =>
    rw [forN_succ, ih]
    funext i
    have hself : ¬ (lo ≤ lo + (m : Int) ∧ lo + (m : Int) < lo + (m : Int)) := by omega
    by_cases him : i = lo + (m : Int)
    · subst him
      have hin : lo ≤ lo + (m : Int) ∧ lo + (m : Int) < lo + ((m + 1 : Nat) : Int) := by omega
      simp only [Function.update_same, if_neg hself, if_pos hin]
    · rw [Function.update_noteq him]
      by_cases hr : lo ≤ i ∧ i < lo + (m : Int)
      · have hin : lo ≤ i ∧ i < lo + ((m + 1 : Nat) : Int) := by omega
        simp only [if_pos hr, if_pos hin]
      · have hin : ¬ (lo ≤ i ∧ i < lo + ((m + 1 : Nat) : Int)) := by omega
        simp only [if_neg hr, if_neg hin]

theorem forLoop_pointwise {α : Type} (lo hi : Int) (h : Int → α → α) (buf : Int → α) :
    forLoop lo hi (fun j b => Function.update b j (h j (b j))) buf
      = fun i => if lo ≤ i ∧ i < hi then h i (buf i) else buf i := by
  unfold forLoop
  rw [forN_pointwise (hi - lo).toNat lo h buf]
  funext i
  by_cases hr : lo ≤ i ∧ i < hi
  · rw [if_pos hr, if_pos (by omega)]
  · rw [if_neg hr, if_neg (by omega)]

section softmax
variable {R : Type} [CommRing R]

theorem softmax_bw_diff (inData inDiff s g : Int → R) (dim : Nat)
    (hdim : (dim : Int) < 2147483648) :
    (pulp_softmax_fp16_bw_cl (mk_act_args inData inDiff s g dim)).input.diff
      = fun i => if 0 ≤ i ∧ i < (dim : Int) then
          s i * (g i - Finset.sum (Finset.range dim) (fun z => g (z : Int) * s (z : Int)))
        else inDiff i := by
  have e := i32_of_range (x := (dim : Int)) (by omega) hdim
  simp only [pulp_softmax_fp16_bw_cl, mk_act_args, e]
  rw [forLoop_pointwise 0 (dim : Int) (fun j x => x + s j * g j),
    forLoop_pointwise 0 (dim : Int)
      (fun j _ => forLoop 0 (dim : Int) (fun z sum => sum + g z * s z * -s j) 0)]
  funext i
  by_cases hr : 0 ≤ i ∧ i < (dim : Int)
  · simp only [if_pos hr]
    rw [forLoop_sum dim (fun z => g z * s z * -s i), ← Finset.sum_mul]
    ring
  · simp only [if_neg hr]

theorem softmax_bw_precomputed_diff (inData inDiff s g : Int → R) (dim : Nat)
    (hdim : (dim : Int) < 2147483648) :
    (softmax_bw_precomputed (mk_act_args inData inDiff s g dim)).input.diff
      = fun i => if 0 ≤ i ∧ i < (dim : Int) then
          s i * (g i - Finset.sum (Finset.range dim) (fun z => g (z : Int) * s (z : Int)))
        else inDiff i := by
  have e := i32_of_range (x := (dim : Int)) (by omega) hdim
  simp only [softmax_bw_precomputed, mk_act_args, e]
  rw [forLoop_pointwise 0 (dim : Int)
      (fun j _ => s j * (g j - forLoop 0 (dim : Int) (fun z acc => acc + g z * s z) 0)),
    forLoop_sum dim (fun z => g z * s z)]

/-- C19: softmax backward computes the Jacobian-vector product.  In exact
arithmetic, for every length `dim` that is an `int` value and all vectors
`s = output.data` and `g = output.diff`, `pulp_softmax_fp16_bw_cl` leaves
`inDiff[j] = s[j]·(g[j] − Σ_{z<dim} g[z]·s[z])` for every `j < dim`, leaves `inDiff`
as it was elsewhere, and its result is the result of the variant that computes
`Σ_z g[z]·s[z]` once and reuses it. -/
theorem C19_softmax_backward (inData inDiff s g : Int → R) (dim : Nat)
    (hdim : (dim : Int) < 2147483648) :
    (∀ j : Nat, j < dim →
      (pulp_softmax_fp16_bw_cl (mk_act_args inData inDiff s g dim)).input.diff (j : Int)
        = s j * (g j - Finset.sum (Finset.range dim) (fun z => g (z : Int) * s (z : Int)))) ∧
    (∀ i : Int, i < 0 ∨ (dim : Int) ≤ i →
      (pulp_softmax_fp16_bw_cl (mk_act_args inData inDiff s g dim)).input.diff i = inDiff i) ∧
    pulp_softmax_fp16_bw_cl (mk_act_args inData inDiff s g dim)
      = softmax_bw_precomputed (mk_act_args inData inDiff s g dim) := by
  have h1 := softmax_bw_diff inData inDiff s g dim hdim
  have h2 := softmax_bw_precomputed_diff inData inDiff s g dim hdim
  refine ⟨?_, ?_, ?_⟩
  · intro j hj
    rw [h1]
    simp only []
    rw [if_pos (by omega)]
  · intro i hi
    rw [h1]
    simp only []
    rw [if_neg (by omega)]
  · have h3 : (pulp_softmax_fp16_bw_cl (mk_act_args inData inDiff s g dim)).input.diff
        = (softmax_bw_precomputed (mk_act_args inData inDiff s g dim)).input.diff := by
      rw [h1, h2]
    simp only [pulp_softmax_fp16_bw_cl, softmax_bw_precomputed] at h3 ⊢
    rw [h3]

/-- C19, instance: `s = (1, 2, 3)`, `g = (4, 5, 6)` over the integers. -/
theorem C19_softmax_backward_witness :
    (∀ j : Nat, j < 3 →
      (pulp_softmax_fp16_bw_cl (mk_act_args (fun _ : Int => (0 : Int)) (fun _ => -7)
          (fun i => i + 1) (fun i => i + 4) (3 : Nat))).input.diff (j : Int)
        = (fun i : Int => i + 1) j * ((fun i : Int => i + 4) j
            - Finset.sum (Finset.range 3)
                (fun z => (fun i : Int => i + 4) (z : Int) * (fun i : Int => i + 1) (z : Int)))) ∧
    (∀ i : Int, i < 0 ∨ ((3 : Nat) : Int) ≤ i →
      (pulp_softmax_fp16_bw_cl (mk_act_args (fun _ : Int => (0 : Int)) (fun _ => -7)
          (fun i => i + 1) (fun i => i + 4) (3 : Nat))).input.diff i = (fun _ : Int => (-7 : Int)) i) ∧
    pulp_softmax_fp16_bw_cl (mk_act_args (fun _ : Int => (0 : Int)) (fun _ => -7)
          (fun i => i + 1) (fun i => i + 4) (3 : Nat))
      = softmax_bw_precomputed (mk_act_args (fun _ : Int => (0 : Int)) (fun _ => -7)
          (fun i => i + 1) (fun i => i + 4) (3 : Nat)) :=
  C19_softmax_backward (fun _ : Int => (0 : Int)) (fun _ => -7) (fun i => i + 1) (fun i => i + 4) 3
    (by decide)

end softmax

/-- What the reduction of lines 140-142 yields for any maxima: a value that is at
least `0` and at least every `maxes[i]`, and that is `0` or one of the `maxes[i]`,
hence the largest of `0` and the per-worker maxima. -/
theorem softmax_fw_max_char {R : Type} [Zero R] [LinearOrder R] (P : Nat) (maxes : Int → R) :
    0 ≤ pulp_softmax_fp16_fw_cl_max (P : Int) maxes ∧
      (∀ i : Nat, i < P → maxes (i : Int) ≤ pulp_softmax_fp16_fw_cl_max (P : Int) maxes) ∧
      (pulp_softmax_fp16_fw_cl_max (P : Int) maxes = 0 ∨
        ∃ i : Nat, i < P ∧ pulp_softmax_fp16_fw_cl_max (P : Int) maxes = maxes (i : Int)) := by
  unfold pulp_softmax_fp16_fw_cl_max forLoop
  have e : ((P : Int) - 0).toNat = P := by omega
  simp only [e, zero_add]
  induction P with
  | zero =>
    refine ⟨le_refl _, ?_, Or.inl rfl⟩
    intro i hi
    omega
  | succ m ih =>
    have ih2 := ih (by omega)
    obtain ⟨h0, hle, hor⟩ := ih2
    rw [forN_succ]
    by_cases hlt : forN m (fun k max => if max < maxes (k : Int) then maxes (k : Int) else max) 0
        < maxes (m : Int)
    · rw [if_pos hlt]
      refine ⟨le_trans h0 (le_of_lt hlt), ?_, Or.inr ⟨m, by omega, rfl⟩⟩
      intro i hi
      by_cases him : i = m
      · subst him
        exact le_refl _
      · exact le_trans (hle i (by omega)) (le_of_lt hlt)
    · rw [if_neg hlt]
      refine ⟨h0, ?_, ?_⟩
      · intro i hi
        by_cases him : i = m
        · subst him
          exact not_lt.mp hlt
        · exact hle i (by omega)
      · rcases hor with h | ⟨i, hi, h⟩
        · exact Or.inl h
        · exact Or.inr ⟨i, by omega, h⟩

/-- C20, evaluation at the failing input: two workers whose per-worker maxima are
`maxes = (-1, -2)` (the row `(-1, -2)`, one element per worker).  The largest of the
per-worker maxima, and the maximum of the row, is `-1`; the value the function
hands to the exponentiation phase is `0`, the initial value of `max`, because no
`maxes[i]` exceeds it. -/
theorem C20_softmax_global_max_failing_input :
    pulp_softmax_fp16_fw_cl_max 2 (fun i : Int => if i = 0 then (-1 : Int) else -2) = 0 ∧
      max ((fun i : Int => if i = 0 then (-1 : Int) else -2) 0)
        ((fun i : Int => if i = 0 then (-1 : Int) else -2) 1) = -1 := by
  decide

/-! ## Diagnostics on valid configurations -/

/-- C30, evaluation at the failing input `c30_args 0 1` (forward mode, HWC layout,
direct path, input `[1,4,4]`, kernel `3x3`, stride 1, no pads, which passes the
divisibility check as `4-3+0+0+1 = 2` is a multiple of the stride 1).  Both tags
are valid and the buffer is filled (offset 0 holds `input.data[0] = 1`), yet the
call emits the invalid-`USE_DMA` diagnostic: the statement of line 527 is
`if (USE_DMA == 1)`, not `else if`, so its `else` at line 612 runs after the
direct path has finished.  With the same geometry the three other combinations of
valid tags emit nothing. -/
theorem C30_hwc_direct_diagnostic_failing_input :
    (pi_cl_team_fork 1 (c30_args 0 1)).map (fun r => r.log) = some [Diag.invalid_USE_DMA] ∧
      (pi_cl_team_fork 1 (c30_args 0 1)).map (fun r => r.i2c_buf 0) = some 1 ∧
      u32 (4 - 3 + 0 + 0 + 1) % 1 = 0 ∧
      (pi_cl_team_fork 1 (c30_args 1 1)).map (fun r => r.log) = some [] ∧
      (pi_cl_team_fork 1 (c30_args 0 0)).map (fun r => r.log) = some [] ∧
      (pi_cl_team_fork 1 (c30_args 1 0)).map (fun r => r.log) = some [] := by
  decide

/-! ## ReLU -/

section relu
variable {R : Type} [Zero R] [LinearOrder R]

theorem relu_fw_data (inData inDiff outData outDiff : Int → R) (dim : Int)
    (hlo : -2147483648 ≤ dim) (hhi : dim < 2147483648) :
    pulp_relu_fp16_fw_cl (mk_act_args inData inDiff outData outDiff dim) =
      { mk_act_args inData inDiff outData outDiff dim with
        output := { (mk_act_args inData inDiff outData outDiff dim).output with
          data := fun i => if 0 ≤ i ∧ i < dim then (if inData i > 0 then inData i else 0)
            else outData i } } := by
  have e := forLoop_pointwise 0 dim (fun i _ => if inData i > 0 then inData i else 0) outData
  simp only [pulp_relu_fp16_fw_cl, mk_act_args, i32_of_range hlo hhi]
  rw [e]

theorem relu_bw_diff (inData inDiff outData outDiff : Int → R) (dim : Int)
    (hlo : -2147483648 ≤ dim) (hhi : dim < 2147483648) :
    pulp_relu_fp16_bw_cl (mk_act_args inData inDiff outData outDiff dim) =
      { mk_act_args inData inDiff outData outDiff dim with
        input := { (mk_act_args inData inDiff outData outDiff dim).input with
          diff := fun i => if 0 ≤ i ∧ i < dim then (if inData i > 0 then outDiff i else 0)
            else inDiff i } } := by
  have e := forLoop_pointwise 0 dim (fun i _ => if inData i > 0 then outDiff i else 0) inDiff
  simp only [pulp_relu_fp16_bw_cl, mk_act_args, i32_of_range hlo hhi]
  rw [e]

/-- C23: for every `dim` that is an `int` value and every input vector,
`pulp_relu_fp16_fw_cl` leaves `outData[i] = max(inData[i], 0)` for every
`0 ≤ i < dim`, so every output element is `≥ 0` and equals the input element
wherever the input is positive; the rest of `outData` and the other three buffers
are left as they were. -/
theorem C23_relu_forward (inData inDiff outData outDiff : Int → R) (dim : Int)
    (hlo : -2147483648 ≤ dim) (hhi : dim < 2147483648) :
    (∀ i : Int, 0 ≤ i → i < dim →
      (pulp_relu_fp16_fw_cl (mk_act_args inData inDiff outData outDiff dim)).output.data i
          = max (inData i) 0 ∧
        0 ≤ (pulp_relu_fp16_fw_cl (mk_act_args inData inDiff outData outDiff dim)).output.data i ∧
        (0 < inData i →
          (pulp_relu_fp16_fw_cl (mk_act_args inData inDiff outData outDiff dim)).output.data i
            = inData i)) ∧
      (∀ i : Int, ¬ (0 ≤ i ∧ i < dim) →
        (pulp_relu_fp16_fw_cl (mk_act_args inData inDiff outData outDiff dim)).output.data i
          = outData i) ∧
      (pulp_relu_fp16_fw_cl (mk_act_args inData inDiff outData outDiff dim)).output.diff = outDiff ∧
      (pulp_relu_fp16_fw_cl (mk_act_args inData inDiff outData outDiff dim)).input
        = (mk_act_args inData inDiff outData outDiff dim).input := by
  rw [relu_fw_data inData inDiff outData outDiff dim hlo hhi]
  refine ⟨?_, ?_, rfl, rfl⟩
  · intro i h0 h1
    have hin : 0 ≤ i ∧ i < dim := ⟨h0, h1⟩
    simp only [if_pos hin]
    by_cases hp : inData i > 0
    · simp only [if_pos hp]
      exact ⟨(max_eq_left (le_of_lt hp)).symm, le_of_lt hp, fun _ => trivial⟩
    · simp only [if_neg hp]
      exact ⟨(max_eq_right (not_lt.mp hp)).symm, le_refl _, fun h => absurd h hp⟩
  · intro i hi
    simp only [if_neg hi]

/-- C23, instance: the vector `(-1, 0, 1)` over the integers. -/
theorem C23_relu_forward_witness :
    (∀ i : Int, 0 ≤ i → i < 3 →
      (pulp_relu_fp16_fw_cl (mk_act_args (fun i : Int => i - 1) (fun _ => 7) (fun _ => -1)
          (fun _ => 5) 3)).output.data i = max ((fun i : Int => i - 1) i) 0 ∧
        0 ≤ (pulp_relu_fp16_fw_cl (mk_act_args (fun i : Int => i - 1) (fun _ => 7) (fun _ => -1)
          (fun _ => 5) 3)).output.data i ∧
        (0 < (fun i : Int => i - 1) i →
          (pulp_relu_fp16_fw_cl (mk_act_args (fun i : Int => i - 1) (fun _ => 7) (fun _ => -1)
            (fun _ => 5) 3)).output.data i = (fun i : Int => i - 1) i)) ∧
      (∀ i : Int, ¬ (0 ≤ i ∧ i < 3) →
        (pulp_relu_fp16_fw_cl (mk_act_args (fun i : Int => i - 1) (fun _ => 7) (fun _ => -1)
          (fun _ => 5) 3)).output.data i = (fun _ : Int => (-1 : Int)) i) ∧
      (pulp_relu_fp16_fw_cl (mk_act_args (fun i : Int => i - 1) (fun _ => 7) (fun _ => -1)
          (fun _ => 5) 3)).output.diff = (fun _ : Int => (5 : Int)) ∧
      (pulp_relu_fp16_fw_cl (mk_act_args (fun i : Int => i - 1) (fun _ => 7) (fun _ => -1)
          (fun _ => 5) 3)).input
        = (mk_act_args (fun i : Int => i - 1) (fun _ => 7) (fun _ => (-1 : Int))
          (fun _ => 5) 3).input :=
  C23_relu_forward (fun i : Int => i - 1) (fun _ => 7) (fun _ => -1) (fun _ => 5) 3
    (by decide) (by decide)

/-- C24: for every `dim` that is an `int` value, every input vector and every
upstream gradient, `pulp_relu_fp16_bw_cl` leaves `inDiff[i] = outDiff[i]` if
`inData[i] > 0` and `inDiff[i] = 0` otherwise, for every `0 ≤ i < dim`, and writes
nothing else: the rest of `inDiff`, `inData` and the output blob are as before. -/
theorem C24_relu_backward (inData inDiff outData outDiff : Int → R) (dim : Int)
    (hlo : -2147483648 ≤ dim) (hhi : dim < 2147483648) :
    (∀ i : Int, 0 ≤ i → i < dim →
      (pulp_relu_fp16_bw_cl (mk_act_args inData inDiff outData outDiff dim)).input.diff i
        = if inData i > 0 then outDiff i else 0) ∧
      (∀ i : Int, ¬ (0 ≤ i ∧ i < dim) →
        (pulp_relu_fp16_bw_cl (mk_act_args inData inDiff outData outDiff dim)).input.diff i
          = inDiff i) ∧
      (pulp_relu_fp16_bw_cl (mk_act_args inData inDiff outData outDiff dim)).input.data = inData ∧
      (pulp_relu_fp16_bw_cl (mk_act_args inData inDiff outData outDiff dim)).output
        = (mk_act_args inData inDiff outData outDiff dim).output := by
  rw [relu_bw_diff inData inDiff outData outDiff dim hlo hhi]
  refine ⟨?_, ?_, rfl, rfl⟩
  · intro i h0 h1
    have hin : 0 ≤ i ∧ i < dim := ⟨h0, h1⟩
    simp only [if_pos hin]
  · intro i hi
    simp only [if_neg hi]

/-- C24, instance: the vector `(-1, 0, 1)` with upstream gradient `(5, 6, 7)` over
the integers. -/
theorem C24_relu_backward_witness :
    (∀ i : Int, 0 ≤ i → i < 3 →
      (pulp_relu_fp16_bw_cl (mk_act_args (fun i : Int => i - 1) (fun _ => 9) (fun _ => -1)
          (fun i => i + 5) 3)).input.diff i
        = if (fun i : Int => i - 1) i > 0 then (fun i : Int => i + 5) i else 0) ∧
      (∀ i : Int, ¬ (0 ≤ i ∧ i < 3) →
        (pulp_relu_fp16_bw_cl (mk_act_args (fun i : Int => i - 1) (fun _ => 9) (fun _ => -1)
          (fun i => i + 5) 3)).input.diff i = (fun _ : Int => (9 : Int)) i) ∧
      (pulp_relu_fp16_bw_cl (mk_act_args (fun i : Int => i - 1) (fun _ => 9) (fun _ => -1)
          (fun i => i + 5) 3)).input.data = (fun i : Int => i - 1) ∧
      (pulp_relu_fp16_bw_cl (mk_act_args (fun i : Int => i - 1) (fun _ => 9) (fun _ => -1)
          (fun i => i + 5) 3)).output
        = (mk_act_args (fun i : Int => i - 1) (fun _ => 9) (fun _ => (-1 : Int))
          (fun i => i + 5) 3).output :=
  C24_relu_backward (fun i : Int => i - 1) (fun _ => 9) (fun _ => -1) (fun i => i + 5) 3
    (by decide) (by decide)

end relu

/-! ## Elementwise kernels over the static partition -/

theorem forN_congr {σ : Type} (n : Nat) (body1 body2 : Nat → σ → σ)
    (h : ∀ k, k < n → ∀ s, body1 k s = body2 k s) (s : σ) :
    forN n body1 s = forN n body2 s := by
  induction n with
  | zero => rfl
  | succ m ih =>
    rw [forN_succ, forN_succ, ih (fun k hk => h k (by omega)), h m (by omega)]

theorem act_block_range_closed (P k N : Int) (hP : 1 ≤ P) (hN : 0 ≤ N)
    (hNP : N + P < 2147483648) (hk0 : 0 ≤ k) (hk : k < P) :
    act_block_range P k N
      = (k * ((N + P - 1) / P),
          if k * ((N + P - 1) / P) + (N + P - 1) / P > N then N
          else k * ((N + P - 1) / P) + (N + P - 1) / P) := by
  have h1 : (N + P - 1) / P * P ≤ N + P - 1 := Int.ediv_mul_le _ (by omega)
  have h2 : 0 ≤ (N + P - 1) / P := Int.ediv_nonneg (by omega) (by omega)
  have h3 : k * ((N + P - 1) / P) ≤ (P - 1) * ((N + P - 1) / P) :=
    mul_le_mul_of_nonneg_right (by omega) h2
  have h4 : (P - 1) * ((N + P - 1) / P) = (N + P - 1) / P * P - (N + P - 1) / P := by ring
  have h5 : 0 ≤ k * ((N + P - 1) / P) := mul_nonneg hk0 h2
  have h6 : (N + P - 1) / P ≤ (N + P - 1) / P * P := le_mul_of_one_le_right h2 hP
  unfold act_block_range
  simp only []
  rw [i32_of_range (x := N + P - 1) (by omega) (by omega), i32_of_range (x := P) (by omega) (by omega),
    Int.tdiv_eq_ediv (by omega) (by omega)]
  generalize (N + P - 1) / P = bs at *
  rw [i32_of_range (x := bs) (by omega) (by omega)]
  generalize k * bs = s at *
  rw [i32_of_range (x := s) (by omega) (by omega), i32_of_range (x := s + bs) (by omega) (by omega)]

theorem forN_blocks_pointwise {α : Type} (c N : Int) (hc : 0 ≤ c) (h : Int → α → α)
    (buf : Int → α) (K : Nat) :
    forN K (fun k b =>
        forLoop ((k : Int) * c) (if (k : Int) * c + c > N then N else (k : Int) * c + c)
          (fun i b => Function.update b i (h i (b i))) b) buf
      = fun i => if 0 ≤ i ∧ i < N ∧ i < (K : Int) * c then h i (buf i) else buf i := by
  induction K with
  | zero =>
    funext i
    have hn : ¬ (0 ≤ i ∧ i < N ∧ i < ((0 : Nat) : Int) * c) := by
      simp only [Nat.cast_zero, zero_mul]
      omega
    rw [if_neg hn]
    rfl
  | succ m ih =>
    rw [forN_succ, ih, forLoop_pointwise]
    have e : ((m + 1 : Nat) : Int) * c = (m : Int) * c + c := by push_cast; ring
    have hs : 0 ≤ (m : Int) * c := mul_nonneg (by omega) hc
    rw [e]
    generalize (m : Int) * c = s at *
    funext i
    by_cases h1 : 0 ≤ i ∧ i < N ∧ i < s
    · have h2 : ¬ (s ≤ i ∧ i < if s + c > N then N else s + c) := by omega
      have h3 : 0 ≤ i ∧ i < N ∧ i < s + c := by omega
      simp only [if_pos h1, if_neg h2, if_pos h3]
    · by_cases h2 : s ≤ i ∧ i < if s + c > N then N else s + c
      · have h3 : 0 ≤ i ∧ i < N ∧ i < s + c := by
          split at h2 <;> omega
        simp only [if_neg h1, if_pos h2, if_pos h3]
      · have h3 : ¬ (0 ≤ i ∧ i < N ∧ i < s + c) := by
          split at h2 <;> omega
        simp only [if_neg h1, if_neg h2, if_neg h3]

theorem team_fork_act_pointwise {α : Type} (P : Nat) (N : Int) (hP : 1 ≤ P) (hN : 0 ≤ N)
    (hNP : N + (P : Int) < 2147483648) (h : Int → α → α) (buf : Int → α) :
    team_fork P (fun k b =>
        forLoop (act_block_range (P : Int) k N).1 (act_block_range (P : Int) k N).2
          (fun i b => Function.update b i (h i (b i))) b) buf
      = fun i => if 0 ≤ i ∧ i < N then h i (buf i) else buf i := by
  unfold team_fork
  rw [forN_congr P _ (fun k b =>
        forLoop ((k : Int) * ((N + (P : Int) - 1) / (P : Int)))
          (if (k : Int) * ((N + (P : Int) - 1) / (P : Int)) + (N + (P : Int) - 1) / (P : Int) > N
            then N
            else (k : Int) * ((N + (P : Int) - 1) / (P : Int)) + (N + (P : Int) - 1) / (P : Int))
          (fun i b => Function.update b i (h i (b i))) b)
      (fun k hk s => by
        show forLoop (act_block_range (P : Int) (k : Int) N).1
          (act_block_range (P : Int) (k : Int) N).2 _ s = _
        rw [act_block_range_closed (P : Int) (k : Int) N (by omega) hN hNP (by omega) (by omega)])]
  rw [forN_blocks_pointwise _ N (Int.ediv_nonneg (by omega) (by omega)) h buf P]
  have hb1 : N + (P : Int) - 1 < ((N + (P : Int) - 1) / (P : Int) + 1) * (P : Int) :=
    Int.lt_ediv_add_one_mul_self _ (by omega)
  have hb3 : ((N + (P : Int) - 1) / (P : Int) + 1) * (P : Int)
      = (P : Int) * ((N + (P : Int) - 1) / (P : Int)) + (P : Int) := by ring
  generalize (P : Int) * ((N + (P : Int) - 1) / (P : Int)) = t at *
  funext i
  by_cases h1 : 0 ≤ i ∧ i < N
  · rw [if_pos h1, if_pos (by omega)]
  · rw [if_neg h1, if_neg (by omega)]

section sigmoid
variable {R : Type} [CommRing R]

theorem sigmoid_bw_diff (P : Nat) (inData inDiff outData outDiff : Int → R) (dim : Int)
    (hP : 1 ≤ P) (hdim : 0 ≤ dim) (hNP : dim + (P : Int) < 2147483648) :
    pulp_sigmoid_fp16_bw_cl P (mk_act_args inData inDiff outData outDiff dim) =
      { mk_act_args inData inDiff outData outDiff dim with
        input := { (mk_act_args inData inDiff outData outDiff dim).input with
          diff := fun i => if 0 ≤ i ∧ i < dim then outDiff i * (outData i * (1 - outData i))
            else inDiff i } } := by
  have e := team_fork_act_pointwise P dim hP hdim hNP
    (fun i _ => outDiff i * (outData i * (1 - outData i))) inDiff
  simp only [pulp_sigmoid_fp16_bw_cl, sigmoid_core_bw_fp16, mk_act_args,
    i32_of_range (x := dim) (by omega) (by omega)]
  rw [e]

/-- C22: in exact arithmetic (any commutative ring), for every `dim ≥ 0` and every
worker count `P ≥ 1`, after all `P` workers have run `sigmoid_core_bw_fp16`,
`inDiff[i] = outDiff[i]·out[i]·(1 − out[i])` for every `i < dim`, where `out` is the
stored forward output `output.data`; with `outDiff` all ones this is
`out[i]·(1 − out[i])`; the result is the same for any other content of
`input.data`; `inDiff` is unchanged outside `[0, dim)` and the other buffers are
not written. -/
theorem C22_sigmoid_backward (P : Nat) (inData inDiff outData outDiff : Int → R) (dim : Int)
    (hP : 1 ≤ P) (hdim : 0 ≤ dim) (hNP : dim + (P : Int) < 2147483648) :
    (∀ i : Int, 0 ≤ i → i < dim →
      (pulp_sigmoid_fp16_bw_cl P (mk_act_args inData inDiff outData outDiff dim)).input.diff i
        = outDiff i * outData i * (1 - outData i)) ∧
      ((∀ i : Int, outDiff i = 1) → ∀ i : Int, 0 ≤ i → i < dim →
        (pulp_sigmoid_fp16_bw_cl P (mk_act_args inData inDiff outData outDiff dim)).input.diff i
          = outData i * (1 - outData i)) ∧
      (∀ inData2 : Int → R,
        (pulp_sigmoid_fp16_bw_cl P (mk_act_args inData2 inDiff outData outDiff dim)).input.diff
          = (pulp_sigmoid_fp16_bw_cl P (mk_act_args inData inDiff outData outDiff dim)).input.diff) ∧
      (∀ i : Int, ¬ (0 ≤ i ∧ i < dim) →
        (pulp_sigmoid_fp16_bw_cl P (mk_act_args inData inDiff outData outDiff dim)).input.diff i
          = inDiff i) ∧
      (pulp_sigmoid_fp16_bw_cl P (mk_act_args inData inDiff outData outDiff dim)).input.data
        = inData ∧
      (pulp_sigmoid_fp16_bw_cl P (mk_act_args inData inDiff outData outDiff dim)).output
        = (mk_act_args inData inDiff outData outDiff dim).output := by
  refine ⟨?_, ?_, ?_, ?_, ?_, ?_⟩
  · intro i h0 h1
    rw [sigmoid_bw_diff P inData inDiff outData outDiff dim hP hdim hNP]
    have hin : 0 ≤ i ∧ i < dim := ⟨h0, h1⟩
    simp only [if_pos hin]
    ring
  · intro hone i h0 h1
    rw [sigmoid_bw_diff P inData inDiff outData outDiff dim hP hdim hNP]
    have hin : 0 ≤ i ∧ i < dim := ⟨h0, h1⟩
    simp only [if_pos hin, hone i, one_mul]
  · intro inData2
    rw [sigmoid_bw_diff P inData inDiff outData outDiff dim hP hdim hNP,
      sigmoid_bw_diff P inData2 inDiff outData outDiff dim hP hdim hNP]
  · intro i hi
    rw [sigmoid_bw_diff P inData inDiff outData outDiff dim hP hdim hNP]
    simp only [if_neg hi]
  · rw [sigmoid_bw_diff P inData inDiff outData outDiff dim hP hdim hNP]
    rfl
  · rw [sigmoid_bw_diff P inData inDiff outData outDiff dim hP hdim hNP]

/-- C22, instance: `out = (1, 2, 3, 4, 5)`, `outDiff = (2, 3, 4, 5, 6)` over the
integers, `dim = 5`, two workers. -/
theorem C22_sigmoid_backward_witness :
    (∀ i : Int, 0 ≤ i → i < 5 →
      (pulp_sigmoid_fp16_bw_cl 2 (mk_act_args (fun _ : Int => (0 : Int)) (fun _ => -7)
          (fun i => i + 1) (fun i => i + 2) 5)).input.diff i
        = (fun i : Int => i + 2) i * (fun i : Int => i + 1) i * (1 - (fun i : Int => i + 1) i)) ∧
      ((∀ i : Int, (fun i : Int => i + 2) i = 1) → ∀ i : Int, 0 ≤ i → i < 5 →
        (pulp_sigmoid_fp16_bw_cl 2 (mk_act_args (fun _ : Int => (0 : Int)) (fun _ => -7)
          (fun i => i + 1) (fun i => i + 2) 5)).input.diff i
          = (fun i : Int => i + 1) i * (1 - (fun i : Int => i + 1) i)) ∧
      (∀ inData2 : Int → Int,
        (pulp_sigmoid_fp16_bw_cl 2 (mk_act_args inData2 (fun _ => -7)
          (fun i => i + 1) (fun i => i + 2) 5)).input.diff
          = (pulp_sigmoid_fp16_bw_cl 2 (mk_act_args (fun _ : Int => (0 : Int)) (fun _ => -7)
          (fun i => i + 1) (fun i => i + 2) 5)).input.diff) ∧
      (∀ i : Int, ¬ (0 ≤ i ∧ i < 5) →
        (pulp_sigmoid_fp16_bw_cl 2 (mk_act_args (fun _ : Int => (0 : Int)) (fun _ => -7)
          (fun i => i + 1) (fun i => i + 2) 5)).input.diff i = (fun _ : Int => (-7 : Int)) i) ∧
      (pulp_sigmoid_fp16_bw_cl 2 (mk_act_args (fun _ : Int => (0 : Int)) (fun _ => -7)
          (fun i => i + 1) (fun i => i + 2) 5)).input.data = (fun _ : Int => (0 : Int)) ∧
      (pulp_sigmoid_fp16_bw_cl 2 (mk_act_args (fun _ : Int => (0 : Int)) (fun _ => -7)
          (fun i => i + 1) (fun i => i + 2) 5)).output
        = (mk_act_args (fun _ : Int => (0 : Int)) (fun _ => (-7 : Int))
          (fun i => i + 1) (fun i => i + 2) 5).output :=
  C22_sigmoid_backward 2 (fun _ : Int => (0 : Int)) (fun _ => -7) (fun i => i + 1)
    (fun i => i + 2) 5 (by decide) (by decide) (by decide)

end sigmoid


/-! ## Softmax backward on a normalised output -/

section softmax_sum
variable {R : Type} [CommRing R]

/-- C29: in exact arithmetic (any commutative ring), for every `dim` and every
`s = output.data` with `Σ_{j<dim} s[j] = 1` and every upstream gradient `g`, the
result of `pulp_softmax_fp16_bw_cl` satisfies `Σ_{j<dim} inDiff[j] = 0`, and adding
the same constant `c` to every element of `g` leaves `inDiff` unchanged. -/
theorem C29_softmax_backward_sum_zero (inData inDiff s g : Int → R) (dim : Nat)
    (hdim : (dim : Int) < 2147483648)
    (hs : Finset.sum (Finset.range dim) (fun j => s (j : Int)) = 1) :
    Finset.sum (Finset.range dim) (fun j =>
        (pulp_softmax_fp16_bw_cl (mk_act_args inData inDiff s g dim)).input.diff (j : Int)) = 0 ∧
      ∀ c : R,
        (pulp_softmax_fp16_bw_cl (mk_act_args inData inDiff s (fun i => g i + c) dim)).input.diff
          = (pulp_softmax_fp16_bw_cl (mk_act_args inData inDiff s g dim)).input.diff := by
  constructor
  · rw [softmax_bw_diff inData inDiff s g dim hdim]
    have e : ∀ j ∈ Finset.range dim,
        (fun i : Int => if 0 ≤ i ∧ i < (dim : Int) then
            s i * (g i - Finset.sum (Finset.range dim) (fun z => g (z : Int) * s (z : Int)))
          else inDiff i) (j : Int)
        = s (j : Int) * g (j : Int)
          - s (j : Int) * Finset.sum (Finset.range dim) (fun z => g (z : Int) * s (z : Int)) := by
      intro j hj
      have hj2 : j < dim := Finset.mem_range.mp hj
      have hin : 0 ≤ (j : Int) ∧ (j : Int) < (dim : Int) := by omega
      simp only [if_pos hin]
      ring
    rw [Finset.sum_congr rfl e, Finset.sum_sub_distrib, ← Finset.sum_mul, hs, one_mul]
    have e2 : ∀ j ∈ Finset.range dim, s (j : Int) * g (j : Int) = g (j : Int) * s (j : Int) :=
      fun j _ => mul_comm _ _
    rw [Finset.sum_congr rfl e2, sub_self]
  · intro c
    rw [softmax_bw_diff inData inDiff s g dim hdim,
      softmax_bw_diff inData inDiff s (fun i => g i + c) dim hdim]
    have e3 : Finset.sum (Finset.range dim) (fun z => (g (z : Int) + c) * s (z : Int))
        = Finset.sum (Finset.range dim) (fun z => g (z : Int) * s (z : Int)) + c := by
      have e4 : ∀ z ∈ Finset.range dim, (g (z : Int) + c) * s (z : Int)
          = g (z : Int) * s (z : Int) + c * s (z : Int) := fun z _ => by ring
      rw [Finset.sum_congr rfl e4, Finset.sum_add_distrib, ← Finset.mul_sum, hs, mul_one]
    funext i
    simp only [e3]
    split
    · ring
    · rfl

/-- C29, instance: `s = (3, -2)`, which sums to 1, and `g = (4, 5)` over the
integers. -/
theorem C29_softmax_backward_sum_zero_witness :
    Finset.sum (Finset.range 2) (fun j => (fun i : Int => 3 - 5 * i) (j : Int)) = 1 ∧
      Finset.sum (Finset.range 2) (fun j =>
        (pulp_softmax_fp16_bw_cl (mk_act_args (fun _ : Int => (0 : Int)) (fun _ => -7)
          (fun i => 3 - 5 * i) (fun i => i + 4) (2 : Nat))).input.diff (j : Int)) = 0 ∧
      ∀ c : Int,
        (pulp_softmax_fp16_bw_cl (mk_act_args (fun _ : Int => (0 : Int)) (fun _ => -7)
          (fun i => 3 - 5 * i) (fun i => (fun i : Int => i + 4) i + c) (2 : Nat))).input.diff
          = (pulp_softmax_fp16_bw_cl (mk_act_args (fun _ : Int => (0 : Int)) (fun _ => -7)
          (fun i => 3 - 5 * i) (fun i => i + 4) (2 : Nat))).input.diff :=
  ⟨by decide, C29_softmax_backward_sum_zero (fun _ : Int => (0 : Int)) (fun _ => -7)
    (fun i => 3 - 5 * i) (fun i => i + 4) 2 (by decide) (by decide)⟩

end softmax_sum


/-! ## Block transpose: round trip -/

theorem radix3_decomp (A B M j : Int) (hB : 1 ≤ B) (hM : 1 ≤ M) (hj0 : 0 ≤ j)
    (hj : j < A * B * M) :
    j = (j / M / B * B + j / M % B) * M + j % M ∧
      0 ≤ j % M ∧ j % M < M ∧ 0 ≤ j / M % B ∧ j / M % B < B ∧
      0 ≤ j / M / B ∧ j / M / B < A := by
  have h1 : j / M * M + j % M = j := Int.ediv_add_emod' j M
  have h2 : j / M / B * B + j / M % B = j / M := Int.ediv_add_emod' (j / M) B
  have h3 : 0 ≤ j % M := Int.emod_nonneg _ (by omega)
  have h4 : j % M < M := Int.emod_lt_of_pos _ (by omega)
  have h5 : 0 ≤ j / M % B := Int.emod_nonneg _ (by omega)
  have h6 : j / M % B < B := Int.emod_lt_of_pos _ (by omega)
  have h7 : 0 ≤ j / M := Int.ediv_nonneg hj0 (by omega)
  have h8 : 0 ≤ j / M / B := Int.ediv_nonneg h7 (by omega)
  have h9 : j / M < A * B := Int.ediv_lt_of_lt_mul (by omega) hj
  have h10 : j / M / B < A := Int.ediv_lt_of_lt_mul (by omega) h9
  refine ⟨?_, h3, h4, h5, h6, h8, h10⟩
  rw [h2, h1]

theorem bt_source_index (Cin Cout HW k c i : Int) (hk0 : 0 ≤ k) (hk : k < Cout)
    (hi0 : 0 ≤ i) (hi : i < HW) :
    bt_source Cin Cout HW ((c * Cout + k) * HW + i) = (k * Cin + c) * HW + (HW - 1 - i) := by
  unfold bt_source
  rw [radix_div _ _ _ hi0 hi, radix_mod _ _ _ hi0 hi, radix_div _ _ _ hk0 hk,
    radix_mod _ _ _ hk0 hk]

theorem bt_source_inv (Cin Cout HW j : Int) (hCin : 1 ≤ Cin) (hCout : 1 ≤ Cout) (hHW : 1 ≤ HW)
    (hj0 : 0 ≤ j) (hj : j < Cin * Cout * HW) :
    0 ≤ bt_source Cin Cout HW j ∧ bt_source Cin Cout HW j < Cout * Cin * HW ∧
      bt_source Cout Cin HW (bt_source Cin Cout HW j) = j := by
  obtain ⟨e, i0, i1, k0, k1, c0, c1⟩ := radix3_decomp Cin Cout HW j hCout hHW hj0 hj
  generalize j / HW / Cout = c at *
  generalize j / HW % Cout = k at *
  generalize j % HW = i at *
  rw [e, bt_source_index Cin Cout HW k c i k0 k1 i0 i1]
  have hb := bt_index_bounds Cout Cin HW c k (HW - 1 - i) c0 c1 k0 k1 (by omega) (by omega)
  refine ⟨?_, ?_, ?_⟩
  · exact hb.1
  · exact hb.2.1
  · rw [bt_source_index Cout Cin HW c k (HW - 1 - i) c0 c1 (by omega) (by omega)]
    have e3 : HW - 1 - (HW - 1 - i) = i := by omega
    rw [e3]

section roundtrip
variable {α : Type}

/-- C28: block transpose round trip.  For `Cout, Cin, Hk, Wk ≥ 1` with fewer than
`2^32` weights and every worker count `P ≥ 1` (`Cout + P ≤ 2^31`,
`Cin + P ≤ 2^31`), running `pulp_blocktransp_fp32` with `(Cout, Cin)` on `w` and
then again on the result with the channel counts swapped returns exactly `w` on the
`Cout*Cin*Hk*Wk` weights.  The first run is a bijective rearrangement: offset `j`
of its destination holds `w[bt_source j]`, where `bt_source` maps
`[0, Cout*Cin*Hk*Wk)` into itself and has the swapped `bt_source` as a two-sided
inverse, and nothing outside these offsets is written. -/
theorem C28_blocktransp_round_trip (P : Nat) (w bt1 bt2 : Int → α) (Cout Cin Hk Wk : Int)
    (hP : 1 ≤ P) (hCout : 1 ≤ Cout) (hCin : 1 ≤ Cin) (hHk : 1 ≤ Hk) (hWk : 1 ≤ Wk)
    (hCP : Cout + P ≤ 2147483648) (hCP2 : Cin + P ≤ 2147483648)
    (hsize : Cout * Cin * (Hk * Wk) < 4294967296) :
    (∀ j, 0 ≤ j → j < Cout * Cin * (Hk * Wk) →
      blocktransp_fork P
          ⟨blocktransp_fork P ⟨w, bt1, Cin, Cout, Hk, Wk⟩, bt2, Cout, Cin, Hk, Wk⟩ j = w j) ∧
    (∀ j, 0 ≤ j → j < Cout * Cin * (Hk * Wk) →
      blocktransp_fork P ⟨w, bt1, Cin, Cout, Hk, Wk⟩ j = w (bt_source Cin Cout (Hk * Wk) j) ∧
        0 ≤ bt_source Cin Cout (Hk * Wk) j ∧
        bt_source Cin Cout (Hk * Wk) j < Cout * Cin * (Hk * Wk) ∧
        bt_source Cout Cin (Hk * Wk) (bt_source Cin Cout (Hk * Wk) j) = j ∧
        bt_source Cin Cout (Hk * Wk) (bt_source Cout Cin (Hk * Wk) j) = j) ∧
    (∀ j, j < 0 ∨ Cout * Cin * (Hk * Wk) ≤ j →
      blocktransp_fork P ⟨w, bt1, Cin, Cout, Hk, Wk⟩ j = bt1 j) := by
  obtain ⟨f1, f2, f3, f4, f5⟩ := bt_extents_fit Cin Cout Hk Wk _ hCout hCin hHk hWk hsize
  have hHW : 1 ≤ Hk * Wk := one_le_mul_of_one_le_of_one_le hHk hWk
  have hcomm : Cin * Cout * (Hk * Wk) = Cout * Cin * (Hk * Wk) := by ring
  obtain ⟨hcell, hframe⟩ := blocktransp_fork_spec P w bt1 Cin Cout Hk Wk hP
    ⟨by omega, f1⟩ ⟨by omega, f2⟩ ⟨by omega, f3⟩ ⟨by omega, f4⟩ f5 hCP (by omega)
  obtain ⟨hcell2, -⟩ := blocktransp_fork_spec P (blocktransp_fork P ⟨w, bt1, Cin, Cout, Hk, Wk⟩)
    bt2 Cout Cin Hk Wk hP
    ⟨by omega, f2⟩ ⟨by omega, f1⟩ ⟨by omega, f3⟩ ⟨by omega, f4⟩ f5 hCP2 (by omega)
  refine ⟨?_, ?_, ?_⟩
  · intro j hj0 hj
    obtain ⟨e, i0, i1, k0, k1, c0, c1⟩ :=
      radix3_decomp Cout Cin (Hk * Wk) j hCin hHW hj0 hj
    generalize j / (Hk * Wk) / Cin = c at *
    generalize j / (Hk * Wk) % Cin = k at *
    generalize j % (Hk * Wk) = i at *
    rw [e, hcell2 k c i k0 k1 c0 c1 i0 i1,
      hcell c k (Hk * Wk - 1 - i) c0 c1 k0 k1 (by omega) (by omega)]
    have e3 : Hk * Wk - 1 - (Hk * Wk - 1 - i) = i := by omega
    rw [e3]
  · intro j hj0 hj
    have hinv := bt_source_inv Cin Cout (Hk * Wk) j hCin hCout hHW hj0 (by omega)
    have hinv2 := bt_source_inv Cout Cin (Hk * Wk) j hCout hCin hHW hj0 hj
    refine ⟨?_, hinv.1, hinv.2.1, hinv.2.2, hinv2.2.2⟩
    obtain ⟨e, i0, i1, k0, k1, c0, c1⟩ :=
      radix3_decomp Cin Cout (Hk * Wk) j hCout hHW hj0 (by omega)
    generalize j / (Hk * Wk) / Cout = c at *
    generalize j / (Hk * Wk) % Cout = k at *
    generalize j % (Hk * Wk) = i at *
    rw [e, bt_source_index Cin Cout (Hk * Wk) k c i k0 k1 i0 i1]
    exact hcell k c i k0 k1 c0 c1 i0 i1
  · intro j hj
    exact hframe j (by omega)

/-- C28, instance: `Cout = 3`, `Cin = 2`, kernel `1x2`, weights `i ↦ 10*i`, three
workers. -/
theorem C28_blocktransp_round_trip_witness :
    (∀ j, 0 ≤ j → j < 3 * 2 * (1 * 2) →
      blocktransp_fork 3
          ⟨blocktransp_fork 3 ⟨fun j : Int => 10 * j, fun _ => -1, 2, 3, 1, 2⟩,
            fun _ => -2, 3, 2, 1, 2⟩ j = (fun j : Int => 10 * j) j) ∧
    (∀ j, 0 ≤ j → j < 3 * 2 * (1 * 2) →
      blocktransp_fork 3 ⟨fun j : Int => 10 * j, fun _ => -1, 2, 3, 1, 2⟩ j
          = (fun j : Int => 10 * j) (bt_source 2 3 (1 * 2) j) ∧
        0 ≤ bt_source 2 3 (1 * 2) j ∧
        bt_source 2 3 (1 * 2) j < 3 * 2 * (1 * 2) ∧
        bt_source 3 2 (1 * 2) (bt_source 2 3 (1 * 2) j) = j ∧
        bt_source 2 3 (1 * 2) (bt_source 3 2 (1 * 2) j) = j) ∧
    (∀ j, j < 0 ∨ 3 * 2 * (1 * 2) ≤ j →
      blocktransp_fork 3 ⟨fun j : Int => 10 * j, fun _ => -1, 2, 3, 1, 2⟩ j
        = (fun _ : Int => (-1 : Int)) j) :=
  C28_blocktransp_round_trip 3 (fun j : Int => 10 * j) (fun _ => -1) (fun _ => -2) 3 2 1 2
    (by decide) (by decide) (by decide) (by decide) (by decide) (by decide) (by decide)
    (by decide)

end roundtrip


/-! ## Disjoint and complete writes of the direct CHW paths -/

theorem radix5_decomp (A B C Hk Wk i : Int) (hB : 1 ≤ B) (hC : 1 ≤ C) (hHk : 1 ≤ Hk)
    (hWk : 1 ≤ Wk) (hi0 : 0 ≤ i) (hi : i < A * B * C * Hk * Wk) :
    ∃ a b c hk wk, (0 ≤ a ∧ a < A) ∧ (0 ≤ b ∧ b < B) ∧ (0 ≤ c ∧ c < C) ∧
      (0 ≤ hk ∧ hk < Hk) ∧ (0 ≤ wk ∧ wk < Wk) ∧ i = chw_index B C Hk Wk a b c hk wk := by
  have e1 : i / Wk * Wk + i % Wk = i := Int.ediv_add_emod' i Wk
  have w0 : 0 ≤ i % Wk := Int.emod_nonneg _ (by omega)
  have w1 : i % Wk < Wk := Int.emod_lt_of_pos _ (by omega)
  have q1 : 0 ≤ i / Wk := Int.ediv_nonneg hi0 (by omega)
  have q1b : i / Wk < A * B * C * Hk := Int.ediv_lt_of_lt_mul (by omega) hi
  have e2 : i / Wk / Hk * Hk + i / Wk % Hk = i / Wk := Int.ediv_add_emod' _ Hk
  have k0 : 0 ≤ i / Wk % Hk := Int.emod_nonneg _ (by omega)
  have k1 : i / Wk % Hk < Hk := Int.emod_lt_of_pos _ (by omega)
  have q2 : 0 ≤ i / Wk / Hk := Int.ediv_nonneg q1 (by omega)
  have q2b : i / Wk / Hk < A * B * C := Int.ediv_lt_of_lt_mul (by omega) q1b
  have e3 : i / Wk / Hk / C * C + i / Wk / Hk % C = i / Wk / Hk := Int.ediv_add_emod' _ C
  have c0 : 0 ≤ i / Wk / Hk % C := Int.emod_nonneg _ (by omega)
  have c1 : i / Wk / Hk % C < C := Int.emod_lt_of_pos _ (by omega)
  have q3 : 0 ≤ i / Wk / Hk / C := Int.ediv_nonneg q2 (by omega)
  have q3b : i / Wk / Hk / C < A * B := Int.ediv_lt_of_lt_mul (by omega) q2b
  have e4 : i / Wk / Hk / C / B * B + i / Wk / Hk / C % B = i / Wk / Hk / C :=
    Int.ediv_add_emod' _ B
  have b0 : 0 ≤ i / Wk / Hk / C % B := Int.emod_nonneg _ (by omega)
  have b1 : i / Wk / Hk / C % B < B := Int.emod_lt_of_pos _ (by omega)
  have a0 : 0 ≤ i / Wk / Hk / C / B := Int.ediv_nonneg q3 (by omega)
  have a1 : i / Wk / Hk / C / B < A := Int.ediv_lt_of_lt_mul (by omega) q3b
  refine ⟨i / Wk / Hk / C / B, i / Wk / Hk / C % B, i / Wk / Hk % C, i / Wk % Hk, i % Wk,
    ⟨a0, a1⟩, ⟨b0, b1⟩, ⟨c0, c1⟩, ⟨k0, k1⟩, ⟨w0, w1⟩, ?_⟩
  rw [chw_index_eq, e4, e3, e2, e1]

theorem extents_pos_of_slot (A B C Hk Wk i : Int) (hA : 0 ≤ A) (hB : 0 ≤ B) (hC : 0 ≤ C)
    (hHk : 0 ≤ Hk) (hWk : 0 ≤ Wk) (hi0 : 0 ≤ i) (hi : i < A * B * C * Hk * Wk) :
    1 ≤ B ∧ 1 ≤ C ∧ 1 ≤ Hk ∧ 1 ≤ Wk := by
  have hpos : 0 < A * B * C * Hk * Wk := by omega
  refine ⟨?_, ?_, ?_, ?_⟩
  · by_contra h
    have : B = 0 := by omega
    subst this
    simp at hpos
  · by_contra h
    have : C = 0 := by omega
    subst this
    simp at hpos
  · by_contra h
    have : Hk = 0 := by omega
    subst this
    simp at hpos
  · by_contra h
    have : Wk = 0 := by omega
    subst this
    simp at hpos

theorem block_range_disjoint (P k1 k2 N : Int) (hP : 1 ≤ P) (hN : 0 ≤ N)
    (hNP : N + P ≤ 2147483648) (h0 : 0 ≤ k1) (h12 : k1 < k2) (h2 : k2 < P) :
    (block_range P k1 N).2 ≤ (block_range P k2 N).1 := by
  rw [block_range_eq P k1 N hP hN hNP h0 (by omega),
    block_range_eq P k2 N hP hN hNP (by omega) h2]
  have hc : 0 ≤ (N + P - 1) / P := Int.ediv_nonneg (by omega) (by omega)
  have h3 : (k1 + 1) * ((N + P - 1) / P) ≤ k2 * ((N + P - 1) / P) :=
    mul_le_mul_of_nonneg_right (by omega) hc
  have h4 : (k1 + 1) * ((N + P - 1) / P) = k1 * ((N + P - 1) / P) + (N + P - 1) / P := by ring
  simp only []
  split <;> omega

theorem chw_dest_eq (A B C Hk Wk : Int) (t : Int × Int × Int × Int × Int)
    (ht : t ∈ chw_box A B C Hk Wk) (hN : A * B * C * Hk * Wk ≤ 2147483648) :
    chw_dest B C Hk Wk t = chw_index B C Hk Wk t.1 t.2.1 t.2.2.1 t.2.2.2.1 t.2.2.2.2 := by
  obtain ⟨⟨a0, a1⟩, ⟨b0, b1⟩, ⟨c0, c1⟩, ⟨k0, k1⟩, ⟨w0, w1⟩⟩ := ht
  exact chw_store_index B C Hk Wk t.1 t.2.1 t.2.2.1 t.2.2.2.1 t.2.2.2.2 A a0 a1 b0 b1 c0 c1
    k0 k1 w0 w1 hN

theorem chw_worker_cells_iff (A B C Hk Wk : Int) (P k i : Int)
    (hN : A * B * C * Hk * Wk ≤ 2147483648)
    (hlo : 0 ≤ (block_range P k C).1) (hhi : (block_range P k C).2 ≤ C) :
    chw_worker_cells A B C Hk Wk P k i
      ↔ chw_cells A B C Hk Wk (block_range P k C).1 (block_range P k C).2 i := by
  constructor
  · rintro ⟨t, ht, hl, hh, rfl⟩
    rw [chw_dest_eq A B C Hk Wk t ht hN]
    obtain ⟨⟨a0, a1⟩, ⟨b0, b1⟩, ⟨c0, c1⟩, ⟨k0, k1⟩, ⟨w0, w1⟩⟩ := ht
    exact ⟨t.1, a0, a1, t.2.1, b0, b1, t.2.2.1, hl, hh, t.2.2.2.1, k0, k1, t.2.2.2.2, w0, w1, rfl⟩
  · rintro ⟨a, a0, a1, b, b0, b1, c, hl, hh, hk, k0, k1, wk, w0, w1, rfl⟩
    have ht : (a, b, c, hk, wk) ∈ chw_box A B C Hk Wk :=
      ⟨⟨a0, a1⟩, ⟨b0, b1⟩, ⟨show 0 ≤ c by omega, show c < C by omega⟩, ⟨k0, k1⟩, ⟨w0, w1⟩⟩
    exact ⟨(a, b, c, hk, wk), ht, hl, hh, (chw_dest_eq A B C Hk Wk _ ht hN).symm⟩

theorem chw_dest_bijOn (A B C Hk Wk : Int) (hA : 0 ≤ A) (hB : 0 ≤ B) (hC : 0 ≤ C)
    (hHk : 0 ≤ Hk) (hWk : 0 ≤ Wk) (hN : A * B * C * Hk * Wk ≤ 2147483648) :
    Set.BijOn (chw_dest B C Hk Wk) (chw_box A B C Hk Wk) (Set.Ico 0 (A * B * C * Hk * Wk)) := by
  refine ⟨?_, ?_, ?_⟩
  · intro t ht
    rw [chw_dest_eq A B C Hk Wk t ht hN]
    obtain ⟨⟨a0, a1⟩, ⟨b0, b1⟩, ⟨c0, c1⟩, ⟨k0, k1⟩, ⟨w0, w1⟩⟩ := ht
    exact chw_index_bounds A B C Hk Wk _ _ _ _ _ a0 a1 b0 b1 c0 c1 k0 k1 w0 w1
  · intro t ht t2 ht2 he
    rw [chw_dest_eq A B C Hk Wk t ht hN, chw_dest_eq A B C Hk Wk t2 ht2 hN] at he
    obtain ⟨⟨a0, a1⟩, ⟨b0, b1⟩, ⟨c0, c1⟩, ⟨k0, k1⟩, ⟨w0, w1⟩⟩ := ht
    obtain ⟨⟨a20, a21⟩, ⟨b20, b21⟩, ⟨c20, c21⟩, ⟨k20, k21⟩, ⟨w20, w21⟩⟩ := ht2
    have d1 := chw_decode_index B C Hk Wk t.1 t.2.1 t.2.2.1 t.2.2.2.1 t.2.2.2.2
      (fun a b c hk wk => (a, b, c, hk, wk)) b0 b1 c0 c1 k0 k1 w0 w1
    have d2 := chw_decode_index B C Hk Wk t2.1 t2.2.1 t2.2.2.1 t2.2.2.2.1 t2.2.2.2.2
      (fun a b c hk wk => (a, b, c, hk, wk)) b20 b21 c20 c21 k20 k21 w20 w21
    rw [he] at d1
    rw [d1] at d2
    exact d2
  · intro i hi
    obtain ⟨hi0, hi1⟩ := hi
    obtain ⟨pB, pC, pHk, pWk⟩ := extents_pos_of_slot A B C Hk Wk i hA hB hC hHk hWk hi0 hi1
    obtain ⟨a, b, c, hk, wk, ha, hb, hc, hhk, hwk, e⟩ :=
      radix5_decomp A B C Hk Wk i pB pC pHk pWk hi0 hi1
    have ht : (a, b, c, hk, wk) ∈ chw_box A B C Hk Wk := ⟨ha, hb, hc, hhk, hwk⟩
    exact ⟨(a, b, c, hk, wk), ht, by rw [chw_dest_eq A B C Hk Wk _ ht hN, e]⟩

section complete
variable {α : Type} [Zero α]

theorem disjoint_complete_of_writes (A B C Hk Wk : Int) (P : Nat) (args : im2col_args α)
    (F : Nat → (Int → α) → (Int → α)) (v : Int → α)
    (hA : 0 ≤ A) (hB : 0 ≤ B) (hC : 0 ≤ C) (hHk : 0 ≤ Hk) (hWk : 0 ≤ Wk)
    (hN : A * B * C * Hk * Wk ≤ 2147483648) (hP : 1 ≤ P) (hCP : C + P ≤ 2147483648)
    (hcall : ∀ k : Nat, k < P → ∀ b : Int → α, ∃ l,
      pulp_im2col_fp32 (P : Int) (k : Int) { args with pBuffer := b } = some ⟨F k b, l⟩)
    (hW : ∀ k : Nat, k < P →
      Writes (F k) (chw_cells A B C Hk Wk (block_range P k C).1 (block_range P k C).2) v) :
    DisjointCompleteWrites A B C Hk Wk P args := by
  have hPi : (1 : Int) ≤ (P : Int) := by omega
  have hbij := chw_dest_bijOn A B C Hk Wk hA hB hC hHk hWk hN
  have hrange : ∀ k : Nat, k < P →
      0 ≤ (block_range P k C).1 ∧ (block_range P k C).2 ≤ C :=
    fun k hk => block_range_bounds P k C hPi hC hCP (by omega) (by omega)
  have hcover : ∀ i, 0 ≤ i → i < A * B * C * Hk * Wk →
      ∃ k : Nat, k < P ∧ chw_worker_cells A B C Hk Wk P k i := by
    intro i hi0 hi1
    obtain ⟨t, ht, he⟩ := hbij.2.2 ⟨hi0, hi1⟩
    obtain ⟨k, hkP, hlo, hhi⟩ := block_range_cover P C t.2.2.1 hPi hCP ht.2.2.1.1 ht.2.2.1.2
    exact ⟨k, by omega, t, ht, hlo, hhi, he.symm⟩
  refine ⟨hbij, ?_, ?_, ?_, hcover, ?_⟩
  · intro a b c hk wk ht
    rw [chw_dest_eq A B C Hk Wk _ ht hN]
    unfold chw_index
    ring
  · intro k hk buf
    obtain ⟨l, hl⟩ := hcall k hk buf
    refine ⟨_, hl, fun i hi => ?_⟩
    refine (hW k hk buf i).2 (fun hc => hi ?_)
    exact (chw_worker_cells_iff A B C Hk Wk P k i hN (hrange k hk).1 (hrange k hk).2).2 hc
  · intro k1 k2 hk1 hk2 hne i
    rintro ⟨⟨t, ht, hl, hh, rfl⟩, ⟨t2, ht2, hl2, hh2, he⟩⟩
    have := hbij.2.1 ht ht2 he
    subst this
    rcases Nat.lt_or_gt_of_ne hne with h | h
    · have := block_range_disjoint P k1 k2 C hPi hC hCP (by omega) (by omega) (by omega)
      omega
    · have := block_range_disjoint P k2 k1 C hPi hC hCP (by omega) (by omega) (by omega)
      omega
  · intro buf1 buf2
    obtain ⟨r1, hr1, h1⟩ := run_cores_writes (P : Int) { args with pBuffer := buf1 } P F
      (fun k => chw_cells A B C Hk Wk (block_range P k C).1 (block_range P k C).2) v
      (fun k hk b => hcall k hk b) hW
    obtain ⟨r2, hr2, h2⟩ := run_cores_writes (P : Int) { args with pBuffer := buf2 } P F
      (fun k => chw_cells A B C Hk Wk (block_range P k C).1 (block_range P k C).2) v
      (fun k hk b => hcall k hk b) hW
    refine ⟨r1, r2, hr1, hr2, fun i hi0 hi1 => ?_⟩
    obtain ⟨k, hk, hc⟩ := hcover i hi0 hi1
    have hc2 := (chw_worker_cells_iff A B C Hk Wk P k i hN (hrange k hk).1 (hrange k hk).2).1 hc
    rw [(h1 i).1 ⟨k, hk, hc2⟩, (h2 i).1 ⟨k, hk, hc2⟩]

/-- C27: disjoint and complete writes of the direct CHW path.  For a geometry
whose extents are non-negative `int` values, with pads and strides that fit
`uint8_t`, strides at least 1, a forward geometry that passes the divisibility
check and im2col buffers of at most `2^31` elements, and every worker count
`P ≥ 1`: in forward mode the destination offset
`ci*Hk*Wk + wo*Hk*Wk*Cin + ho*Hk*Wk*Cin*Wtot + wk + hk*Wk` is a bijection from
`[0,Htot) x [0,Wtot) x [0,Cin) x [0,Hk) x [0,Wk)` onto `[0, Htot*Wtot*Cin*Hk*Wk)`,
and in input gradient mode `co*Hk*Wk + wi*Hk*Wk*Co + hi*Hk*Wk*Co*Win + wk + hk*Wk`
is a bijection onto `[0, Hin*Win*Co*Hk*Wk)`; in both modes each worker stores only
to the destinations of its channel slice, two different workers never store to the
same offset, every slot belongs to some worker, and the buffer left by all workers
does not depend on its previous content (`DisjointCompleteWrites`). -/
theorem C27_disjoint_complete_writes (P : Nat) (input_data output_diff buf : Int → α)
    (Cin Hin Win Hk Wk Co Hox Wox Lpad Rpad Upad Dpad Hstr Wstr Htot Wtot : Int)
    (hP : 1 ≤ P) (hCin : 0 ≤ Cin) (hCinP : Cin + P ≤ 2147483648)
    (hCo : 0 ≤ Co) (hCoP : Co + P ≤ 2147483648)
    (hHin : fits_int Hin) (hWin : fits_int Win) (hHk : fits_int Hk) (hWk : fits_int Wk)
    (hHox : fits_int Hox) (hWox : fits_int Wox)
    (hL : fits_u8 Lpad) (hR : fits_u8 Rpad) (hU : fits_u8 Upad) (hD : fits_u8 Dpad)
    (hHs1 : 1 ≤ Hstr) (hHs : Hstr < 256) (hWs1 : 1 ≤ Wstr) (hWs : Wstr < 256)
    (hH : u32 (Hin - Hk + Upad + Dpad + Hstr) % Hstr = 0)
    (hW : u32 (Win - Wk + Lpad + Rpad + Wstr) % Wstr = 0)
    (hHtot : Htot = u32 (Hin - Hk + Upad + Dpad + Hstr) / Hstr)
    (hWtot : Wtot = u32 (Win - Wk + Lpad + Rpad + Wstr) / Wstr)
    (hNfw : Htot * Wtot * Cin * Hk * Wk ≤ 2147483648)
    (hNig : Hin * Win * Co * Hk * Wk ≤ 2147483648) :
    DisjointCompleteWrites Htot Wtot Cin Hk Wk P
        (mk_args input_data output_diff buf Cin Hin Win Hk Wk Co Hox Wox
          Lpad Rpad Upad Dpad Hstr Wstr 0 0 0) ∧
      DisjointCompleteWrites Hin Win Co Hk Wk P
        (mk_args input_data output_diff buf Cin Hin Win Hk Wk Co Hox Wox
          Lpad Rpad Upad Dpad Hstr Wstr 1 0 0) := by
  have hPi : (1 : Int) ≤ (P : Int) := by omega
  obtain ⟨hHin0, hHin1⟩ := hHin
  obtain ⟨hWin0, hWin1⟩ := hWin
  obtain ⟨hHk0, hHk1⟩ := hHk
  obtain ⟨hWk0, hWk1⟩ := hWk
  have hHs8 : u8 Hstr ≠ 0 := by rw [u8_of_range (by omega) hHs]; omega
  have hWs8 : u8 Wstr ≠ 0 := by rw [u8_of_range (by omega) hWs]; omega
  have hHtot0 : 0 ≤ Htot := by
    rw [hHtot]
    exact Int.ediv_nonneg (Int.emod_nonneg _ (by decide)) (by omega)
  have hWtot0 : 0 ≤ Wtot := by
    rw [hWtot]
    exact Int.ediv_nonneg (Int.emod_nonneg _ (by decide)) (by omega)
  constructor
  · refine disjoint_complete_of_writes Htot Wtot Cin Hk Wk P _
      (fun k => im2col_chw_direct_fw input_data Win Hin Cin Wk Hk
        (u32 (Win - Wk + 1)) (u32 (Hin - Hk + 1)) Htot Wtot Lpad Rpad Upad Dpad Hstr Wstr
        (block_range P k Cin).1 (block_range P k Cin).2)
      (chw_decode Wtot Cin Hk Wk
        (chw_fw_stored input_data Win Hin Wk Hk (u32 (Win - Wk + 1)) (u32 (Hin - Hk + 1))
          Lpad Rpad Upad Dpad Hstr Wstr))
      hHtot0 hWtot0 hCin hHk0 hWk0 hNfw hP hCinP
      (fun k hk b => ⟨[], by
        rw [hHtot, hWtot]
        exact call_chw_direct_fw (P : Int) (k : Int) input_data output_diff b
          Cin Hin Win Hk Wk Co Hox Wox Lpad Rpad Upad Dpad Hstr Wstr hPi (by omega) (by omega)
          hCin hCinP ⟨hHin0, by omega⟩ ⟨hWin0, by omega⟩ ⟨hHk0, by omega⟩ ⟨hWk0, by omega⟩
          hL hR hU hD ⟨by omega, hHs⟩ ⟨by omega, hWs⟩ hHs1 hWs1 hH hW⟩)
      (fun k hk => im2col_chw_direct_fw_writes input_data Win Hin Cin Wk Hk _ _ Htot Wtot
        Lpad Rpad Upad Dpad Hstr Wstr _ _
        (block_range_bounds P k Cin hPi hCin hCinP (by omega) (by omega)).1
        (block_range_bounds P k Cin hPi hCin hCinP (by omega) (by omega)).2 hNfw)
  · refine disjoint_complete_of_writes Hin Win Co Hk Wk P _
      (fun k => im2col_chw_direct_in_grad output_diff Win Hin Wk Hk Co Hox Wox
        (block_range P k Co).1 (block_range P k Co).2)
      (chw_decode Win Co Hk Wk (chw_in_grad_stored output_diff Wk Hk Hox Wox))
      hHin0 hWin0 hCo hHk0 hWk0 hNig hP hCoP
      (fun k hk b => ⟨[], call_chw_direct_in_grad (P : Int) (k : Int) input_data output_diff b
        Cin Hin Win Hk Wk Co Hox Wox Lpad Rpad Upad Dpad Hstr Wstr hPi (by omega) (by omega)
        hCo hCoP ⟨hHin0, by omega⟩ ⟨hWin0, by omega⟩ ⟨hHk0, by omega⟩ ⟨hWk0, by omega⟩
        hHox hWox hHs8 hWs8⟩)
      (fun k hk => im2col_chw_direct_in_grad_writes output_diff Win Hin Wk Hk Co Hox Wox _ _
        (block_range_bounds P k Co hPi hCo hCoP (by omega) (by omega)).1
        (block_range_bounds P k Co hPi hCo hCoP (by omega) (by omega)).2 hNig)

/-- C27, instance: input `[C=2, H=4, W=4]`, kernel `3x3`, stride 1, no pads
(`Htot = Wtot = 2`), output gradient `[C=1, H=2, W=2]`, two workers. -/
theorem C27_disjoint_complete_writes_witness :
    DisjointCompleteWrites 2 2 2 3 3 2
        (mk_args (fun i : Int => i + 1) (fun i => i + 1) (fun _ => (-1 : Int))
          2 4 4 3 3 1 2 2 0 0 0 0 1 1 0 0 0) ∧
      DisjointCompleteWrites 4 4 1 3 3 2
        (mk_args (fun i : Int => i + 1) (fun i => i + 1) (fun _ => (-1 : Int))
          2 4 4 3 3 1 2 2 0 0 0 0 1 1 1 0 0) :=
  C27_disjoint_complete_writes 2 (fun i : Int => i + 1) (fun i => i + 1) (fun _ => (-1 : Int))
    2 4 4 3 3 1 2 2 0 0 0 0 1 1 2 2 (by decide) (by decide) (by decide) (by decide) (by decide)
    (by decide) (by decide) (by decide) (by decide) (by decide) (by decide)
    (by decide) (by decide) (by decide) (by decide)
    (by decide) (by decide) (by decide) (by decide) (by decide) (by decide) (by decide)
    (by decide) (by decide) (by decide)

end complete


/-! ## Loop nests partitioned over the rows: the HWC path and the DMA path -/

theorem writes_rows_nest {α : Type} (B C Hk Wk lo hi : Int)
    (st : Int → Int → Int → Int → Int → (Int → α) → (Int → α))
    (f : Int → Int → Int → Int → Int → α)
    (hst : ∀ a b c hk wk, lo ≤ a → a < hi → 0 ≤ b → b < B → 0 ≤ c → c < C →
      0 ≤ hk → hk < Hk → 0 ≤ wk → wk < Wk →
      st a b c hk wk = fun buf =>
        Function.update buf (chw_index B C Hk Wk a b c hk wk) (f a b c hk wk)) :
    Writes
      (forLoop lo hi (fun a buf => forLoop 0 B (fun b buf => forLoop 0 C (fun c buf =>
        forLoop 0 Hk (fun hk buf => forLoop 0 Wk (fun wk buf =>
          st a b c hk wk buf) buf) buf) buf) buf))
      (chw_rows B C Hk Wk lo hi) (chw_decode B C Hk Wk f) := by
  unfold chw_rows
  refine writes_forLoop lo hi _ _ _ (fun a ha0 ha => ?_)
  refine writes_forLoop 0 B _ _ _ (fun b hb0 hb => ?_)
  refine writes_forLoop 0 C _ _ _ (fun c hc0 hc => ?_)
  refine writes_forLoop 0 Hk _ _ _ (fun hk hk0 hk1 => ?_)
  refine writes_forLoop 0 Wk _ _ _ (fun wk wk0 wk1 => ?_)
  rw [hst a b c hk wk ha0 ha hb0 hb hc0 hc hk0 hk1 wk0 wk1]
  exact writes_update _ _ _
    (chw_decode_index B C Hk Wk a b c hk wk f hb0 hb hc0 hc hk0 hk1 wk0 wk1)

theorem chw_rows_bounds (A B C Hk Wk lo hi i : Int) (hlo : 0 ≤ lo) (hhi : hi ≤ A)
    (h : chw_rows B C Hk Wk lo hi i) : 0 ≤ i ∧ i < A * B * C * Hk * Wk := by
  obtain ⟨a, ha0, ha, b, hb0, hb, c, hc0, hc, hk, hk0, hk1, wk, wk0, wk1, rfl⟩ := h
  exact chw_index_bounds A B C Hk Wk a b c hk wk (by omega) (by omega) hb0 hb hc0 hc
    hk0 hk1 wk0 wk1

theorem hwc_store_index (Wtot Hk Wk Cin ho wo hk wk ci Htot : Int)
    (ha0 : 0 ≤ ho) (ha : ho < Htot) (hb0 : 0 ≤ wo) (hb : wo < Wtot) (hk0 : 0 ≤ hk)
    (hk1 : hk < Hk) (wk0 : 0 ≤ wk) (wk1 : wk < Wk) (hc0 : 0 ≤ ci) (hc : ci < Cin)
    (hN : Htot * Wtot * Hk * Wk * Cin ≤ 2147483648) :
    i32 (i32 (wo * Hk * Wk * Cin + ho * Hk * Wk * Cin * Wtot) + i32 (ci + wk * Cin + hk * Cin * Wk))
      = chw_index Wtot Hk Wk Cin ho wo hk wk ci := by
  have hb := chw_index_bounds Htot Wtot Hk Wk Cin ho wo hk wk ci ha0 ha hb0 hb hk0 hk1
    wk0 wk1 hc0 hc
  have e : (wo * Hk * Wk * Cin + ho * Hk * Wk * Cin * Wtot) + (ci + wk * Cin + hk * Cin * Wk)
      = chw_index Wtot Hk Wk Cin ho wo hk wk ci := by
    unfold chw_index; ring
  generalize chw_index Wtot Hk Wk Cin ho wo hk wk ci = idx at *
  generalize wo * Hk * Wk * Cin + ho * Hk * Wk * Cin * Wtot = x at *
  generalize ci + wk * Cin + hk * Cin * Wk = y at *
  unfold i32
  omega

section rows
variable {α : Type} [Zero α]

omit [Zero α] in
theorem im2col_hwc_fw_writes (input_data : Int → α)
    (Win Cin Wk Hk Htot Wtot Lpad Upad Hstr Wstr start stop : Int)
    (hstart : 0 ≤ start) (hstop : stop ≤ Htot)
    (hN : Htot * Wtot * Hk * Wk * Cin ≤ 2147483648) :
    Writes
      (im2col_hwc_fw input_data Win Cin Wk Hk Wtot Lpad Upad Hstr Wstr start stop)
      (chw_rows Wtot Hk Wk Cin start stop)
      (chw_decode Wtot Hk Wk Cin (hwc_fw_stored input_data Win Cin Lpad Upad Hstr Wstr)) := by
  unfold im2col_hwc_fw
  refine writes_rows_nest Wtot Hk Wk Cin start stop _ _ ?_
  intro ho wo hk wk ci ha0 ha hb0 hb hk0 hk1 wk0 wk1 hc0 hc
  funext buf
  have hi := hwc_store_index Wtot Hk Wk Cin ho wo hk wk ci Htot (by omega) (by omega) hb0 hb
    hk0 hk1 wk0 wk1 hc0 hc hN
  simp only [hi, hwc_fw_stored]

omit [Zero α] in
theorem im2col_chw_dma_fw_nopad_writes (input_data : Int → α)
    (Win Hin Cin Wk Hk Htot Wtot Hstr Wstr Hstart Hstop : Int)
    (hstart : 0 ≤ Hstart) (hstop : Hstop ≤ Htot)
    (hWin : fits_u32 Win) (hHk : 0 ≤ Hk) (hWk : 0 ≤ Wk) (hWk32 : Wk < 4294967296)
    (hker : Hk * Wk < 4294967296)
    (hN : Htot * Wtot * Cin * Hk * Wk ≤ 2147483648) :
    Writes
      (im2col_chw_dma_fw_nopad input_data Win Hin Cin Wk Hk Wtot Hstr Wstr Hstart Hstop)
      (chw_rows Wtot Cin Hk Wk Hstart Hstop)
      (chw_decode Wtot Cin Hk Wk (chw_dma_fw_stored input_data Win Hin Hstr Wstr)) := by
  have e1 : u32 Win = Win := u32_fits hWin
  have e2 : u32 Wk = Wk := u32_of_range hWk hWk32
  have e3 : u32 (Hk * Wk) = Hk * Wk := u32_of_range (mul_nonneg hHk hWk) hker
  by_cases hz : Wk = 0
  · subst hz
    have hid : im2col_chw_dma_fw_nopad input_data Win Hin Cin 0 Hk Wtot Hstr Wstr Hstart Hstop
        = fun buf => buf := by
      funext buf
      unfold im2col_chw_dma_fw_nopad pi_cl_dma_memcpy_2d
      refine forLoop_id _ _ _ (fun ho s => ?_) buf
      refine forLoop_id _ _ _ (fun wo s => ?_) s
      refine forLoop_id _ _ _ (fun ci s => ?_) s
      exact forLoop_empty _ _ (by simp [u32]) _ s
    rw [hid]
    intro buf i
    refine ⟨?_, fun _ => rfl⟩
    rintro ⟨a, _, _, b, _, _, c, _, _, hk, _, _, wk, w0, w1, _⟩
    omega
  · have hWk1 : 1 ≤ Wk := by omega
    have e4 : Hk * Wk / Wk = Hk := Int.mul_ediv_cancel _ hz
    unfold im2col_chw_dma_fw_nopad pi_cl_dma_memcpy_2d
    simp only [e1, e2, e3, e4]
    refine writes_rows_nest Wtot Cin Hk Wk Hstart Hstop
      (fun ho wo ci hk wk buf => Function.update buf
        (i32 (i32 (wo * Hk * Wk * Cin + ho * Hk * Wk * Cin * Wtot) + i32 (ci * Hk * Wk))
          + hk * Wk + wk)
        (input_data (i32 ((wo * Wstr) + (ho * Hstr) * Win + ci * Hin * Win) + hk * Win + wk)))
      _ ?_
    intro ho wo ci hk wk ha0 ha hb0 hb hc0 hc hk0 hk1 wk0 wk1
    funext buf
    have hb0i := chw_index_bounds Htot Wtot Cin Hk Wk ho wo ci 0 0 (by omega) (by omega) hb0 hb
      hc0 hc (by omega) (by omega) (by omega) (by omega)
    have e : (wo * Hk * Wk * Cin + ho * Hk * Wk * Cin * Wtot) + ci * Hk * Wk
        = chw_index Wtot Cin Hk Wk ho wo ci 0 0 := by
      unfold chw_index; ring
    have e5 : chw_index Wtot Cin Hk Wk ho wo ci 0 0 + hk * Wk + wk
        = chw_index Wtot Cin Hk Wk ho wo ci hk wk := by
      unfold chw_index; ring
    have hidx : i32 (i32 (wo * Hk * Wk * Cin + ho * Hk * Wk * Cin * Wtot) + i32 (ci * Hk * Wk))
        = chw_index Wtot Cin Hk Wk ho wo ci 0 0 := by
      generalize chw_index Wtot Cin Hk Wk ho wo ci 0 0 = idx at *
      generalize wo * Hk * Wk * Cin + ho * Hk * Wk * Cin * Wtot = x at *
      generalize ci * Hk * Wk = y at *
      unfold i32
      omega
    simp only [hidx, e5, chw_dma_fw_stored]

end rows


section rows_dispatch
variable {α : Type} [Zero α]

theorem call_hwc_fw (P k : Int) (input_data output_diff buf : Int → α)
    (Cin Hin Win Hk Wk Co Hox Wox Lpad Rpad Upad Dpad Hstr Wstr USE_DMA : Int)
    (hDMA : USE_DMA = 0 ∨ USE_DMA = 1)
    (hP : 1 ≤ P) (hk0 : 0 ≤ k) (hk : k < P) (hCin : fits_u32 Cin)
    (hHin : fits_u32 Hin) (hWin : fits_u32 Win) (hHk : fits_u32 Hk) (hWk : fits_u32 Wk)
    (hL : fits_u8 Lpad) (hR : fits_u8 Rpad) (hU : fits_u8 Upad) (hD : fits_u8 Dpad)
    (hHs : fits_u8 Hstr) (hWs : fits_u8 Wstr) (hHs1 : 1 ≤ Hstr) (hWs1 : 1 ≤ Wstr)
    (hH : u32 (Hin - Hk + Upad + Dpad + Hstr) % Hstr = 0)
    (hW : u32 (Win - Wk + Lpad + Rpad + Wstr) % Wstr = 0)
    (hHP : u32 (Hin - Hk + Upad + Dpad + Hstr) / Hstr + P ≤ 2147483648) :
    pulp_im2col_fp32 P k
        (mk_args input_data output_diff buf Cin Hin Win Hk Wk Co Hox Wox
          Lpad Rpad Upad Dpad Hstr Wstr 0 USE_DMA 1)
      = some ⟨im2col_hwc_fw input_data Win Cin Wk Hk
          (u32 (Win - Wk + Lpad + Rpad + Wstr) / Wstr) Lpad Upad Hstr Wstr
          (block_range P k (u32 (Hin - Hk + Upad + Dpad + Hstr) / Hstr)).1
          (block_range P k (u32 (Hin - Hk + Upad + Dpad + Hstr) / Hstr)).2 buf,
          if USE_DMA = 0 then [Diag.invalid_USE_DMA] else []⟩ := by
  have hHs0 : Hstr ≠ 0 := by omega
  have hWs0 : Wstr ≠ 0 := by omega
  have hHt0 : 0 ≤ u32 (Hin - Hk + Upad + Dpad + Hstr) / Hstr :=
    Int.ediv_nonneg (Int.emod_nonneg _ (by decide)) (by omega)
  have hr := core_range_some P k _ hP hHt0 hHP hk0 hk
  rcases hDMA with rfl | rfl <;>
    simp [pulp_im2col_fp32, mk_args, u8_fits hL, u8_fits hR, u8_fits hU, u8_fits hD,
      u8_fits hHs, u8_fits hWs, u32_fits hHin, u32_fits hWin, u32_fits hHk, u32_fits hWk,
      u32_fits hCin, u8_zero, u8_one, hH, hW, hHs0, hWs0, hr]

theorem call_chw_dma_fw_nopad (P k : Int) (input_data output_diff buf : Int → α)
    (Cin Hin Win Hk Wk Co Hox Wox Hstr Wstr : Int) (hCin : fits_u32 Cin)
    (hHin : fits_u32 Hin) (hWin : fits_u32 Win) (hHk : fits_u32 Hk) (hWk : fits_u32 Wk)
    (hHs : fits_u8 Hstr) (hWs : fits_u8 Wstr) (hHs1 : 1 ≤ Hstr) (hWs1 : 1 ≤ Wstr)
    (hH : u32 (Hin - Hk + 0 + 0 + Hstr) % Hstr = 0)
    (hW : u32 (Win - Wk + 0 + 0 + Wstr) % Wstr = 0) :
    pulp_im2col_fp32 P k
        (mk_args input_data output_diff buf Cin Hin Win Hk Wk Co Hox Wox
          0 0 0 0 Hstr Wstr 0 1 0)
      = some ⟨im2col_chw_dma_fw_nopad input_data Win Hin Cin Wk Hk
          (u32 (Win - Wk + 0 + 0 + Wstr) / Wstr) Hstr Wstr
          (block_range P k (u32 (Hin - Hk + 0 + 0 + Hstr) / Hstr)).1
          (block_range P k (u32 (Hin - Hk + 0 + 0 + Hstr) / Hstr)).2 buf, []⟩ := by
  have hHs0 : Hstr ≠ 0 := by omega
  have hWs0 : Wstr ≠ 0 := by omega
  have hp : i32 (0 + 0 + 0 + 0) = 0 := rfl
  simp only [pulp_im2col_fp32, mk_args, u8_fits hHs, u8_fits hWs, u32_fits hHin, u32_fits hWin,
    u32_fits hHk, u32_fits hWk, u32_fits hCin, u8_zero, u8_one, hH, hW, hHs0, hWs0, hp,
    or_self, if_false, and_self, if_true, lt_irrefl, gt_iff_lt, one_ne_zero]

end rows_dispatch


section nopad
variable {α : Type} [Zero α]

theorem in_index_bounds (Cin Hin Win ci row col : Int) (ci0 : 0 ≤ ci) (ci1 : ci < Cin)
    (r0 : 0 ≤ row) (r1 : row < Hin) (c0 : 0 ≤ col) (c1 : col < Win) :
    0 ≤ (ci * Hin + row) * Win + col ∧ (ci * Hin + row) * Win + col < Cin * Hin * Win ∧
      0 ≤ (row * Win + col) * Cin + ci ∧ (row * Win + col) * Cin + ci < Cin * Hin * Win := by
  have n1 := radix_nonneg ci row Hin ci0 r0 r1
  have n2 := radix_nonneg _ col Win n1 c0 c1
  have l1 := radix_lt ci row Cin Hin ci1 r0 r1
  have l2 := radix_lt _ col _ Win l1 c0 c1
  have m1 := radix_nonneg row col Win r0 c0 c1
  have m2 := radix_nonneg _ ci Cin m1 ci0 ci1
  have p1 := radix_lt row col Hin Win r1 c0 c1
  have p2 := radix_lt _ ci _ Cin p1 ci0 ci1
  have e : Hin * Win * Cin = Cin * Hin * Win := by ring
  exact ⟨n2, l2, m2, by omega⟩

/-- All cores together, direct CHW forward path without pads. -/
theorem fork_chw_direct_fw_nopad (P : Nat) (input_data output_diff buf : Int → α)
    (Cin Hin Win Hk Wk Hstr Wstr Co Hox Wox : Int)
    (hP : 1 ≤ P) (hCin : 0 ≤ Cin) (hCP : Cin + P ≤ 2147483648)
    (hHk0 : 0 ≤ Hk) (hHk : Hk ≤ Hin) (hHin : Hin < 2147483648)
    (hWk0 : 0 ≤ Wk) (hWk : Wk ≤ Win) (hWin : Win < 2147483648)
    (hHs1 : 1 ≤ Hstr) (hHs : Hstr < 256) (hWs1 : 1 ≤ Wstr) (hWs : Wstr < 256)
    (hdivH : (Hin - Hk + Hstr) % Hstr = 0) (hdivW : (Win - Wk + Wstr) % Wstr = 0)
    (hin : Cin * Hin * Win ≤ 2147483648)
    (hout : ((Hin - Hk) / Hstr + 1) * ((Win - Wk) / Wstr + 1) * Cin * Hk * Wk ≤ 2147483648) :
    ∃ r, pi_cl_team_fork P (mk_args input_data output_diff buf Cin Hin Win Hk Wk Co Hox Wox
          0 0 0 0 Hstr Wstr 0 0 0) = some r ∧
      (∀ ho wo ci hk wk, 0 ≤ ho → ho < (Hin - Hk) / Hstr + 1 →
        0 ≤ wo → wo < (Win - Wk) / Wstr + 1 → 0 ≤ ci → ci < Cin →
        0 ≤ hk → hk < Hk → 0 ≤ wk → wk < Wk →
        r.i2c_buf (chw_index ((Win - Wk) / Wstr + 1) Cin Hk Wk ho wo ci hk wk)
          = input_data ((ci * Hin + (ho * Hstr + hk)) * Win + (wo * Wstr + wk))) ∧
      (∀ i, i < 0 ∨ ((Hin - Hk) / Hstr + 1) * ((Win - Wk) / Wstr + 1) * Cin * Hk * Wk ≤ i →
        r.i2c_buf i = buf i) := by
  have z8 : fits_u8 0 := ⟨by omega, by omega⟩
  have eH := tot_no_pad Hin Hk Hstr hHk0 hHk hHin hHs1 hHs
  have eW := tot_no_pad Win Wk Wstr hWk0 hWk hWin hWs1 hWs
  have hH : u32 (Hin - Hk + 0 + 0 + Hstr) % Hstr = 0 := by
    rw [u32_of_range (by omega) (by omega)]
    simpa using hdivH
  have hW : u32 (Win - Wk + 0 + 0 + Wstr) % Wstr = 0 := by
    rw [u32_of_range (by omega) (by omega)]
    simpa using hdivW
  obtain ⟨r, hr, hcell, hframe⟩ := fork_chw_direct_fw P input_data output_diff buf
    Cin Hin Win Hk Wk Co Hox Wox 0 0 0 0 Hstr Wstr ((Hin - Hk) / Hstr + 1) ((Win - Wk) / Wstr + 1)
    hP hCin hCP ⟨by omega, by omega⟩ ⟨by omega, by omega⟩ ⟨by omega, by omega⟩
    ⟨by omega, by omega⟩ z8 z8 z8 z8 ⟨by omega, by omega⟩ ⟨by omega, by omega⟩ hHs1 hWs1
    hH hW eH.symm eW.symm hout
  refine ⟨r, hr, ?_, hframe⟩
  intro ho wo ci hk wk ho0 ho1 wo0 wo1 ci0 ci1 hk0 hk1 wk0 wk1
  rw [hcell ho wo ci hk wk ho0 ho1 wo0 wo1 ci0 ci1 hk0 hk1 wk0 wk1]
  have hrow := stride_row_bound (Hin - Hk) Hstr ho hk Hk hHs1 ho0 ho1 hk1
  have hcol := stride_row_bound (Win - Wk) Wstr wo wk Wk hWs1 wo0 wo1 wk1
  have hr0 : 0 ≤ ho * Hstr + hk := by
    have := mul_nonneg ho0 (by omega : (0 : Int) ≤ Hstr)
    omega
  have hc0 : 0 ≤ wo * Wstr + wk := by
    have := mul_nonneg wo0 (by omega : (0 : Int) ≤ Wstr)
    omega
  have hb := in_index_bounds Cin Hin Win ci (ho * Hstr + hk) (wo * Wstr + wk) ci0 ci1
    hr0 (by omega) hc0 (by omega)
  have e : (wo * Wstr - 0) + (ho * Hstr - 0) * Win + ci * Hin * Win + (wk + hk * Win)
      = (ci * Hin + (ho * Hstr + hk)) * Win + (wo * Wstr + wk) := by ring
  have hidx : i32 (i32 ((wo * Wstr - 0) + (ho * Hstr - 0) * Win + ci * Hin * Win)
      + i32 (wk + hk * Win)) = (ci * Hin + (ho * Hstr + hk)) * Win + (wo * Wstr + wk) := by
    generalize (ci * Hin + (ho * Hstr + hk)) * Win + (wo * Wstr + wk) = t at *
    generalize (wo * Wstr - 0) + (ho * Hstr - 0) * Win + ci * Hin * Win = x at *
    generalize wk + hk * Win = y at *
    unfold i32
    omega
  have hp : i32 (0 + 0 + 0 + 0) = 0 := rfl
  simp only [chw_fw_stored, hp, lt_irrefl, gt_iff_lt, false_and, if_false, hidx]

/-- All cores together, DMA CHW forward path without pads. -/
theorem fork_chw_dma_fw_nopad (P : Nat) (input_data output_diff buf : Int → α)
    (Cin Hin Win Hk Wk Hstr Wstr Co Hox Wox : Int)
    (hP : 1 ≤ P) (hCin : 0 ≤ Cin) (hCin1 : Cin < 2147483648)
    (hHk0 : 0 ≤ Hk) (hHk : Hk ≤ Hin) (hHin : Hin < 2147483648)
    (hWk0 : 0 ≤ Wk) (hWk : Wk ≤ Win) (hWin : Win < 2147483648)
    (hHs1 : 1 ≤ Hstr) (hHs : Hstr < 256) (hWs1 : 1 ≤ Wstr) (hWs : Wstr < 256)
    (hdivH : (Hin - Hk + Hstr) % Hstr = 0) (hdivW : (Win - Wk + Wstr) % Wstr = 0)
    (hHP : (Hin - Hk) / Hstr + 1 + P ≤ 2147483648)
    (hker : Hk * Wk < 4294967296)
    (hin : Cin * Hin * Win ≤ 2147483648)
    (hout : ((Hin - Hk) / Hstr + 1) * ((Win - Wk) / Wstr + 1) * Cin * Hk * Wk ≤ 2147483648) :
    ∃ r, pi_cl_team_fork P (mk_args input_data output_diff buf Cin Hin Win Hk Wk Co Hox Wox
          0 0 0 0 Hstr Wstr 0 1 0) = some r ∧
      (∀ ho wo ci hk wk, 0 ≤ ho → ho < (Hin - Hk) / Hstr + 1 →
        0 ≤ wo → wo < (Win - Wk) / Wstr + 1 → 0 ≤ ci → ci < Cin →
        0 ≤ hk → hk < Hk → 0 ≤ wk → wk < Wk →
        r.i2c_buf (chw_index ((Win - Wk) / Wstr + 1) Cin Hk Wk ho wo ci hk wk)
          = input_data ((ci * Hin + (ho * Hstr + hk)) * Win + (wo * Wstr + wk))) ∧
      (∀ i, i < 0 ∨ ((Hin - Hk) / Hstr + 1) * ((Win - Wk) / Wstr + 1) * Cin * Hk * Wk ≤ i →
        r.i2c_buf i = buf i) := by
  have hPi : (1 : Int) ≤ (P : Int) := by omega
  have eH := tot_no_pad Hin Hk Hstr hHk0 hHk hHin hHs1 hHs
  have eW := tot_no_pad Win Wk Wstr hWk0 hWk hWin hWs1 hWs
  have hH : u32 (Hin - Hk + 0 + 0 + Hstr) % Hstr = 0 := by
    rw [u32_of_range (by omega) (by omega)]
    simpa using hdivH
  have hW : u32 (Win - Wk + 0 + 0 + Wstr) % Wstr = 0 := by
    rw [u32_of_range (by omega) (by omega)]
    simpa using hdivW
  have hHt0 : 0 ≤ (Hin - Hk) / Hstr + 1 := by
    have := Int.ediv_nonneg (by omega : 0 ≤ Hin - Hk) (by omega : 0 ≤ Hstr)
    omega
  obtain ⟨r, hr, hbuf⟩ := run_cores_writes (P : Int)
    (mk_args input_data output_diff buf Cin Hin Win Hk Wk Co Hox Wox
      0 0 0 0 Hstr Wstr 0 1 0) P
    (fun k => im2col_chw_dma_fw_nopad input_data Win Hin Cin Wk Hk ((Win - Wk) / Wstr + 1)
      Hstr Wstr (block_range P k ((Hin - Hk) / Hstr + 1)).1
      (block_range P k ((Hin - Hk) / Hstr + 1)).2)
    (fun k => chw_rows ((Win - Wk) / Wstr + 1) Cin Hk Wk
      (block_range P k ((Hin - Hk) / Hstr + 1)).1 (block_range P k ((Hin - Hk) / Hstr + 1)).2)
    (chw_decode ((Win - Wk) / Wstr + 1) Cin Hk Wk
      (chw_dma_fw_stored input_data Win Hin Hstr Wstr))
    (fun k hk b => ⟨[], by
      rw [← eH, ← eW]
      exact call_chw_dma_fw_nopad (P : Int) (k : Int) input_data output_diff b
        Cin Hin Win Hk Wk Co Hox Wox Hstr Wstr ⟨hCin, by omega⟩
        ⟨by omega, by omega⟩ ⟨by omega, by omega⟩ ⟨by omega, by omega⟩ ⟨by omega, by omega⟩
        ⟨by omega, by omega⟩ ⟨by omega, by omega⟩ hHs1 hWs1 hH hW⟩)
    (fun k hk => im2col_chw_dma_fw_nopad_writes input_data Win Hin Cin Wk Hk
      ((Hin - Hk) / Hstr + 1) ((Win - Wk) / Wstr + 1) Hstr Wstr _ _
      (block_range_bounds P k _ hPi hHt0 hHP (by omega) (by omega)).1
      (block_range_bounds P k _ hPi hHt0 hHP (by omega) (by omega)).2
      ⟨by omega, by omega⟩ hHk0 hWk0 (by omega) hker hout)
  refine ⟨r, hr, ?_, ?_⟩
  · intro ho wo ci hk wk ho0 ho1 wo0 wo1 ci0 ci1 hk0 hk1 wk0 wk1
    obtain ⟨k, hkP, hlo, hhi⟩ := block_range_cover P _ ho hPi hHP ho0 ho1
    have hmem : ∃ k : Nat, k < P ∧ chw_rows ((Win - Wk) / Wstr + 1) Cin Hk Wk
        (block_range P k ((Hin - Hk) / Hstr + 1)).1 (block_range P k ((Hin - Hk) / Hstr + 1)).2
        (chw_index ((Win - Wk) / Wstr + 1) Cin Hk Wk ho wo ci hk wk) :=
      ⟨k, by omega, ho, hlo, hhi, wo, wo0, wo1, ci, ci0, ci1, hk, hk0, hk1, wk, wk0, wk1, rfl⟩
    rw [(hbuf _).1 hmem,
      chw_decode_index _ Cin Hk Wk ho wo ci hk wk _ wo0 wo1 ci0 ci1 hk0 hk1 wk0 wk1]
    have hrow := stride_row_bound (Hin - Hk) Hstr ho hk Hk hHs1 ho0 ho1 hk1
    have hcol := stride_row_bound (Win - Wk) Wstr wo wk Wk hWs1 wo0 wo1 wk1
    have hrow0 := stride_row_bound (Hin - Hk) Hstr ho 0 Hk hHs1 ho0 ho1 (by omega)
    have hcol0 := stride_row_bound (Win - Wk) Wstr wo 0 Wk hWs1 wo0 wo1 (by omega)
    have hr0 : 0 ≤ ho * Hstr := mul_nonneg ho0 (by omega)
    have hc0 : 0 ≤ wo * Wstr := mul_nonneg wo0 (by omega)
    have hb := in_index_bounds Cin Hin Win ci (ho * Hstr) (wo * Wstr) ci0 ci1
      hr0 (by omega) hc0 (by omega)
    have e : (wo * Wstr) + (ho * Hstr) * Win + ci * Hin * Win
        = (ci * Hin + ho * Hstr) * Win + wo * Wstr := by ring
    have e2 : (ci * Hin + ho * Hstr) * Win + wo * Wstr + hk * Win + wk
        = (ci * Hin + (ho * Hstr + hk)) * Win + (wo * Wstr + wk) := by ring
    unfold chw_dma_fw_stored
    simp only []
    rw [e, i32_of_range (by omega) (by omega), e2]
  · intro i hi
    refine (hbuf i).2 ?_
    rintro ⟨k, hk, hc⟩
    have hb := block_range_bounds P k _ hPi hHt0 hHP (by omega) (by omega)
    have := chw_rows_bounds ((Hin - Hk) / Hstr + 1) ((Win - Wk) / Wstr + 1) Cin Hk Wk _ _ i
      hb.1 hb.2 hc
    omega

end nopad


section equivalence
variable {α : Type} [Zero α]

/-- All cores together, HWC forward path without pads, on either memory path tag. -/
theorem fork_hwc_fw_nopad (P : Nat) (input_data output_diff buf : Int → α)
    (Cin Hin Win Hk Wk Hstr Wstr Co Hox Wox USE_DMA : Int)
    (hDMA : USE_DMA = 0 ∨ USE_DMA = 1)
    (hP : 1 ≤ P) (hCin : 0 ≤ Cin) (hCin1 : Cin < 2147483648)
    (hHk0 : 0 ≤ Hk) (hHk : Hk ≤ Hin) (hHin : Hin < 2147483648)
    (hWk0 : 0 ≤ Wk) (hWk : Wk ≤ Win) (hWin : Win < 2147483648)
    (hHs1 : 1 ≤ Hstr) (hHs : Hstr < 256) (hWs1 : 1 ≤ Wstr) (hWs : Wstr < 256)
    (hdivH : (Hin - Hk + Hstr) % Hstr = 0) (hdivW : (Win - Wk + Wstr) % Wstr = 0)
    (hHP : (Hin - Hk) / Hstr + 1 + P ≤ 2147483648)
    (hin : Cin * Hin * Win ≤ 2147483648)
    (hout : ((Hin - Hk) / Hstr + 1) * ((Win - Wk) / Wstr + 1) * Cin * Hk * Wk ≤ 2147483648) :
    ∃ r, pi_cl_team_fork P (mk_args input_data output_diff buf Cin Hin Win Hk Wk Co Hox Wox
          0 0 0 0 Hstr Wstr 0 USE_DMA 1) = some r ∧
      (∀ ho wo hk wk ci, 0 ≤ ho → ho < (Hin - Hk) / Hstr + 1 →
        0 ≤ wo → wo < (Win - Wk) / Wstr + 1 → 0 ≤ hk → hk < Hk → 0 ≤ wk → wk < Wk →
        0 ≤ ci → ci < Cin →
        r.i2c_buf (chw_index ((Win - Wk) / Wstr + 1) Hk Wk Cin ho wo hk wk ci)
          = input_data (((ho * Hstr + hk) * Win + (wo * Wstr + wk)) * Cin + ci)) ∧
      (∀ i, i < 0 ∨ ((Hin - Hk) / Hstr + 1) * ((Win - Wk) / Wstr + 1) * Hk * Wk * Cin ≤ i →
        r.i2c_buf i = buf i) := by
  have hPi : (1 : Int) ≤ (P : Int) := by omega
  have z8 : fits_u8 0 := ⟨by omega, by omega⟩
  have eH := tot_no_pad Hin Hk Hstr hHk0 hHk hHin hHs1 hHs
  have eW := tot_no_pad Win Wk Wstr hWk0 hWk hWin hWs1 hWs
  have hH : u32 (Hin - Hk + 0 + 0 + Hstr) % Hstr = 0 := by
    rw [u32_of_range (by omega) (by omega)]
    simpa using hdivH
  have hW : u32 (Win - Wk + 0 + 0 + Wstr) % Wstr = 0 := by
    rw [u32_of_range (by omega) (by omega)]
    simpa using hdivW
  have hHt0 : 0 ≤ (Hin - Hk) / Hstr + 1 := by
    have := Int.ediv_nonneg (by omega : 0 ≤ Hin - Hk) (by omega : 0 ≤ Hstr)
    omega
  have hout2 : ((Hin - Hk) / Hstr + 1) * ((Win - Wk) / Wstr + 1) * Hk * Wk * Cin
      = ((Hin - Hk) / Hstr + 1) * ((Win - Wk) / Wstr + 1) * Cin * Hk * Wk := by ring
  obtain ⟨r, hr, hbuf⟩ := run_cores_writes (P : Int)
    (mk_args input_data output_diff buf Cin Hin Win Hk Wk Co Hox Wox
      0 0 0 0 Hstr Wstr 0 USE_DMA 1) P
    (fun k => im2col_hwc_fw input_data Win Cin Wk Hk ((Win - Wk) / Wstr + 1) 0 0
      Hstr Wstr (block_range P k ((Hin - Hk) / Hstr + 1)).1
      (block_range P k ((Hin - Hk) / Hstr + 1)).2)
    (fun k => chw_rows ((Win - Wk) / Wstr + 1) Hk Wk Cin
      (block_range P k ((Hin - Hk) / Hstr + 1)).1 (block_range P k ((Hin - Hk) / Hstr + 1)).2)
    (chw_decode ((Win - Wk) / Wstr + 1) Hk Wk Cin
      (hwc_fw_stored input_data Win Cin 0 0 Hstr Wstr))
    (fun k hk b => ⟨_, by
      rw [← eH, ← eW]
      exact call_hwc_fw (P : Int) (k : Int) input_data output_diff b
        Cin Hin Win Hk Wk Co Hox Wox 0 0 0 0 Hstr Wstr USE_DMA hDMA hPi (by omega) (by omega)
        ⟨hCin, by omega⟩
        ⟨by omega, by omega⟩ ⟨by omega, by omega⟩ ⟨by omega, by omega⟩ ⟨by omega, by omega⟩
        z8 z8 z8 z8 ⟨by omega, by omega⟩ ⟨by omega, by omega⟩ hHs1 hWs1 hH hW
        (by rw [eH]; exact hHP)⟩)
    (fun k hk => im2col_hwc_fw_writes input_data Win Cin Wk Hk
      ((Hin - Hk) / Hstr + 1) ((Win - Wk) / Wstr + 1) 0 0 Hstr Wstr _ _
      (block_range_bounds P k _ hPi hHt0 hHP (by omega) (by omega)).1
      (block_range_bounds P k _ hPi hHt0 hHP (by omega) (by omega)).2
      (by rw [hout2]; exact hout))
  refine ⟨r, hr, ?_, ?_⟩
  · intro ho wo hk wk ci ho0 ho1 wo0 wo1 hk0 hk1 wk0 wk1 ci0 ci1
    obtain ⟨k, hkP, hlo, hhi⟩ := block_range_cover P _ ho hPi hHP ho0 ho1
    have hmem : ∃ k : Nat, k < P ∧ chw_rows ((Win - Wk) / Wstr + 1) Hk Wk Cin
        (block_range P k ((Hin - Hk) / Hstr + 1)).1 (block_range P k ((Hin - Hk) / Hstr + 1)).2
        (chw_index ((Win - Wk) / Wstr + 1) Hk Wk Cin ho wo hk wk ci) :=
      ⟨k, by omega, ho, hlo, hhi, wo, wo0, wo1, hk, hk0, hk1, wk, wk0, wk1, ci, ci0, ci1, rfl⟩
    rw [(hbuf _).1 hmem,
      chw_decode_index _ Hk Wk Cin ho wo hk wk ci _ wo0 wo1 hk0 hk1 wk0 wk1 ci0 ci1]
    have hrow := stride_row_bound (Hin - Hk) Hstr ho hk Hk hHs1 ho0 ho1 hk1
    have hcol := stride_row_bound (Win - Wk) Wstr wo wk Wk hWs1 wo0 wo1 wk1
    have hr0 : 0 ≤ ho * Hstr + hk := by
      have := mul_nonneg ho0 (by omega : (0 : Int) ≤ Hstr)
      omega
    have hc0 : 0 ≤ wo * Wstr + wk := by
      have := mul_nonneg wo0 (by omega : (0 : Int) ≤ Wstr)
      omega
    have hb := in_index_bounds Cin Hin Win ci (ho * Hstr + hk) (wo * Wstr + wk) ci0 ci1
      hr0 (by omega) hc0 (by omega)
    have e : ((wo * Wstr - 0) * Cin + (ho * Hstr - 0) * Cin * Win)
        + (ci + wk * Cin + hk * Cin * Win)
        = ((ho * Hstr + hk) * Win + (wo * Wstr + wk)) * Cin + ci := by ring
    have hidx : i32 (i32 ((wo * Wstr - 0) * Cin + (ho * Hstr - 0) * Cin * Win)
        + i32 (ci + wk * Cin + hk * Cin * Win))
        = ((ho * Hstr + hk) * Win + (wo * Wstr + wk)) * Cin + ci := by
      generalize ((ho * Hstr + hk) * Win + (wo * Wstr + wk)) * Cin + ci = t at *
      generalize (wo * Wstr - 0) * Cin + (ho * Hstr - 0) * Cin * Win = x at *
      generalize ci + wk * Cin + hk * Cin * Win = y at *
      unfold i32
      omega
    simp only [hwc_fw_stored, hidx]
  · intro i hi
    refine (hbuf i).2 ?_
    rintro ⟨k, hk, hc⟩
    have hb := block_range_bounds P k _ hPi hHt0 hHP (by omega) (by omega)
    have := chw_rows_bounds ((Hin - Hk) / Hstr + 1) ((Win - Wk) / Wstr + 1) Hk Wk Cin _ _ i
      hb.1 hb.2 hc
    omega

omit [Zero α] in
theorem buf_eq_of_cells (A B C Hk Wk : Int) (hA : 0 ≤ A) (hB : 0 ≤ B) (hC : 0 ≤ C)
    (hHk : 0 ≤ Hk) (hWk : 0 ≤ Wk) (v : Int → Int → Int → Int → Int → α)
    (buf r1 r2 : Int → α)
    (h1 : ∀ a b c hk wk, 0 ≤ a → a < A → 0 ≤ b → b < B → 0 ≤ c → c < C →
      0 ≤ hk → hk < Hk → 0 ≤ wk → wk < Wk →
      r1 (chw_index B C Hk Wk a b c hk wk) = v a b c hk wk)
    (f1 : ∀ i, i < 0 ∨ A * B * C * Hk * Wk ≤ i → r1 i = buf i)
    (h2 : ∀ a b c hk wk, 0 ≤ a → a < A → 0 ≤ b → b < B → 0 ≤ c → c < C →
      0 ≤ hk → hk < Hk → 0 ≤ wk → wk < Wk →
      r2 (chw_index B C Hk Wk a b c hk wk) = v a b c hk wk)
    (f2 : ∀ i, i < 0 ∨ A * B * C * Hk * Wk ≤ i → r2 i = buf i) : r1 = r2 := by
  funext i
  by_cases hi : 0 ≤ i ∧ i < A * B * C * Hk * Wk
  · obtain ⟨pB, pC, pHk, pWk⟩ := extents_pos_of_slot A B C Hk Wk i hA hB hC hHk hWk hi.1 hi.2
    obtain ⟨a, b, c, hk, wk, ha, hb, hc, hhk, hwk, e⟩ :=
      radix5_decomp A B C Hk Wk i pB pC pHk pWk hi.1 hi.2
    rw [e, h1 a b c hk wk ha.1 ha.2 hb.1 hb.2 hc.1 hc.2 hhk.1 hhk.2 hwk.1 hwk.2,
      h2 a b c hk wk ha.1 ha.2 hb.1 hb.2 hc.1 hc.2 hhk.1 hhk.2 hwk.1 hwk.2]
  · rw [f1 i (by omega), f2 i (by omega)]

end equivalence


section equivalence_claims
variable {α : Type} [Zero α]

/-- C25: layout equivalence without padding.  For every forward geometry with all
pads 0 that passes the divisibility check (extents that fit the 32 bit index
arithmetic, kernel not larger than the input, strides at least 1) and every worker
count `P ≥ 1`, if `X_hwc[(h*Win+w)*Cin + ci] = X_chw[ci*Hin*Win + h*Win + w]` for
all positions of the input, then the buffers the direct path leaves in the two
layouts agree logically: for every `ho < Htot`, `wo < Wtot`, `ci < Cin`, `hk < Hk`,
`wk < Wk`,
`buf_hwc[(ho*Wtot+wo)*Hk*Wk*Cin + (hk*Wk+wk)*Cin + ci]
  = buf_chw[(ho*Wtot+wo)*Hk*Wk*Cin + ci*Hk*Wk + hk*Wk + wk]`. -/
theorem C25_layout_equivalence (P : Nat) (X_chw X_hwc output_diff buf_chw buf_hwc : Int → α)
    (Cin Hin Win Hk Wk Hstr Wstr Co Hox Wox : Int)
    (hP : 1 ≤ P) (hCin : 0 ≤ Cin) (hCP : Cin + P ≤ 2147483648)
    (hHk0 : 0 ≤ Hk) (hHk : Hk ≤ Hin) (hHin : Hin < 2147483648)
    (hWk0 : 0 ≤ Wk) (hWk : Wk ≤ Win) (hWin : Win < 2147483648)
    (hHs1 : 1 ≤ Hstr) (hHs : Hstr < 256) (hWs1 : 1 ≤ Wstr) (hWs : Wstr < 256)
    (hdivH : (Hin - Hk + Hstr) % Hstr = 0) (hdivW : (Win - Wk + Wstr) % Wstr = 0)
    (hHP : (Hin - Hk) / Hstr + 1 + P ≤ 2147483648)
    (hin : Cin * Hin * Win ≤ 2147483648)
    (hout : ((Hin - Hk) / Hstr + 1) * ((Win - Wk) / Wstr + 1) * Cin * Hk * Wk ≤ 2147483648)
    (hX : ∀ h w ci, 0 ≤ h → h < Hin → 0 ≤ w → w < Win → 0 ≤ ci → ci < Cin →
      X_hwc ((h * Win + w) * Cin + ci) = X_chw (ci * Hin * Win + h * Win + w)) :
    ∃ r_hwc r_chw,
      pi_cl_team_fork P (mk_args X_hwc output_diff buf_hwc Cin Hin Win Hk Wk Co Hox Wox
          0 0 0 0 Hstr Wstr 0 0 1) = some r_hwc ∧
      pi_cl_team_fork P (mk_args X_chw output_diff buf_chw Cin Hin Win Hk Wk Co Hox Wox
          0 0 0 0 Hstr Wstr 0 0 0) = some r_chw ∧
      ∀ ho wo ci hk wk, 0 ≤ ho → ho < (Hin - Hk) / Hstr + 1 →
        0 ≤ wo → wo < (Win - Wk) / Wstr + 1 → 0 ≤ ci → ci < Cin →
        0 ≤ hk → hk < Hk → 0 ≤ wk → wk < Wk →
        r_hwc.i2c_buf ((ho * ((Win - Wk) / Wstr + 1) + wo) * Hk * Wk * Cin
            + (hk * Wk + wk) * Cin + ci)
          = r_chw.i2c_buf ((ho * ((Win - Wk) / Wstr + 1) + wo) * Hk * Wk * Cin
            + ci * Hk * Wk + hk * Wk + wk) := by
  obtain ⟨rh, hrh, hcellh, -⟩ := fork_hwc_fw_nopad P X_hwc output_diff buf_hwc
    Cin Hin Win Hk Wk Hstr Wstr Co Hox Wox 0 (Or.inl rfl) hP hCin (by omega) hHk0 hHk hHin
    hWk0 hWk hWin hHs1 hHs hWs1 hWs hdivH hdivW hHP hin hout
  obtain ⟨rc, hrc, hcellc, -⟩ := fork_chw_direct_fw_nopad P X_chw output_diff buf_chw
    Cin Hin Win Hk Wk Hstr Wstr Co Hox Wox hP hCin hCP hHk0 hHk hHin
    hWk0 hWk hWin hHs1 hHs hWs1 hWs hdivH hdivW hin hout
  refine ⟨rh, rc, hrh, hrc, ?_⟩
  intro ho wo ci hk wk ho0 ho1 wo0 wo1 ci0 ci1 hk0 hk1 wk0 wk1
  have e1 : (ho * ((Win - Wk) / Wstr + 1) + wo) * Hk * Wk * Cin + (hk * Wk + wk) * Cin + ci
      = chw_index ((Win - Wk) / Wstr + 1) Hk Wk Cin ho wo hk wk ci := by
    unfold chw_index; ring
  have e2 : (ho * ((Win - Wk) / Wstr + 1) + wo) * Hk * Wk * Cin + ci * Hk * Wk + hk * Wk + wk
      = chw_index ((Win - Wk) / Wstr + 1) Cin Hk Wk ho wo ci hk wk := rfl
  rw [e1, e2, hcellh ho wo hk wk ci ho0 ho1 wo0 wo1 hk0 hk1 wk0 wk1 ci0 ci1,
    hcellc ho wo ci hk wk ho0 ho1 wo0 wo1 ci0 ci1 hk0 hk1 wk0 wk1]
  have hrow := stride_row_bound (Hin - Hk) Hstr ho hk Hk hHs1 ho0 ho1 hk1
  have hcol := stride_row_bound (Win - Wk) Wstr wo wk Wk hWs1 wo0 wo1 wk1
  have hr0 : 0 ≤ ho * Hstr + hk := by
    have := mul_nonneg ho0 (by omega : (0 : Int) ≤ Hstr)
    omega
  have hc0 : 0 ≤ wo * Wstr + wk := by
    have := mul_nonneg wo0 (by omega : (0 : Int) ≤ Wstr)
    omega
  rw [hX (ho * Hstr + hk) (wo * Wstr + wk) ci hr0 (by omega) hc0 (by omega) ci0 ci1]
  have e3 : ci * Hin * Win + (ho * Hstr + hk) * Win + (wo * Wstr + wk)
      = (ci * Hin + (ho * Hstr + hk)) * Win + (wo * Wstr + wk) := by ring
  rw [e3]

/-- C25, instance: input `[C=2, H=3, W=3]`, kernel `2x2`, stride 1, two workers;
`X_chw[i] = i` and `X_hwc[j] = (j % 2)*9 + j / 2`. -/
theorem C25_layout_equivalence_witness :
    ∃ r_hwc r_chw,
      pi_cl_team_fork 2 (mk_args (fun j : Int => j % 2 * 9 + j / 2) (fun _ => 0)
          (fun _ => (-1 : Int)) 2 3 3 2 2 1 2 2 0 0 0 0 1 1 0 0 1) = some r_hwc ∧
      pi_cl_team_fork 2 (mk_args (fun i : Int => i) (fun _ => 0)
          (fun _ => (-2 : Int)) 2 3 3 2 2 1 2 2 0 0 0 0 1 1 0 0 0) = some r_chw ∧
      ∀ ho wo ci hk wk, 0 ≤ ho → ho < (3 - 2) / 1 + 1 →
        0 ≤ wo → wo < (3 - 2) / 1 + 1 → 0 ≤ ci → ci < 2 →
        0 ≤ hk → hk < 2 → 0 ≤ wk → wk < 2 →
        r_hwc.i2c_buf ((ho * ((3 - 2) / 1 + 1) + wo) * 2 * 2 * 2 + (hk * 2 + wk) * 2 + ci)
          = r_chw.i2c_buf ((ho * ((3 - 2) / 1 + 1) + wo) * 2 * 2 * 2 + ci * 2 * 2 + hk * 2 + wk) :=
  C25_layout_equivalence 2 (fun i : Int => i) (fun j : Int => j % 2 * 9 + j / 2) (fun _ => 0)
    (fun _ => (-2 : Int)) (fun _ => (-1 : Int)) 2 3 3 2 2 1 1 1 2 2
    (by decide) (by decide) (by decide) (by decide) (by decide) (by decide) (by decide)
    (by decide) (by decide) (by decide) (by decide) (by decide) (by decide) (by decide)
    (by decide) (by decide) (by decide) (by decide)
    (fun h w ci h0 h1 w0 w1 c0 c1 => by
      show ((h * 3 + w) * 2 + ci) % 2 * 9 + ((h * 3 + w) * 2 + ci) / 2 = ci * 3 * 3 + h * 3 + w
      omega)

/-- C26: path equivalence without padding.  For every forward geometry with all
pads 0 that passes the divisibility check (extents that fit the 32 bit index
arithmetic, a kernel whose size fits the transfer descriptor and is not larger
than the input, strides at least 1), for both layouts, every worker count `P ≥ 1`
and every input, the run with `USE_DMA = 1` (each transfer a 2-D copy of `Hk` rows
of `Wk` elements with source row stride `Win`) leaves an im2col buffer equal
element for element to that of the run with `USE_DMA = 0`, although in CHW layout
the staged run partitions the output rows and the direct run the input channels. -/
theorem C26_path_equivalence (P : Nat) (input_data output_diff buf : Int → α)
    (Cin Hin Win Hk Wk Hstr Wstr Co Hox Wox HWC : Int) (hHWC : HWC = 0 ∨ HWC = 1)
    (hP : 1 ≤ P) (hCin : 0 ≤ Cin) (hCP : Cin + P ≤ 2147483648)
    (hHk0 : 0 ≤ Hk) (hHk : Hk ≤ Hin) (hHin : Hin < 2147483648)
    (hWk0 : 0 ≤ Wk) (hWk : Wk ≤ Win) (hWin : Win < 2147483648)
    (hHs1 : 1 ≤ Hstr) (hHs : Hstr < 256) (hWs1 : 1 ≤ Wstr) (hWs : Wstr < 256)
    (hdivH : (Hin - Hk + Hstr) % Hstr = 0) (hdivW : (Win - Wk + Wstr) % Wstr = 0)
    (hHP : (Hin - Hk) / Hstr + 1 + P ≤ 2147483648)
    (hker : Hk * Wk < 4294967296)
    (hin : Cin * Hin * Win ≤ 2147483648)
    (hout : ((Hin - Hk) / Hstr + 1) * ((Win - Wk) / Wstr + 1) * Cin * Hk * Wk ≤ 2147483648) :
    ∃ r_direct r_dma,
      pi_cl_team_fork P (mk_args input_data output_diff buf Cin Hin Win Hk Wk Co Hox Wox
          0 0 0 0 Hstr Wstr 0 0 HWC) = some r_direct ∧
      pi_cl_team_fork P (mk_args input_data output_diff buf Cin Hin Win Hk Wk Co Hox Wox
          0 0 0 0 Hstr Wstr 0 1 HWC) = some r_dma ∧
      r_dma.i2c_buf = r_direct.i2c_buf := by
  have hHt0 : 0 ≤ (Hin - Hk) / Hstr + 1 := by
    have := Int.ediv_nonneg (by omega : 0 ≤ Hin - Hk) (by omega : 0 ≤ Hstr)
    omega
  have hWt0 : 0 ≤ (Win - Wk) / Wstr + 1 := by
    have := Int.ediv_nonneg (by omega : 0 ≤ Win - Wk) (by omega : 0 ≤ Wstr)
    omega
  rcases hHWC with rfl | rfl
  · obtain ⟨r0, hr0, hc0, hf0⟩ := fork_chw_direct_fw_nopad P input_data output_diff buf
      Cin Hin Win Hk Wk Hstr Wstr Co Hox Wox hP hCin hCP hHk0 hHk hHin
      hWk0 hWk hWin hHs1 hHs hWs1 hWs hdivH hdivW hin hout
    obtain ⟨r1, hr1, hc1, hf1⟩ := fork_chw_dma_fw_nopad P input_data output_diff buf
      Cin Hin Win Hk Wk Hstr Wstr Co Hox Wox hP hCin (by omega) hHk0 hHk hHin
      hWk0 hWk hWin hHs1 hHs hWs1 hWs hdivH hdivW hHP hker hin hout
    exact ⟨r0, r1, hr0, hr1, buf_eq_of_cells _ _ Cin Hk Wk hHt0 hWt0 hCin hHk0 hWk0 _ buf _ _
      hc1 hf1 hc0 hf0⟩
  · obtain ⟨r0, hr0, hc0, hf0⟩ := fork_hwc_fw_nopad P input_data output_diff buf
      Cin Hin Win Hk Wk Hstr Wstr Co Hox Wox 0 (Or.inl rfl) hP hCin (by omega) hHk0 hHk hHin
      hWk0 hWk hWin hHs1 hHs hWs1 hWs hdivH hdivW hHP hin hout
    obtain ⟨r1, hr1, hc1, hf1⟩ := fork_hwc_fw_nopad P input_data output_diff buf
      Cin Hin Win Hk Wk Hstr Wstr Co Hox Wox 1 (Or.inr rfl) hP hCin (by omega) hHk0 hHk hHin
      hWk0 hWk hWin hHs1 hHs hWs1 hWs hdivH hdivW hHP hin hout
    exact ⟨r0, r1, hr0, hr1, buf_eq_of_cells _ _ Hk Wk Cin hHt0 hWt0 hHk0 hWk0 hCin _ buf _ _
      hc1 hf1 hc0 hf0⟩

/-- C26, instance: CHW layout, input `[C=2, H=4, W=4]` holding `1, ..., 32`, kernel
`3x3`, stride 1, two workers. -/
theorem C26_path_equivalence_witness :
    ∃ r_direct r_dma,
      pi_cl_team_fork 2 (mk_args (fun i : Int => i + 1) (fun _ => 0) (fun _ => (-1 : Int))
          2 4 4 3 3 1 2 2 0 0 0 0 1 1 0 0 0) = some r_direct ∧
      pi_cl_team_fork 2 (mk_args (fun i : Int => i + 1) (fun _ => 0) (fun _ => (-1 : Int))
          2 4 4 3 3 1 2 2 0 0 0 0 1 1 0 1 0) = some r_dma ∧
      r_dma.i2c_buf = r_direct.i2c_buf :=
  C26_path_equivalence 2 (fun i : Int => i + 1) (fun _ => 0) (fun _ => (-1 : Int))
    2 4 4 3 3 1 1 1 2 2 0 (by decide)
    (by decide) (by decide) (by decide) (by decide) (by decide) (by decide) (by decide)
    (by decide) (by decide) (by decide) (by decide) (by decide) (by decide) (by decide)
    (by decide) (by decide) (by decide) (by decide) (by decide)

end equivalence_claims


/-! ## Softmax forward: the partition of a sum -/

theorem forN_prod {σ τ : Type} (n : Nat) (f : Nat → σ → σ) (g : Nat → τ → τ) (a : σ) (b : τ) :
    forN n (fun k st => (f k st.1, g k st.2)) (a, b) = (forN n f a, forN n g b) := by
  induction n with
  | zero => rfl
  | succ m ih => rw [forN_succ, forN_succ, forN_succ, ih]

theorem forN_update_at {α : Type} (H : Nat → α → α) (s0 : Int → α) (m j : Nat) :
    (forN m (fun k s => Function.update s (k : Int) (H k (s (k : Int)))) s0) (j : Int)
      = if j < m then H j (s0 (j : Int)) else s0 (j : Int) := by
  induction m with
  | zero => rfl
  | succ n ih =>
    rw [forN_succ]
    by_cases hjn : j = n
    · subst hjn
      rw [Function.update_same, ih, if_neg (by omega), if_pos (by omega)]
    · have hne : (j : Int) ≠ (n : Int) := by omega
      rw [Function.update_noteq hne, ih]
      by_cases hlt : j < n
      · rw [if_pos hlt, if_pos (by omega)]
      · rw [if_neg hlt, if_neg (by omega)]

theorem forLoop_acc {R : Type} [AddCommMonoid R] (lo hi : Int) (f : Int → R) (x : R) :
    forLoop lo hi (fun i acc => acc + f i) x
      = x + Finset.sum (Finset.range (hi - lo).toNat) (fun t => f (lo + (t : Int))) := by
  unfold forLoop
  exact forN_sum (hi - lo).toNat (fun t => f (lo + (t : Int))) x

theorem blocks_sum {R : Type} [AddCommMonoid R] (c N : Int) (hc : 0 ≤ c) (hN : 0 ≤ N)
    (f : Int → R) (K : Nat) :
    Finset.sum (Finset.range K) (fun k =>
        Finset.sum
          (Finset.range
            ((if (k : Int) * c + c > N then N else (k : Int) * c + c) - (k : Int) * c).toNat)
          (fun t => f ((k : Int) * c + (t : Int))))
      = Finset.sum (Finset.range (if (K : Int) * c > N then N else (K : Int) * c).toNat)
          (fun j => f (j : Int)) := by
  induction K with
  | zero =>
    have e : (if ((0 : Nat) : Int) * c > N then N else ((0 : Nat) : Int) * c).toNat = 0 := by
      simp only [Nat.cast_zero, zero_mul]
      split <;> omega
    rw [e]
    rfl
  | succ m ih =>
    rw [Finset.sum_range_succ, ih]
    have e : ((m + 1 : Nat) : Int) * c = (m : Int) * c + c := by push_cast; ring
    have hs : 0 ≤ (m : Int) * c := mul_nonneg (by omega) hc
    rw [e]
    generalize (m : Int) * c = s at *
    by_cases hsN : s > N
    · have e1 : ((if s + c > N then N else s + c) - s).toNat = 0 := by
        split <;> omega
      have e2 : (if s + c > N then N else s + c) = N := by
        split <;> omega
      rw [e1, e2, if_pos hsN, Finset.sum_range_zero, add_zero]
    · rw [if_neg hsN]
      have e3 : (if s + c > N then N else s + c).toNat
          = s.toNat + ((if s + c > N then N else s + c) - s).toNat := by
        split <;> omega
      rw [e3, Finset.sum_range_add]
      congr 1
      refine Finset.sum_congr rfl (fun t _ => ?_)
      have e4 : (((s.toNat + t : Nat)) : Int) = s + (t : Int) := by
        push_cast
        omega
      rw [e4]


theorem team_fork_act_sum {R : Type} [AddCommMonoid R] (P : Nat) (N : Nat) (hP : 1 ≤ P)
    (hNP : (N : Int) + (P : Int) < 2147483648) (f : Int → R) :
    forLoop 0 (P : Int) (fun i sum => sum +
        team_fork P (fun k sums => Function.update sums k
          (forLoop (act_block_range (P : Int) k (N : Int)).1 (act_block_range (P : Int) k (N : Int)).2
            (fun i s => s + f i) (sums k))) (fun _ => 0) i) 0
      = Finset.sum (Finset.range N) (fun j => f (j : Int)) := by
  obtain ⟨H, hH⟩ : ∃ H : Nat → R → R, ∀ k x, H k x = x + Finset.sum
      (Finset.range
        ((if (k : Int) * (((N : Int) + (P : Int) - 1) / (P : Int))
              + ((N : Int) + (P : Int) - 1) / (P : Int) > (N : Int) then (N : Int)
            else (k : Int) * (((N : Int) + (P : Int) - 1) / (P : Int))
              + ((N : Int) + (P : Int) - 1) / (P : Int))
          - (k : Int) * (((N : Int) + (P : Int) - 1) / (P : Int))).toNat)
      (fun t => f ((k : Int) * (((N : Int) + (P : Int) - 1) / (P : Int)) + (t : Int))) :=
    ⟨_, fun _ _ => rfl⟩
  rw [forLoop_sum P]
  unfold team_fork
  rw [forN_congr P _ (fun k s => Function.update s (k : Int) (H k (s (k : Int))))
      (fun k hk s => by
        show Function.update s (k : Int)
          (forLoop (act_block_range (P : Int) (k : Int) (N : Int)).1
            (act_block_range (P : Int) (k : Int) (N : Int)).2 _ (s (k : Int)))
          = Function.update s (k : Int) (H k (s (k : Int)))
        rw [hH, act_block_range_closed (P : Int) (k : Int) (N : Int) (by omega) (by omega) hNP
          (by omega) (by omega), forLoop_acc])]
  have hc : 0 ≤ ((N : Int) + (P : Int) - 1) / (P : Int) := Int.ediv_nonneg (by omega) (by omega)
  have e : ∀ k ∈ Finset.range P,
      (forN P (fun k s => Function.update s (k : Int) (H k (s (k : Int)))) (fun _ => (0 : R)))
        (k : Int) = H k 0 := by
    intro k hk
    rw [forN_update_at, if_pos (Finset.mem_range.mp hk)]
  rw [Finset.sum_congr rfl e]
  simp only [hH, zero_add]
  rw [blocks_sum _ (N : Int) hc (by omega) f P]
  have hb1 : (N : Int) + (P : Int) - 1 < (((N : Int) + (P : Int) - 1) / (P : Int) + 1) * (P : Int) :=
    Int.lt_ediv_add_one_mul_self _ (by omega)
  have hb3 : (((N : Int) + (P : Int) - 1) / (P : Int) + 1) * (P : Int)
      = (P : Int) * (((N : Int) + (P : Int) - 1) / (P : Int)) + (P : Int) := by ring
  generalize (P : Int) * (((N : Int) + (P : Int) - 1) / (P : Int)) = t at *
  have e2 : (if t > (N : Int) then (N : Int) else t).toNat = N := by
    split <;> omega
  rw [e2]


section softmax_fw_lemmas
variable {R : Type} [LinearOrderedField R]

/-- The output of the softmax forward pass in terms of the value `m` handed to the
exponentiation phase. -/
theorem softmax_fw_data (expf : R → R) (P dim : Nat) (hP : 1 ≤ P)
    (hNP : (dim : Int) + (P : Int) < 2147483648) (inData inDiff outData outDiff : Int → R) :
    ∃ m : R,
      (pulp_softmax_fp16_fw_cl expf P (mk_act_args inData inDiff outData outDiff dim)).output.data
        = fun i => if 0 ≤ i ∧ i < (dim : Int) then
            expf (inData i - m)
              / Finset.sum (Finset.range dim) (fun j => expf (inData (j : Int) - m))
          else outData i := by
  refine ⟨pulp_softmax_fp16_fw_cl_max (P : Int) (team_fork P
    (fun k maxes => pulp_row_max_fp16_cl (P : Int) k ⟨inData, maxes, (dim : Int)⟩)
    (fun _ => 0)), ?_⟩
  have hd : i32 (dim : Int) = (dim : Int) := i32_of_range (by omega) (by omega)
  simp only [pulp_softmax_fp16_fw_cl, mk_act_args, hd]
  generalize pulp_softmax_fp16_fw_cl_max (P : Int) (team_fork P
    (fun k maxes => pulp_row_max_fp16_cl (P : Int) k ⟨inData, maxes, (dim : Int)⟩)
    (fun _ => 0)) = m
  have h1 : team_fork P
      (fun k es => pulp_exp_sum_fp16_cl expf (P : Int) k ⟨inData, es.2, es.1, (dim : Int), m⟩)
      (outData, fun _ => (0 : R))
      = (team_fork P (fun k out =>
            forLoop (act_block_range (P : Int) k (dim : Int)).1
              (act_block_range (P : Int) k (dim : Int)).2
              (fun i b => Function.update b i (expf (inData i - m))) out) outData,
          team_fork P (fun k sums => Function.update sums k
            (forLoop (act_block_range (P : Int) k (dim : Int)).1
              (act_block_range (P : Int) k (dim : Int)).2
              (fun i s => s + expf (inData i - m)) (sums k))) (fun _ => 0)) :=
    forN_prod P
      (fun (k : Nat) (out : Int → R) =>
        forLoop (act_block_range (P : Int) (k : Int) (dim : Int)).1
          (act_block_range (P : Int) (k : Int) (dim : Int)).2
          (fun i b => Function.update b i (expf (inData i - m))) out)
      (fun (k : Nat) (sums : Int → R) => Function.update sums (k : Int)
        (forLoop (act_block_range (P : Int) (k : Int) (dim : Int)).1
          (act_block_range (P : Int) (k : Int) (dim : Int)).2
          (fun (i : Int) (s : R) => s + expf (inData i - m)) (sums (k : Int))))
      outData (fun _ => 0)
  have hout : team_fork P (fun k out =>
        forLoop (act_block_range (P : Int) k (dim : Int)).1
          (act_block_range (P : Int) k (dim : Int)).2
          (fun i b => Function.update b i (expf (inData i - m))) out) outData
      = fun i => if 0 ≤ i ∧ i < (dim : Int) then expf (inData i - m) else outData i :=
    team_fork_act_pointwise P (dim : Int) hP (by omega) hNP (fun i _ => expf (inData i - m))
      outData
  have hsum := team_fork_act_sum P dim hP hNP (fun i => expf (inData i - m))
  rw [h1]
  simp only []
  rw [hout, hsum]
  have h2 : ∀ (S : R) (buf : Int → R),
      team_fork P (fun k outData =>
        pulp_row_div_fp16_cl (P : Int) k ⟨outData, S, (dim : Int)⟩) buf
      = fun i => if 0 ≤ i ∧ i < (dim : Int) then (fun i x => x / S) i (buf i) else buf i :=
    fun S buf => team_fork_act_pointwise P (dim : Int) hP (by omega) hNP (fun i x => x / S) buf
  rw [h2]
  funext i
  by_cases hi : 0 ≤ i ∧ i < (dim : Int)
  · simp only [if_pos hi]
  · simp only [if_neg hi]

end softmax_fw_lemmas


section softmax_fw_claim
variable {R : Type} [LinearOrderedField R]

theorem softmax_ratio (expf : R → R) (hpos : ∀ x, 0 < expf x)
    (hadd : ∀ x y, expf (x + y) = expf x * expf y) (x : Int → R) (d : R) (n : Nat) (i : Int) :
    expf (x i + d) / Finset.sum (Finset.range n) (fun j => expf (x (j : Int) + d))
      = expf (x i) / Finset.sum (Finset.range n) (fun j => expf (x (j : Int))) := by
  have e : ∀ j ∈ Finset.range n, expf (x (j : Int) + d) = expf (x (j : Int)) * expf d :=
    fun j _ => hadd _ _
  rw [Finset.sum_congr rfl e, ← Finset.sum_mul, hadd,
    mul_div_mul_right _ _ (ne_of_gt (hpos d))]

/-- The output of the softmax forward pass does not depend on the value subtracted
before the exponentiation: it is `expf(in[i]) / Σ_j expf(in[j])`. -/
theorem softmax_fw_closed (expf : R → R) (hpos : ∀ x, 0 < expf x)
    (hadd : ∀ x y, expf (x + y) = expf x * expf y) (P dim : Nat) (hP : 1 ≤ P)
    (hNP : (dim : Int) + (P : Int) < 2147483648) (inData inDiff outData outDiff : Int → R) :
    (pulp_softmax_fp16_fw_cl expf P (mk_act_args inData inDiff outData outDiff dim)).output.data
      = fun i => if 0 ≤ i ∧ i < (dim : Int) then
          expf (inData i) / Finset.sum (Finset.range dim) (fun j => expf (inData (j : Int)))
        else outData i := by
  obtain ⟨m, hm⟩ := softmax_fw_data expf P dim hP hNP inData inDiff outData outDiff
  rw [hm]
  funext i
  split
  · simp only [sub_eq_add_neg]
    exact softmax_ratio expf hpos hadd inData (-m) dim i
  · rfl

/-- C21: softmax normalisation.  In exact arithmetic (an ordered field, with an
exponential `expf` that is positive and turns sums into products), with the three
worker kernels behaving as the phases of the spec over the static partition, for
every non-empty input row (`dim ≥ 1`) and every worker count `P ≥ 1`
(`dim + P < 2^31`) the output of `pulp_softmax_fp16_fw_cl` satisfies
`Σ_{i<dim} out[i] = 1`, and the output is unchanged when the same constant `c` is
added to every input element. -/
theorem C21_softmax_normalization (expf : R → R) (hpos : ∀ x, 0 < expf x)
    (hadd : ∀ x y, expf (x + y) = expf x * expf y) (P dim : Nat) (hP : 1 ≤ P) (hdim : 1 ≤ dim)
    (hNP : (dim : Int) + (P : Int) < 2147483648) (inData inDiff outData outDiff : Int → R)
    (c : R) :
    Finset.sum (Finset.range dim) (fun i =>
        (pulp_softmax_fp16_fw_cl expf P
          (mk_act_args inData inDiff outData outDiff dim)).output.data (i : Int)) = 1 ∧
      (pulp_softmax_fp16_fw_cl expf P
          (mk_act_args (fun i => inData i + c) inDiff outData outDiff dim)).output.data
        = (pulp_softmax_fp16_fw_cl expf P
          (mk_act_args inData inDiff outData outDiff dim)).output.data := by
  constructor
  · rw [softmax_fw_closed expf hpos hadd P dim hP hNP inData inDiff outData outDiff]
    have e : ∀ i ∈ Finset.range dim,
        (fun i : Int => if 0 ≤ i ∧ i < (dim : Int) then
            expf (inData i) / Finset.sum (Finset.range dim) (fun j => expf (inData (j : Int)))
          else outData i) (i : Int)
        = expf (inData (i : Int))
            / Finset.sum (Finset.range dim) (fun j => expf (inData (j : Int))) := by
      intro i hi
      have hi2 : i < dim := Finset.mem_range.mp hi
      have hin : 0 ≤ (i : Int) ∧ (i : Int) < (dim : Int) := by omega
      simp only [if_pos hin]
    rw [Finset.sum_congr rfl e, ← Finset.sum_div]
    have hS : 0 < Finset.sum (Finset.range dim) (fun j => expf (inData (j : Int))) :=
      Finset.sum_pos (fun j _ => hpos _) (Finset.nonempty_range_iff.mpr (by omega))
    exact div_self (ne_of_gt hS)
  · rw [softmax_fw_closed expf hpos hadd P dim hP hNP inData inDiff outData outDiff,
      softmax_fw_closed expf hpos hadd P dim hP hNP (fun i => inData i + c) inDiff outData outDiff]
    funext i
    split
    · exact softmax_ratio expf hpos hadd inData c dim i
    · rfl

end softmax_fw_claim

/-- C21, instance: the real exponential, the row `(0, 1, 2)` shifted by `5`, two
workers. -/
theorem C21_softmax_normalization_witness :
    Finset.sum (Finset.range 3) (fun i =>
        (pulp_softmax_fp16_fw_cl Real.exp 2
          (mk_act_args (fun i : Int => (i : Real)) (fun _ => 0) (fun _ => -1) (fun _ => 0)
            (3 : Nat))).output.data (i : Int)) = 1 ∧
      (pulp_softmax_fp16_fw_cl Real.exp 2
          (mk_act_args (fun i => (fun i : Int => (i : Real)) i + 5) (fun _ => 0) (fun _ => -1)
            (fun _ => 0) (3 : Nat))).output.data
        = (pulp_softmax_fp16_fw_cl Real.exp 2
          (mk_act_args (fun i : Int => (i : Real)) (fun _ => 0) (fun _ => -1) (fun _ => 0)
            (3 : Nat))).output.data :=
  C21_softmax_normalization Real.exp Real.exp_pos Real.exp_add 2 3 (by decide) (by decide)
    (by decide) (fun i : Int => (i : Real)) (fun _ => 0) (fun _ => -1) (fun _ => 0) 5


/-! ## In-bounds accesses of the direct CHW input gradient path -/

theorem forNM_some {σ : Type} (n : Nat) (body : Nat → σ → Option σ) (body2 : Nat → σ → σ)
    (h : ∀ k, k < n → ∀ s, body k s = some (body2 k s)) (s : σ) :
    forNM n body s = some (forN n body2 s) := by
  induction n with
  | zero => rfl
  | succ m ih =>
    show (forNM m body s).bind (body m) = some (body2 m (forN m body2 s))
    rw [ih (fun k hk => h k (by omega)), Option.some_bind, h m (by omega)]

theorem forLoopM_some {σ : Type} (lo hi : Int) (body : Int → σ → Option σ)
    (body2 : Int → σ → σ)
    (h : ∀ k, lo ≤ k → k < hi → ∀ s, body k s = some (body2 k s)) (s : σ) :
    forLoopM lo hi body s = some (forLoop lo hi body2 s) :=
  forNM_some (hi - lo).toNat _ (fun k => body2 (lo + (k : Int)))
    (fun k hk s => h _ (by omega) (by omega) s) s

theorem in_grad_read_index (Wk Hk Co Hox Wox Hin Win hi wi co hk wk : Int)
    (hHin : Hin < 2147483648) (hWin : Win < 2147483648)
    (hHk : Hk < 2147483648) (hWk : Wk < 2147483648)
    (hi0 : 0 ≤ hi) (hi1 : hi < Hin) (wi0 : 0 ≤ wi) (wi1 : wi < Win)
    (co0 : 0 ≤ co) (co1 : co < Co) (hk0 : 0 ≤ hk) (hk1 : hk < Hk) (wk0 : 0 ≤ wk) (wk1 : wk < Wk)
    (hout : Co * Hox * Wox ≤ 2147483648)
    (hg : ¬ (i32 (hk + i32 (hi - (Hk - 1))) < 0 ∨ i32 (wk + i32 (wi - (Wk - 1))) < 0
      ∨ i32 (hk + i32 (hi - (Hk - 1))) ≥ Hox ∨ i32 (wk + i32 (wi - (Wk - 1))) ≥ Wox)) :
    i32 (i32 (i32 (wi - (Wk - 1)) + i32 (hi - (Hk - 1)) * Wox + co * Hox * Wox)
        + i32 (wk + hk * Wox))
      = co * Hox * Wox + (hi - (Hk - 1) + hk) * Wox + (wi - (Wk - 1) + wk) ∧
    0 ≤ co * Hox * Wox + (hi - (Hk - 1) + hk) * Wox + (wi - (Wk - 1) + wk) ∧
    co * Hox * Wox + (hi - (Hk - 1) + hk) * Wox + (wi - (Wk - 1) + wk) < Co * Hox * Wox := by
  have e1 : i32 (hi - (Hk - 1)) = hi - (Hk - 1) := i32_of_range (by omega) (by omega)
  have e2 : i32 (wi - (Wk - 1)) = wi - (Wk - 1) := i32_of_range (by omega) (by omega)
  have e3 : i32 (hk + (hi - (Hk - 1))) = hi - (Hk - 1) + hk := by
    rw [i32_of_range (by omega) (by omega)]; ring
  have e4 : i32 (wk + (wi - (Wk - 1))) = wi - (Wk - 1) + wk := by
    rw [i32_of_range (by omega) (by omega)]; ring
  rw [e1, e2, e3, e4] at hg
  rw [e1, e2]
  have h0 : 0 ≤ hi - (Hk - 1) + hk := by omega
  have h1 : hi - (Hk - 1) + hk < Hox := by omega
  have w0 : 0 ≤ wi - (Wk - 1) + wk := by omega
  have w1 : wi - (Wk - 1) + wk < Wox := by omega
  have n1 := radix_nonneg co (hi - (Hk - 1) + hk) Hox co0 h0 h1
  have n2 := radix_nonneg _ (wi - (Wk - 1) + wk) Wox n1 w0 w1
  have l1 := radix_lt co (hi - (Hk - 1) + hk) Co Hox co1 h0 h1
  have l2 := radix_lt _ (wi - (Wk - 1) + wk) _ Wox l1 w0 w1
  have ea : (wi - (Wk - 1)) + (hi - (Hk - 1)) * Wox + co * Hox * Wox + (wk + hk * Wox)
      = (co * Hox + (hi - (Hk - 1) + hk)) * Wox + (wi - (Wk - 1) + wk) := by ring
  have eb : co * Hox * Wox + (hi - (Hk - 1) + hk) * Wox + (wi - (Wk - 1) + wk)
      = (co * Hox + (hi - (Hk - 1) + hk)) * Wox + (wi - (Wk - 1) + wk) := by ring
  rw [eb]
  refine ⟨?_, n2, l2⟩
  generalize (co * Hox + (hi - (Hk - 1) + hk)) * Wox + (wi - (Wk - 1) + wk) = t at *
  generalize (wi - (Wk - 1)) + (hi - (Hk - 1)) * Wox + co * Hox * Wox = x at *
  generalize wk + hk * Wox = y at *
  unfold i32
  omega

section in_bounds
variable {α : Type} [Zero α]

theorem im2col_chw_direct_in_grad_checked_eq (output_diff : Int → α)
    (Win Hin Wk Hk Co Hox Wox start stop : Int) (buf : Int → α)
    (hstart : 0 ≤ start) (hstop : stop ≤ Co)
    (hHin : Hin < 2147483648) (hWin : Win < 2147483648)
    (hHk : Hk < 2147483648) (hWk : Wk < 2147483648)
    (hout : Co * Hox * Wox ≤ 2147483648)
    (hbuf : Hin * Win * Co * Hk * Wk ≤ 2147483648) :
    im2col_chw_direct_in_grad_checked output_diff (Co * Hox * Wox) (Hin * Win * Co * Hk * Wk)
        Win Hin Wk Hk Co Hox Wox start stop buf
      = some (im2col_chw_direct_in_grad output_diff Win Hin Wk Hk Co Hox Wox start stop buf) := by
  unfold im2col_chw_direct_in_grad_checked im2col_chw_direct_in_grad
  refine forLoopM_some 0 Hin _ _ (fun hi hi0 hi1 s => ?_) buf
  refine forLoopM_some 0 Win _ _ (fun wi wi0 wi1 s => ?_) s
  refine forLoopM_some start stop _ _ (fun co co0 co1 s => ?_) s
  refine forLoopM_some 0 Hk _ _ (fun hk hk0 hk1 s => ?_) s
  refine forLoopM_some 0 Wk _ _ (fun wk wk0 wk1 s => ?_) s
  have hw := chw_store_index Win Co Hk Wk hi wi co hk wk Hin hi0 hi1 wi0 wi1
    (by omega) (by omega) hk0 hk1 wk0 wk1 hbuf
  have hwb := chw_index_bounds Hin Win Co Hk Wk hi wi co hk wk hi0 hi1 wi0 wi1
    (by omega) (by omega) hk0 hk1 wk0 wk1
  simp only [hw]
  by_cases hg : i32 (hk + i32 (hi - (Hk - 1))) < 0 ∨ i32 (wk + i32 (wi - (Wk - 1))) < 0
      ∨ i32 (hk + i32 (hi - (Hk - 1))) ≥ Hox ∨ i32 (wk + i32 (wi - (Wk - 1))) ≥ Wox
  · rw [if_pos hg, if_pos hg]
    unfold write_at
    rw [if_pos hwb]
  · rw [if_neg hg, if_neg hg]
    obtain ⟨hr, hr0, hr1⟩ := in_grad_read_index Wk Hk Co Hox Wox Hin Win hi wi co hk wk
      hHin hWin hHk hWk hi0 hi1 wi0 wi1 (by omega) (by omega) hk0 hk1 wk0 wk1 hout hg
    rw [hr]
    unfold read_at write_at
    rw [if_pos ⟨hr0, hr1⟩, Option.some_bind, if_pos hwb]

end in_bounds

section in_bounds_claim
variable {α : Type} [Zero α]

/-- C31: in-bounds accesses in input gradient mode.  In the direct CHW input
gradient path of `pulp_im2col_fp32`, for extents `Hin, Win, Co, Hk, Wk, Hox, Wox`
that are non-negative `int` values (in particular all `≥ 1`), an output gradient of
at most `2^31` elements, an im2col buffer of at most `2^31` elements, strides at
least 1 and every worker `k` of `P ≥ 1` workers (`Co + P ≤ 2^31`): the call of
worker `k` executes lines 173-209 on its channel slice; executed with total
indexing, where a read of `output.diff` outside `[0, Co*Hox*Wox)` or a store to
`i2c_buf` outside `[0, Hin*Win*Co*Hk*Wk)` fails, that path never fails and leaves
the same buffer; and for all loop coordinates the store index lies in
`[0, Hin*Win*Co*Hk*Wk)` and the read index, when the statement reads, lies in
`[0, Co*Hox*Wox)`. -/
theorem C31_in_grad_in_bounds (P k : Nat) (input_data output_diff buf : Int → α)
    (Cin Hin Win Hk Wk Co Hox Wox Lpad Rpad Upad Dpad Hstr Wstr : Int)
    (hP : 1 ≤ P) (hk : k < P) (hCo : 0 ≤ Co) (hCP : Co + P ≤ 2147483648)
    (hHin : fits_int Hin) (hWin : fits_int Win) (hHk : fits_int Hk) (hWk : fits_int Wk)
    (hHox : fits_int Hox) (hWox : fits_int Wox)
    (hHs1 : 1 ≤ Hstr) (hHs : Hstr < 256) (hWs1 : 1 ≤ Wstr) (hWs : Wstr < 256)
    (hout : Co * Hox * Wox ≤ 2147483648)
    (hbuf : Hin * Win * Co * Hk * Wk ≤ 2147483648) :
    pulp_im2col_fp32 (P : Int) (k : Int)
        (mk_args input_data output_diff buf Cin Hin Win Hk Wk Co Hox Wox
          Lpad Rpad Upad Dpad Hstr Wstr 1 0 0)
      = some ⟨im2col_chw_direct_in_grad output_diff Win Hin Wk Hk Co Hox Wox
          (block_range P k Co).1 (block_range P k Co).2 buf, []⟩ ∧
    im2col_chw_direct_in_grad_checked output_diff (Co * Hox * Wox) (Hin * Win * Co * Hk * Wk)
        Win Hin Wk Hk Co Hox Wox (block_range P k Co).1 (block_range P k Co).2 buf
      = some (im2col_chw_direct_in_grad output_diff Win Hin Wk Hk Co Hox Wox
          (block_range P k Co).1 (block_range P k Co).2 buf) ∧
    (∀ hi wi co hk wk, 0 ≤ hi → hi < Hin → 0 ≤ wi → wi < Win → 0 ≤ co → co < Co →
      0 ≤ hk → hk < Hk → 0 ≤ wk → wk < Wk →
      (0 ≤ chw_dest Win Co Hk Wk (hi, wi, co, hk, wk) ∧
        chw_dest Win Co Hk Wk (hi, wi, co, hk, wk) < Hin * Win * Co * Hk * Wk) ∧
      ∀ idx, chw_in_grad_read Wk Hk Hox Wox hi wi co hk wk = some idx →
        0 ≤ idx ∧ idx < Co * Hox * Wox) := by
  have hPi : (1 : Int) ≤ (P : Int) := by omega
  obtain ⟨hHin0, hHin1⟩ := hHin
  obtain ⟨hWin0, hWin1⟩ := hWin
  obtain ⟨hHk0, hHk1⟩ := hHk
  obtain ⟨hWk0, hWk1⟩ := hWk
  have hHs8 : u8 Hstr ≠ 0 := by rw [u8_of_range (by omega) hHs]; omega
  have hWs8 : u8 Wstr ≠ 0 := by rw [u8_of_range (by omega) hWs]; omega
  have hb := block_range_bounds P k Co hPi hCo hCP (by omega) (by omega)
  refine ⟨?_, ?_, ?_⟩
  · exact call_chw_direct_in_grad (P : Int) (k : Int) input_data output_diff buf
      Cin Hin Win Hk Wk Co Hox Wox Lpad Rpad Upad Dpad Hstr Wstr hPi (by omega) (by omega)
      hCo hCP ⟨hHin0, by omega⟩ ⟨hWin0, by omega⟩ ⟨hHk0, by omega⟩ ⟨hWk0, by omega⟩
      hHox hWox hHs8 hWs8
  · exact im2col_chw_direct_in_grad_checked_eq output_diff Win Hin Wk Hk Co Hox Wox _ _ buf
      hb.1 hb.2 hHin1 hWin1 hHk1 hWk1 hout hbuf
  · intro hi wi co hk wk hi0 hi1 wi0 wi1 co0 co1 hk0 hk1 wk0 wk1
    constructor
    · have ht : (hi, wi, co, hk, wk) ∈ chw_box Hin Win Co Hk Wk :=
        ⟨⟨hi0, hi1⟩, ⟨wi0, wi1⟩, ⟨co0, co1⟩, ⟨hk0, hk1⟩, ⟨wk0, wk1⟩⟩
      rw [chw_dest_eq Hin Win Co Hk Wk _ ht hbuf]
      exact chw_index_bounds Hin Win Co Hk Wk hi wi co hk wk hi0 hi1 wi0 wi1 co0 co1
        hk0 hk1 wk0 wk1
    · intro idx hidx
      unfold chw_in_grad_read at hidx
      simp only [] at hidx
      by_cases hg : i32 (hk + i32 (hi - (Hk - 1))) < 0 ∨ i32 (wk + i32 (wi - (Wk - 1))) < 0
          ∨ i32 (hk + i32 (hi - (Hk - 1))) ≥ Hox ∨ i32 (wk + i32 (wi - (Wk - 1))) ≥ Wox
      · rw [if_pos hg] at hidx
        exact absurd hidx (by simp)
      · rw [if_neg hg] at hidx
        obtain ⟨hr, hr0, hr1⟩ := in_grad_read_index Wk Hk Co Hox Wox Hin Win hi wi co hk wk
          hHin1 hWin1 hHk1 hWk1 hi0 hi1 wi0 wi1 co0 co1 hk0 hk1 wk0 wk1 hout hg
        rw [hr] at hidx
        have := Option.some.inj hidx
        omega

/-- C31, instance: output gradient `[C=2, H=2, W=2]` holding `1, ..., 8`, input
extents `[1, 4, 4]`, kernel `3x3`, worker 1 of two workers. -/
theorem C31_in_grad_in_bounds_witness :
    pulp_im2col_fp32 ((2 : Nat) : Int) ((1 : Nat) : Int)
        (mk_args (fun _ => 0) (fun i : Int => i + 1) (fun _ => (-1 : Int)) 1 4 4 3 3 2 2 2
          0 0 0 0 1 1 1 0 0)
      = some ⟨im2col_chw_direct_in_grad (fun i : Int => i + 1) 4 4 3 3 2 2 2
          (block_range (2 : Nat) (1 : Nat) 2).1 (block_range (2 : Nat) (1 : Nat) 2).2
          (fun _ => (-1 : Int)), []⟩ ∧
    im2col_chw_direct_in_grad_checked (fun i : Int => i + 1) (2 * 2 * 2) (4 * 4 * 2 * 3 * 3)
        4 4 3 3 2 2 2 (block_range (2 : Nat) (1 : Nat) 2).1 (block_range (2 : Nat) (1 : Nat) 2).2
        (fun _ => (-1 : Int))
      = some (im2col_chw_direct_in_grad (fun i : Int => i + 1) 4 4 3 3 2 2 2
          (block_range (2 : Nat) (1 : Nat) 2).1 (block_range (2 : Nat) (1 : Nat) 2).2
          (fun _ => (-1 : Int))) ∧
    (∀ hi wi co hk wk, 0 ≤ hi → hi < 4 → 0 ≤ wi → wi < 4 → 0 ≤ co → co < 2 →
      0 ≤ hk → hk < 3 → 0 ≤ wk → wk < 3 →
      (0 ≤ chw_dest 4 2 3 3 (hi, wi, co, hk, wk) ∧
        chw_dest 4 2 3 3 (hi, wi, co, hk, wk) < 4 * 4 * 2 * 3 * 3) ∧
      ∀ idx, chw_in_grad_read 3 3 2 2 hi wi co hk wk = some idx →
        0 ≤ idx ∧ idx < 2 * 2 * 2) :=
  C31_in_grad_in_bounds 2 1 (fun _ => 0) (fun i : Int => i + 1) (fun _ => (-1 : Int))
    1 4 4 3 3 2 2 2 0 0 0 0 1 1 (by decide) (by decide) (by decide) (by decide)
    (by decide) (by decide) (by decide) (by decide) (by decide) (by decide)
    (by decide) (by decide) (by decide) (by decide) (by decide) (by decide)

end in_bounds_claim

end PulpTrainLib
